import Mathlib

/-! The API explorer of `internal/txlib`: session store, resolver, edit engine, command tree

A shallow embedding of `internal/txlib/api_explorer/utils.go` and of the resolver, the
delete command and the command tree of `internal/txlib/api_explorer_new/main.go`.

Modelling conventions.

* Go strings are Lean strings.  Every string that reaches the code below was decoded from
  JSON (schema names, identifiers, links) or is an ASCII literal, so it is valid UTF-8, and
  for the ASCII names of the schema `s[:len(s)-1]` drops the last character.
* A JSON text is modelled by the value it denotes (`JVal`); `none : Option JVal` stands for
  bytes that are not JSON.  An object is the list of its members, keys pairwise different.
* A Go function with side effects is a function `World → Except Failure α × World`
  (`Prog α`): the world after the call is returned also when the call fails.  The world is
  the part of the file system the code touches plus the log of the calls made to the outside
  (file system, HTTP client, picker, editor, pager).
* What the outside answers (HTTP bodies, the operator's choice in the picker, the editor's
  output) is read from an environment `Env`.
* `main.go` is package `api_explorer_new`; the session store of that package is not among
  the source files.  Where `main.go` reads or saves a value, the store is embedded by
  `save` and `load` of `utils.go`, and the statements hold for whatever the store returns.
  Where the file of the store matters (`clear all`), the store is `sessionSave` and
  `sessionLoad`, on the file that `main.go` names for it.
* The flags are those of package `cli`, which looks a flag up by its name cut at the first
  comma or space (`lookupName`).
-/

namespace ApiExplorer

/-! ## Values -/

/-- A failed run: an `error` value returned by the Go code, a run-time panic, or a run that
does not come back within the bound given to the model. -/
inductive Failure where
  /-- An error returned by a call of package `os`. -/
  | osError (op : String) (path : String)
  /-- An error returned by `json.Unmarshal`. -/
  | jsonError
  /-- An error made by `errors.New` or `fmt.Errorf`. -/
  | message (text : String)
  /-- An error returned by a collaborator (HTTP client, picker, editor, pager). -/
  | collaborator (what : String)
  /-- A run-time panic. -/
  | panicked (what : String)
  /-- The recursion or loop bound of the model was reached. -/
  | outOfFuel
  deriving DecidableEq, Repr

/-- A JSON value as `encoding/json` decodes it into `interface{}`: `nil`, `bool`, `float64`
(a rational here: every finite `float64` is one, and `==` on finite floats is equality of
the numbers), `string`, `[]interface{}` and `map[string]interface{}`. -/
inductive JVal where
  | null
  | bool (b : Bool)
  | num (q : ℚ)
  | str (s : String)
  | arr (items : List JVal)
  | obj (members : List (String × JVal))

/-- A Go `map[string]V` that is not nil, as the list of its entries. -/
abbrev GoMap (V : Type) := List (String × V)

/-- The Go expression `value, exists := m[key]` on a map. -/
def mapGet {V : Type} (m : GoMap V) (key : String) : Option V :=
  match m with
  | [] => none
  | (k, v) :: rest => if k = key then some v else mapGet rest key

/-- The Go builtin `delete(m, key)`. -/
def mapDelete {V : Type} (m : GoMap V) (key : String) : GoMap V :=
  m.filter (fun e => decide (e.1 ≠ key))

/-- The Go statement `m[key] = value`. -/
def mapSet {V : Type} (m : GoMap V) (key : String) (value : V) : GoMap V :=
  mapDelete m key ++ [(key, value)]

/-- The keys of a map. -/
def mapKeys {V : Type} (m : GoMap V) : List String := m.map Prod.fst

/-! ## The world -/

/-- The two files the code names. -/
inductive FileId where
  /-- The file `.tx/api_explorer_data.json`, read and written by `save`, `load`, `clear`
  of `utils.go`. -/
  | dataJson
  /-- The file `.tx/api_explorer_session.json`, which `main.go` names as the file of its
  session store and which `clear all` removes. -/
  | sessionJson
  deriving DecidableEq, Repr

/-- The path of a file, as written in the source. -/
def FileId.path : FileId → String
  | .dataJson => ".tx/api_explorer_data.json"
  | .sessionJson => ".tx/api_explorer_session.json"

/-- What the file system holds at a path. -/
inductive FileState where
  /-- No such file: `os.Stat` fails with `os.ErrNotExist`. -/
  | absent
  /-- A regular file and the JSON value of its bytes (`none`: not JSON). -/
  | present (body : Option JVal)
  /-- The path cannot be used: `os.Stat` fails with another error. -/
  | denied

/-- The part of the file system the code touches. -/
structure FS where
  /-- Whether the directory `.tx` exists. -/
  txDir : Bool
  /-- The state of `.tx/api_explorer_data.json`. -/
  dataFile : FileState
  /-- The state of `.tx/api_explorer_session.json`. -/
  sessionFile : FileState
  /-- Whether the file system refuses every change. -/
  readOnly : Bool

/-- The state of a file. -/
def FS.file (fs : FS) : FileId → FileState
  | .dataJson => fs.dataFile
  | .sessionJson => fs.sessionFile

/-- The file system with one file replaced. -/
def FS.setFile (fs : FS) (f : FileId) (st : FileState) : FS :=
  match f with
  | .dataJson => { fs with dataFile := st }
  | .sessionJson => { fs with sessionFile := st }

/-- A resource as package `jsonapi` holds it: type, identifier and attributes (`none`: a nil
map). -/
structure Resource where
  type : String
  id : String
  attributes : Option (GoMap JVal)

/-- A call made to the outside. -/
inductive Event where
  | stat (path : String)
  | mkdir (path : String)
  | readFile (path : String)
  | writeFile (path : String)
  | remove (path : String)
  /-- The call `api.ListBody(resource, query.Encode())`, with the filters of the query. -/
  | listBody (resource : String) (filters : GoMap String)
  /-- The call `api.ListBodyFromPath(url)`. -/
  | listBodyFromPath (url : String)
  /-- The call `fuzzyfinder.Find`: the labels shown, in order, and the header. -/
  | find (labels : List String) (header : String)
  /-- The editor is run on a document. -/
  | editor (document : Option JVal)
  /-- The pager is run on a body. -/
  | pager
  /-- The call `item.Save(fields)`, with the resource as it is at the call. -/
  | saveResource (item : Resource) (fields : List String)
  /-- The call `fuzzyfinder.FindMulti`: the labels shown, in order. -/
  | findMulti (labels : List String)
  /-- A line is read from standard input. -/
  | readLine
  /-- The call `resource.Delete()`. -/
  | deleteResource (item : Resource)

/-- The world: file system and log of the calls made to the outside, oldest first. -/
structure World where
  fs : FS
  trace : List Event

/-- A Go function with side effects. -/
def Prog (α : Type) : Type := World → Except Failure α × World

/-- A function that returns without touching the world. -/
def Prog.ret {α : Type} (a : α) : Prog α := fun w => (.ok a, w)

/-- A function that fails. -/
def Prog.fail {α : Type} (e : Failure) : Prog α := fun w => (.error e, w)

/-- Sequencing: the Go idiom `x, err := m(); if err != nil { return err }; ...`. -/
def Prog.andThen {α β : Type} (m : Prog α) (f : α → Prog β) : Prog β := fun w =>
  match m w with
  | (.ok a, w1) => f a w1
  | (.error e, w1) => (.error e, w1)

instance : Monad Prog where
  pure := Prog.ret
  bind := Prog.andThen

/-- Log a call to the outside. -/
def emit (ev : Event) : Prog Unit := fun w =>
  (.ok (), { w with trace := w.trace ++ [ev] })

/-- The result of a pure step that may fail. -/
def liftExcept {α : Type} : Except Failure α → Prog α
  | .ok a => Prog.ret a
  | .error e => Prog.fail e

/-! ## Package `os` -/

/-- The three outcomes of `os.Stat` the code tells apart. -/
inductive StatResult where
  | found
  | notExist
  | failed
  deriving DecidableEq, Repr

/-- The call `os.Stat(".tx")` followed by `os.IsNotExist(err)`. -/
def statTxDirIsNotExist : Prog Bool := fun w =>
  (.ok (!w.fs.txDir), { w with trace := w.trace ++ [.stat ".tx"] })

/-- The call `os.Mkdir(".tx", 0755)`. -/
def mkdirTx : Prog Unit := fun w =>
  let w1 : World := { w with trace := w.trace ++ [.mkdir ".tx"] }
  if w.fs.readOnly then (.error (.osError "mkdir" ".tx"), w1)
  else (.ok (), { w1 with fs := { w.fs with txDir := true } })

/-- The call `os.Stat(path)` on one of the two files. -/
def statFile (f : FileId) : Prog StatResult := fun w =>
  let w1 : World := { w with trace := w.trace ++ [.stat f.path] }
  match w.fs.file f with
  | .absent => (.ok .notExist, w1)
  | .present _ => (.ok .found, w1)
  | .denied => (.ok .failed, w1)

/-- The call `os.ReadFile(path)`. -/
def readFile (f : FileId) : Prog (Option JVal) := fun w =>
  let w1 : World := { w with trace := w.trace ++ [.readFile f.path] }
  match w.fs.file f with
  | .present body => (.ok body, w1)
  | _ => (.error (.osError "open" f.path), w1)

/-- The call `os.WriteFile(path, body, 0644)`. -/
def writeFile (f : FileId) (body : Option JVal) : Prog Unit := fun w =>
  let w1 : World := { w with trace := w.trace ++ [.writeFile f.path] }
  match w.fs.file f with
  | .denied => (.error (.osError "open" f.path), w1)
  | _ =>
    if w.fs.readOnly || !w.fs.txDir then (.error (.osError "open" f.path), w1)
    else (.ok (), { w1 with fs := w.fs.setFile f (.present body) })

/-- The call `os.Remove(path)`. -/
def removeFile (f : FileId) : Prog Unit := fun w =>
  let w1 : World := { w with trace := w.trace ++ [.remove f.path] }
  match w.fs.file f with
  | .present _ =>
    if w.fs.readOnly then (.error (.osError "remove" f.path), w1)
    else (.ok (), { w1 with fs := w.fs.setFile f .absent })
  | _ => (.error (.osError "remove" f.path), w1)

/-! ## Package `encoding/json` -/

/-- Decoding the members of an object into a `map[string]string`: a string is stored, `null`
stores the zero value, any other value is an `UnmarshalTypeError`. -/
def decodeStringMembers : List (String × JVal) → Except Failure (GoMap String)
  | [] => .ok []
  | (k, .str s) :: rest =>
    match decodeStringMembers rest with
    | .ok m => .ok ((k, s) :: m)
    | .error e => .error e
  | (k, .null) :: rest =>
    match decodeStringMembers rest with
    | .ok m => .ok ((k, "") :: m)
    | .error e => .error e
  | _ :: _ => .error .jsonError

/-- The call `json.Unmarshal(body, &data)` with `var data map[string]string`; the result
`none` is the nil map, which `null` leaves in place. -/
def unmarshalStringMap : Option JVal → Except Failure (Option (GoMap String))
  | none => .error .jsonError
  | some .null => .ok none
  | some (.obj members) =>
    match decodeStringMembers members with
    | .ok m => .ok (some m)
    | .error e => .error e
  | some _ => .error .jsonError

/-- The call `json.MarshalIndent(data, "", "  ")` on a `map[string]string`. -/
def marshalStringMap : Option (GoMap String) → Option JVal
  | none => some .null
  | some m => some (.obj (m.map (fun e => (e.1, JVal.str e.2))))

/-! ## The session store (`utils.go`) -/

/-- The function `save` of `utils.go`. -/
def save (key value : String) : Prog Unit := do
  let isNotExist ← statTxDirIsNotExist
  (if isNotExist then mkdirTx else pure ())
  let st ← statFile .dataJson
  let body ← (match st with
    | .found => readFile .dataJson
    | .notExist => pure (some (JVal.obj []))
    | .failed => Prog.fail (.osError "stat" FileId.dataJson.path))
  let data ← liftExcept (unmarshalStringMap body)
  match data with
  | none => Prog.fail (.panicked "assignment to entry in nil map")
  | some m => writeFile .dataJson (marshalStringMap (some (mapSet m key value)))

/-- The function `load` of `utils.go`. -/
def load (key : String) : Prog String := do
  let st ← statFile .dataJson
  match st with
  | .notExist => pure ""
  | .failed => Prog.fail (.osError "stat" FileId.dataJson.path)
  | .found =>
    let body ← readFile .dataJson
    let data ← liftExcept (unmarshalStringMap body)
    match data with
    | none => pure ""
    | some m =>
      match mapGet m key with
      | none => pure ""
      | some value => pure value

/-- The function `clear` of `utils.go`. -/
def clear (key : String) : Prog Unit := do
  let st ← statFile .dataJson
  match st with
  | .notExist => pure ()
  | .failed => Prog.fail (.osError "stat" FileId.dataJson.path)
  | .found =>
    let body ← readFile .dataJson
    let data ← liftExcept (unmarshalStringMap body)
    match data with
    | none => writeFile .dataJson (marshalStringMap none)
    | some m => writeFile .dataJson (marshalStringMap (some (mapDelete m key)))

/-- The action of the command `clear all` in `Cmd`: `os.Remove` of the session path. -/
def clearAllAction : Prog Unit :=
  removeFile .sessionJson

/-- Modelled from the spec: the function `save` that the commands of `main.go` call is the
one of their own package `api_explorer_new`, which is not in the source files. It is
modelled by the contract of the Session Store (read the whole object, set one key, rewrite
the whole file), step by step as `save` of `utils.go`, on the file that `main.go` names for
the store (line 714), `.tx/api_explorer_session.json`. -/
def sessionSave (key value : String) : Prog Unit := do
  let isNotExist ← statTxDirIsNotExist
  (if isNotExist then mkdirTx else pure ())
  let st ← statFile .sessionJson
  let body ← (match st with
    | .found => readFile .sessionJson
    | .notExist => pure (some (JVal.obj []))
    | .failed => Prog.fail (.osError "stat" FileId.sessionJson.path))
  let data ← liftExcept (unmarshalStringMap body)
  match data with
  | none => Prog.fail (.panicked "assignment to entry in nil map")
  | some m => writeFile .sessionJson (marshalStringMap (some (mapSet m key value)))

/-- Modelled from the spec: the function `load` that the commands of `main.go` call is the
one of their own package `api_explorer_new`, which is not in the source files. It is
modelled by the contract of the Session Store (an empty value for a missing file or a
missing key, never an error), step by step as `load` of `utils.go`, on the file that
`main.go` names for the store (line 714), `.tx/api_explorer_session.json`. -/
def sessionLoad (key : String) : Prog String := do
  let st ← statFile .sessionJson
  match st with
  | .notExist => pure ""
  | .failed => Prog.fail (.osError "stat" FileId.sessionJson.path)
  | .found =>
    let body ← readFile .sessionJson
    let data ← liftExcept (unmarshalStringMap body)
    match data with
    | none => pure ""
    | some m =>
      match mapGet m key with
      | none => pure ""
      | some value => pure value

/-! ## The collaborators -/

/-- A list response as the code decodes it: the items that
`jsonapi.PostProcessListResponse` returns, and the links `links.next` and `links.previous`
(the empty string for a link that is `null` or missing). -/
structure ListPayload where
  data : List Resource
  next : String
  previous : String

/-- The bytes of a response body: `none` for bytes that do not decode. -/
abbrev Body := Option ListPayload

/-- What the outside answers. -/
structure Env where
  /-- The value `c.String(name)` of a flag; the empty string for a flag that is not set. -/
  flags : String → String
  /-- The outcome of `getApi(c)`. -/
  getApi : Except Failure Unit
  /-- The answer to `api.ListBody(resource, query.Encode())`. -/
  listBodyAnswer : String → GoMap String → Except Failure Body
  /-- The answer to `api.ListBodyFromPath(url)`. -/
  listBodyFromPathAnswer : String → Except Failure Body
  /-- The index `fuzzyfinder.Find` returns for the labels and the header shown. -/
  findAnswer : List String → String → Except Failure Nat
  /-- The bytes the editor leaves for the document it was given. -/
  editorAnswer : Option JVal → Except Failure (Option JVal)
  /-- The outcome of running the pager on a body. -/
  pagerAnswer : Body → Except Failure Unit
  /-- The outcome of `item.Save(fields)`. -/
  saveAnswer : Resource → List String → Except Failure Unit
  /-- The label of a resource under a `Display` format. -/
  render : String → Resource → String
  /-- The indices `fuzzyfinder.FindMulti` returns for the labels shown. -/
  findMultiAnswer : List String → Except Failure (List Nat)
  /-- The line `reader.ReadString('\n')` returns, its line end included. -/
  readLineAnswer : Except Failure String
  /-- The outcome of `resource.Delete()`. -/
  deleteAnswer : Resource → Except Failure Unit

/-- The call `api.ListBody(resourceName, query.Encode())`. -/
def listBody (env : Env) (resourceName : String) (filters : GoMap String) : Prog Body := do
  emit (.listBody resourceName filters)
  liftExcept (env.listBodyAnswer resourceName filters)

/-- The call `api.ListBodyFromPath(url)`. -/
def listBodyFromPath (env : Env) (url : String) : Prog Body := do
  emit (.listBodyFromPath url)
  liftExcept (env.listBodyFromPathAnswer url)

/-- The call `fuzzyfinder.Find(data, itemFunc, ...)`, given the labels `itemFunc` yields. -/
def find (env : Env) (labels : List String) (header : String) : Prog Nat := do
  emit (.find labels header)
  liftExcept (env.findAnswer labels header)

/-- Modelled from the spec: `invokePager` is not in the source files; the pager is the
capability that receives a document on its standard input. -/
def invokePager (env : Env) (body : Body) : Prog Unit := do
  emit .pager
  liftExcept (env.pagerAnswer body)

/-- The call `json.Unmarshal(body, &payload)` on a response body. -/
def unmarshalPayload : Body → Except Failure ListPayload
  | none => .error .jsonError
  | some payload => .ok payload

/-! ## Pagination (`utils.go`, `main.go`) -/

/-- The function `handlePagination` of `utils.go`. -/
def handlePagination (body : Body) : Prog Unit := do
  let payload ← liftExcept (unmarshalPayload body)
  (if payload.next ≠ "" then save "next" payload.next else pure ())
  (if payload.previous ≠ "" then save "previous" payload.previous else pure ())

/-- The action of the command `get next` in `Cmd`. -/
def getNextAction (env : Env) : Prog Unit := do
  liftExcept env.getApi
  let url ← load "next"
  if url = "" then Prog.fail (.message "last request did not have a next page")
  else do
    let body ← listBodyFromPath env url
    handlePagination body
    invokePager env body

/-! ## The schema (`jsopenapi_t`) -/

/-- A filter of `get_many`. -/
structure Filter where
  description : String
  resource : String
  required : Bool

/-- The operation `get_many`. -/
structure GetMany where
  summary : String
  filters : GoMap Filter

/-- An operation of which the code reads the summary only: `get_one`, `create_one`,
`delete`, `select`, `clear`, and the operations `change` and `get` of a relationship. -/
structure Summary where
  summary : String

/-- The operation `edit_one`. -/
structure EditOne where
  summary : String
  fields : List String

/-- A relationship of a resource. -/
structure Relationship where
  resource : String
  change : Option Summary := none
  get : Option Summary := none

/-- The operations of a resource; `none` is the nil pointer of an operation that the
schema does not have. -/
structure Operations where
  getMany : Option GetMany
  getOne : Option Summary := none
  createOne : Option Summary := none
  editOne : Option EditOne := none
  delete : Option Summary := none
  select : Option Summary := none
  clear : Option Summary := none

/-- A resource of the schema. -/
structure ResourceSchema where
  operations : Operations
  relationships : GoMap Relationship := []
  display : String

/-- The field `Resources` of `jsopenapi_t`. -/
abbrev Schema := GoMap ResourceSchema

/-- The Go expression `jsopenapi.Resources[resourceName]`: the zero value for a name that is
not in the map. -/
def Schema.resource (jsopenapi : Schema) (resourceName : String) : ResourceSchema :=
  match mapGet jsopenapi resourceName with
  | some r => r
  | none => { operations := { getMany := none }, display := "" }

/-- The Go expression `resourceName[:len(resourceName)-1]`, which panics on the empty
string. -/
def singular (resourceName : String) : Except Failure String :=
  if resourceName = "" then .error (.panicked "slice bounds out of range [:-1]")
  else .ok (String.mk resourceName.data.dropLast)

/-- The call `strings.ReplaceAll(s, "__", "-")` on the characters of `s`. -/
def replaceDoubleUnderscore : List Char → List Char
  | '_' :: '_' :: rest => '-' :: replaceDoubleUnderscore rest
  | c :: rest => c :: replaceDoubleUnderscore rest
  | [] => []

/-- The flag name of a filter that is not a resource: `__` rewritten to `-`. -/
def filterFlagName (filterName : String) : String :=
  String.mk (replaceDoubleUnderscore filterName.data)

/-! ## The selection adapter (`utils.go`) -/

/-- The zero value `jsonapi.Resource{}`. -/
def emptyResource : Resource := { type := "", id := "", attributes := none }

/-- The function `fuzzy` of `utils.go`. The labels are what the item function of the call
to `fuzzyfinder.Find` yields for the indices of `data`. -/
def fuzzy (env : Env) (body : Body) (header : String)
    (pprint : Option (Resource → String)) (allowEmpty : Bool) : Prog String := do
  let items ← liftExcept (unmarshalPayload body)
  let data := if allowEmpty then emptyResource :: items.data else items.data
  let pprint := match pprint with
    | some f => f
    | none => fun obj => obj.id
  let labels := data.mapIdx
    (fun i item => if allowEmpty && i == 0 then "<empty>" else pprint item)
  let idx ← find env labels header
  match data[idx]? with
  | some item => pure item.id
  | none => Prog.fail (.panicked "index out of range")

/-! ## The resolver (`main.go`) -/

/-- Modelled from the spec: `joinPages` is not in the source files; it follows the
pagination links of a list response until the full result set is combined. The bound is
the number of further pages it may fetch. -/
def joinPages (env : Env) : Nat → Body → Prog Body
  | _, none => Prog.fail .jsonError
  | fuel, some page =>
    if page.next = "" then pure (some page)
    else
      match fuel with
      | 0 => Prog.fail .outOfFuel
      | fuel + 1 => do
        let nextBody ← listBodyFromPath env page.next
        let rest ← joinPages env fuel nextBody
        match rest with
        | none => Prog.fail .jsonError
        | some more =>
          pure (some { data := page.data ++ more.data, next := "", previous := page.previous })

/-- Modelled from the spec: `getIsEmpty` is not in the source files; it tells whether the
combined result has no item. -/
def getIsEmpty (body : Body) : Except Failure Bool :=
  match unmarshalPayload body with
  | .ok payload => .ok payload.data.isEmpty
  | .error e => .error e

/-- Modelled from the spec: `getIfOnlyOne` is not in the source files; it returns the
identifier of the item when exactly one item matches, and the empty string otherwise. -/
def getIfOnlyOne (body : Body) : Except Failure String :=
  match unmarshalPayload body with
  | .ok payload =>
    match payload.data with
    | [item] => .ok item.id
    | _ => .ok ""
  | .error e => .error e

/-- The body of `getResourceId`, with the function it calls for interactive resolution as
an argument. -/
def getResourceIdWith (select : String → Bool → Prog String) (env : Env)
    (resourceName : String) (required : Bool) : Prog String :=
  let resourceId := env.flags "id"
  if resourceId ≠ "" then pure resourceId
  else do
    let name ← liftExcept (singular resourceName)
    let resourceId := env.flags (name ++ "-id")
    if resourceId ≠ "" then pure resourceId
    else do
      let resourceId ← load name
      if resourceId = "" then select resourceName required
      else pure resourceId

/-- The loop over the filters in `selectResourceId` (lines 430 to 449), in the order the
map is ranged over; `getId` is the recursive call of `getResourceId`. -/
def resolveFilters (getId : String → Bool → Prog String) (env : Env) :
    List (String × Filter) → GoMap String → Prog (GoMap String)
  | [], query => pure query
  | (filterName, filter) :: rest, query =>
    if filter.resource ≠ "" then do
      let filterValue ← getId filter.resource filter.required
      if filterValue ≠ "" then
        resolveFilters getId env rest (mapSet query filterName filterValue)
      else resolveFilters getId env rest query
    else
      let filterValue := env.flags (filterFlagName filterName)
      if filterValue ≠ "" then
        resolveFilters getId env rest (mapSet query filterName filterValue)
      else resolveFilters getId env rest query

/-- Lines 427 to 450 of `selectResourceId`: the query built from the filters. -/
def buildQuery (getId : String → Bool → Prog String) (env : Env) (jsopenapi : Schema)
    (resourceName : String) : Prog (GoMap String) :=
  match (jsopenapi.resource resourceName).operations.getMany with
  | some getMany => resolveFilters getId env getMany.filters []
  | none => pure []

/-- Lines 451 to 458 of `selectResourceId`: the list is fetched and its pages joined. -/
def fetchList (env : Env) (fuel : Nat) (resourceName : String) (query : GoMap String) :
    Prog Body := do
  let body ← listBody env resourceName query
  joinPages env fuel body

/-- Lines 460 to 485 of `selectResourceId`: what is done with the fetched list. -/
def chooseFrom (env : Env) (jsopenapi : Schema) (resourceName : String) (required : Bool)
    (body : Body) : Prog String := do
  let isEmpty ← liftExcept (getIsEmpty body)
  if isEmpty && required then do
    let name ← liftExcept (singular resourceName)
    Prog.fail (.message (name ++ " not found"))
  else do
    let resourceId ← liftExcept (getIfOnlyOne body)
    if resourceId ≠ "" then pure resourceId
    else do
      let name ← liftExcept (singular resourceName)
      fuzzy env body ("Select " ++ name)
        (some (env.render (jsopenapi.resource resourceName).display)) (!required)

/-- The body of `selectResourceId`, with the recursive call of `getResourceId` as an
argument. -/
def selectResourceIdWith (getId : String → Bool → Prog String) (env : Env) (fuel : Nat)
    (jsopenapi : Schema) (resourceName : String) (required : Bool) : Prog String := do
  let query ← buildQuery getId env jsopenapi resourceName
  let body ← fetchList env fuel resourceName query
  chooseFrom env jsopenapi resourceName required body

/-- The function `selectResourceId` of `main.go`. The bound is the depth to which filters
that are resources may be resolved in turn (and the number of pages joined); the schema
does not exclude a filter chain that comes back to its own resource. -/
def selectResourceId (env : Env) (jsopenapi : Schema) :
    Nat → String → Bool → Prog String
  | 0, resourceName, required =>
    selectResourceIdWith (fun _ _ => Prog.fail .outOfFuel) env 0 jsopenapi resourceName
      required
  | fuel + 1, resourceName, required =>
    selectResourceIdWith (getResourceIdWith (selectResourceId env jsopenapi fuel) env) env
      (fuel + 1) jsopenapi resourceName required

/-- The function `getResourceId` of `main.go`. -/
def getResourceId (env : Env) (jsopenapi : Schema) (fuel : Nat) (resourceName : String)
    (required : Bool) : Prog String :=
  getResourceIdWith (selectResourceId env jsopenapi fuel) env resourceName required

/-- The call of `getResourceId` inside `selectResourceId` when the bound is `fuel`. -/
def resolveFilterId (env : Env) (jsopenapi : Schema) : Nat → String → Bool → Prog String
  | 0 => fun _ _ => Prog.fail .outOfFuel
  | fuel + 1 => getResourceId env jsopenapi fuel

/-! ## The edit engine (`utils.go`) -/

mutual
/-- The call `reflect.DeepEqual(x, y)` on two decoded JSON values. -/
def deepEqual : JVal → JVal → Bool
  | .null, .null => true
  | .bool a, .bool b => a == b
  | .num a, .num b => decide (a = b)
  | .str a, .str b => a == b
  | .arr xs, .arr ys => deepEqualSlice xs ys
  | .obj m1, .obj m2 => m1.length == m2.length && deepEqualMap m1 m2
  | _, _ => false
/-- The check `reflect.DeepEqual` makes on two slices: same length, equal elements. -/
def deepEqualSlice : List JVal → List JVal → Bool
  | [], [] => true
  | x :: xs, y :: ys => deepEqual x y && deepEqualSlice xs ys
  | _, _ => false
/-- The check `reflect.DeepEqual` makes on two maps of the same length: every key of the
first is a key of the second, with an equal value. -/
def deepEqualMap : List (String × JVal) → List (String × JVal) → Bool
  | [], _ => true
  | (k, v) :: rest, m2 =>
    (match mapGet m2 k with
      | some v2 => deepEqual v v2
      | none => false) && deepEqualMap rest m2
end

mutual
/-- Whether a value is a Go value: the keys of every map in it are pairwise different. -/
def wellFormed : JVal → Bool
  | .arr xs => wellFormedSlice xs
  | .obj m => wellFormedMap m
  | _ => true
/-- Whether the elements of a slice are Go values. -/
def wellFormedSlice : List JVal → Bool
  | [] => true
  | x :: xs => wellFormed x && wellFormedSlice xs
/-- Whether the entries of a map have pairwise different keys and Go values. -/
def wellFormedMap : List (String × JVal) → Bool
  | [] => true
  | (k, v) :: rest => (mapGet rest k).isNone && wellFormed v && wellFormedMap rest
end

/-- The function `stringSliceContains` of `utils.go`. -/
def stringSliceContains (haystack : List String) (needle : String) : Bool :=
  match haystack with
  | [] => false
  | key :: rest => if key = needle then true else stringSliceContains rest needle

/-- The call `item.MapAttributes(&preAttributes)`: the attributes of the resource, copied
through JSON. -/
def mapAttributes (item : Resource) : Except Failure (Option (GoMap JVal)) :=
  .ok item.attributes

/-- The call `json.MarshalIndent(m, "", "  ")` on a `map[string]interface{}`. -/
def marshalAnyMap : Option (GoMap JVal) → Option JVal
  | none => some .null
  | some m => some (.obj m)

/-- The call `json.Unmarshal(body, &m)` with `var m map[string]interface{}`; the result
`none` is the nil map, which `null` leaves in place. -/
def unmarshalAnyMap : Option JVal → Except Failure (Option (GoMap JVal))
  | none => .error .jsonError
  | some .null => .ok none
  | some (.obj members) => .ok (some members)
  | some _ => .error .jsonError

/-- The function `invokeEditor` of `utils.go`: the document goes to the editor through a
temporary file, and what the editor leaves in the file is read back. -/
def invokeEditor (env : Env) (input : Option JVal) : Prog (Option JVal) := do
  emit (.editor input)
  liftExcept (env.editorAnswer input)

/-- The call `item.Save(fields)`. -/
def saveResource (env : Env) (item : Resource) (fields : List String) : Prog Unit := do
  emit (.saveResource item fields)
  liftExcept (env.saveAnswer item fields)

/-- The first loop of `edit` (lines 369 to 373), over the entries of `preAttributes` as
they were when the loop started; the second argument is the map as the loop changes it. -/
def restrictLoop (editable_fields : List String) :
    List (String × JVal) → GoMap JVal → GoMap JVal
  | [], preAttributes => preAttributes
  | (field, _) :: rest, preAttributes =>
    if !stringSliceContains editable_fields field then
      restrictLoop editable_fields rest (mapDelete preAttributes field)
    else restrictLoop editable_fields rest preAttributes

/-- The condition `!exists || reflect.DeepEqual(preValue, postValue)` of line 390, where
`preValue, exists := preAttributes[field]`. -/
def unchanged (preAttributes : GoMap JVal) (field : String) (postValue : JVal) : Bool :=
  match mapGet preAttributes field with
  | some preValue => deepEqual preValue postValue
  | none => true

/-- The second loop of `edit` (lines 388 to 395), over the entries of `postAttributes` as
they were when the loop started; the state is the map as the loop changes it and
`finalFields`. -/
def diffLoop (preAttributes : GoMap JVal) :
    List (String × JVal) → GoMap JVal × List String → GoMap JVal × List String
  | [], state => state
  | (field, postValue) :: rest, (postAttributes, finalFields) =>
    if unchanged preAttributes field postValue then
      diffLoop preAttributes rest (mapDelete postAttributes field, finalFields)
    else diffLoop preAttributes rest (postAttributes, finalFields ++ [field])

/-- A nil map read as the map without entries, as `range` and indexing do. -/
def entries (m : Option (GoMap JVal)) : GoMap JVal :=
  match m with
  | some es => es
  | none => []

/-- Lines 369 to 373 of `edit`: the attributes that are not editable are deleted; a nil map
stays nil. -/
def restrictAttributes (editable_fields : List String) (preAttributes : Option (GoMap JVal)) :
    Option (GoMap JVal) :=
  preAttributes.map (fun m => restrictLoop editable_fields m m)

/-- The function `edit` of `utils.go`. -/
def edit (env : Env) (item : Resource) (editable_fields : List String) : Prog Unit := do
  let preAttributes ← liftExcept (mapAttributes item)
  let preAttributes := restrictAttributes editable_fields preAttributes
  let body := marshalAnyMap preAttributes
  let body ← invokeEditor env body
  let postAttributes ← liftExcept (unmarshalAnyMap body)
  let (postAttributes, finalFields) :=
    match postAttributes with
    | some m =>
      let state := diffLoop (entries preAttributes) m (m, [])
      (some state.1, state.2)
    | none => (none, [])
  if finalFields.length = 0 then Prog.fail (.message "nothing changed")
  else saveResource env { item with attributes := postAttributes } finalFields

/-! ## Multi-select (`utils.go`) -/

/-- The call `fuzzyfinder.FindMulti(data, itemFunc, ...)`, given the labels `itemFunc`
yields. -/
def findMulti (env : Env) (labels : List String) : Prog (List Nat) := do
  emit (.findMulti labels)
  liftExcept (env.findMultiAnswer labels)

/-- The loop at the end of `fuzzyMulti` (lines 354 to 359) over the indices the picker
returned; the last argument is `result`. The nil slice of `return nil, nil` is the empty
list. -/
def collectIds (data : List Resource) (allowEmpty : Bool) :
    List Nat → List String → Except Failure (List String)
  | [], result => .ok result
  | i :: rest, result =>
    if allowEmpty && i == 0 then .ok []
    else
      match data[i]? with
      | some item => collectIds data allowEmpty rest (result ++ [item.id])
      | none => .error (.panicked "index out of range")

/-- The labels that the item function passed to `fuzzyfinder.FindMulti` (lines 319 to 325)
yields for the indices of `data`; a nil `pprint` shows the identifier. -/
def itemLabels (data : List Resource) (pprint : Option (Resource → String))
    (allowEmpty : Bool) : List String :=
  let pprint := match pprint with
    | some f => f
    | none => fun obj => obj.id
  data.mapIdx (fun i item => if allowEmpty && i == 0 then "<empty>" else pprint item)

/-- The function `fuzzyMulti` of `utils.go`; the header is not passed on to the picker. -/
def fuzzyMulti (env : Env) (body : Body) (_header : String)
    (pprint : Option (Resource → String)) (allowEmpty : Bool) : Prog (List String) := do
  let items ← liftExcept (unmarshalPayload body)
  let data := if allowEmpty then emptyResource :: items.data else items.data
  let idx ← findMulti env (itemLabels data pprint allowEmpty)
  liftExcept (collectIds data allowEmpty idx [])

/-! ## Delete (`main.go`) -/

/-- The call `reader.ReadString('\n')` on standard input. -/
def readLine (env : Env) : Prog String := do
  emit .readLine
  liftExcept env.readLineAnswer

/-- The call `resource.Delete()`. -/
def deleteResource (env : Env) (item : Resource) : Prog Unit := do
  emit (.deleteResource item)
  liftExcept (env.deleteAnswer item)

/-- The call `strings.ToLower(s)`, on the letters `A` to `Z`. No other character has `y`, or
a white space character, as its lower case, so the comparison of `cliCmdDelete` is the one
of the code. -/
def toLower (s : String) : String :=
  String.mk (s.data.map Char.toLower)

/-- The predicate `unicode.IsSpace`: the white space characters of Unicode. -/
def isSpace (c : Char) : Bool :=
  let n := c.toNat
  (9 ≤ n && n ≤ 13) || n == 32 || n == 133 || n == 160 || n == 5760 ||
    (8192 ≤ n && n ≤ 8202) || n == 8232 || n == 8233 || n == 8239 || n == 8287 || n == 12288

/-- The call `strings.TrimSpace(s)`. -/
def trimSpace (s : String) : String :=
  String.mk ((s.data.dropWhile isSpace).reverse.dropWhile isSpace).reverse

/-- The function `cliCmdDelete` of `main.go`. What it prints is not modelled, but for the
panic of `resourceName[:len(resourceName)-1]` in the first `Printf`. -/
def cliCmdDelete (env : Env) (jsopenapi : Schema) (fuel : Nat) (resourceName : String) :
    Prog Unit := do
  liftExcept env.getApi
  let resourceId ← getResourceId env jsopenapi fuel resourceName true
  let _ ← liftExcept (singular resourceName)
  let answer ← readLine env
  if trimSpace (toLower answer) = "y" then
    deleteResource env { type := resourceName, id := resourceId, attributes := none }
  else pure ()

/-! ## Commands and flags (`main.go`) -/

/-- A `cli.StringFlag`. -/
structure Flag where
  name : String
  usage : String := ""
  required : Bool := false
  envVars : List String := []

/-- The call `commaWhitespace.ReplaceAllString(name, "")` of package `cli`, where
`commaWhitespace` is the regular expression `[, ]+.*`: on every line of the name,
everything from the first comma or space on is removed (`.` does not match a line feed, so
a match ends before it). The flag tells whether the characters are inside a match. -/
def stripCommaWhitespace : Bool → List Char → List Char
  | _, [] => []
  | true, c :: rest =>
    if c = '\n' then c :: stripCommaWhitespace false rest
    else stripCommaWhitespace true rest
  | false, c :: rest =>
    if c = ',' ∨ c = ' ' then stripCommaWhitespace true rest
    else c :: stripCommaWhitespace false rest

/-- The name under which package `cli` knows a flag: `FlagNames` strips the name from the
first comma or space on. -/
def lookupName (name : String) : String :=
  String.mk (stripCommaWhitespace false name.data)

/-- The method `Names` of a `cli.StringFlag` that has no aliases:
`FlagNames(f.Name, f.Aliases)`. -/
def Flag.names (flag : Flag) : List String := [lookupName flag.name]

/-- The function `flagExists` of `main.go`. -/
def flagExists : List Flag → String → Bool
  | [], _ => false
  | flag :: rest, name =>
    if stringSliceContains flag.names name then true else flagExists rest name

/-- The loop of `addFilterTags` (lines 602 to 624) over the filters, in the order the map is
ranged over, on the flags of the command. -/
def filterTagsLoop : List (String × Filter) → List Flag → List Flag
  | [], flags => flags
  | (filterName, filter) :: rest, flags =>
    if filter.resource ≠ "" then
      let flagName := filterName ++ "-id"
      if !flagExists flags flagName then
        filterTagsLoop rest (flags ++ [{ name := flagName, usage := filter.description }])
      else filterTagsLoop rest flags
    else
      let flagName := filterFlagName filterName
      if !flagExists flags flagName then
        filterTagsLoop rest
          (flags ++ [{ name := filterFlagName filterName, usage := filter.description,
                       required := filter.required }])
      else filterTagsLoop rest flags

/-- The function `addFilterTags` of `main.go`, on the flags of the command. -/
def addFilterTags (flags : List Flag) (resourceName : String) (jsopenapi : Schema) :
    List Flag :=
  match (jsopenapi.resource resourceName).operations.getMany with
  | none => flags
  | some getMany => filterTagsLoop getMany.filters flags

/-- The function `cliCmdGetMany` of `main.go`; its loop over the filters (lines 385 to 402)
is the one of `selectResourceId`. -/
def cliCmdGetMany (env : Env) (jsopenapi : Schema) (fuel : Nat) (resourceName : String) :
    Prog Unit := do
  liftExcept env.getApi
  let query ← (match (jsopenapi.resource resourceName).operations.getMany with
    | some getMany =>
      resolveFilters (getResourceId env jsopenapi fuel) env getMany.filters []
    | none => Prog.fail (.panicked "nil pointer dereference"))
  let body ← listBody env resourceName query
  handlePagination body
  invokePager env body

/-! ## The command tree (`main.go`) -/

/-- What the action of a command calls: one of the three fixed actions, or a function of
`main.go` with the names it is called with. -/
inductive Action where
  | getNext
  | getPrevious
  | clearAll
  | getMany (resourceName : String)
  | getOne (resourceName : String)
  | editOne (resourceName : String)
  | createOne (resourceName : String)
  | delete (resourceName : String)
  | select (resourceName : String)
  | clear (resourceName : String)
  | change (resourceName relationshipName : String)
  | getRelated (resourceName relationshipName : String)
  deriving DecidableEq, Repr

/-- A `cli.Command` whose subcommands have type `β`. The tree that `Cmd` builds has four
levels: the command `api_new`, the verb groups, the commands of a verb group, and the
commands of the relationships of a resource. -/
structure Command (β : Type) where
  name : String
  usage : String := ""
  flags : List Flag := []
  action : Option Action := none
  subcommands : List β := []

/-- A command of a relationship: it has no subcommands. -/
abbrev LeafCommand := Command Empty

/-- A command of a verb group. -/
abbrev ResourceCommand := Command LeafCommand

/-- A verb group. -/
abbrev VerbCommand := Command ResourceCommand

/-- The command that `Cmd` returns. -/
abbrev RootCommand := Command VerbCommand

/-- The function `findSubcommand` of `main.go`. -/
def findSubcommand {β : Type} (subcommands : List (Command β)) (name : String) :
    Option (Command β) :=
  match subcommands with
  | [] => none
  | subcommand :: rest =>
    if subcommand.name = name then some subcommand else findSubcommand rest name

/-- A change made through the pointer that `findSubcommand` returned: the first subcommand
with the name is changed in place. -/
def changeSubcommand {β : Type} (subcommands : List (Command β)) (name : String)
    (change : Command β → Command β) : List (Command β) :=
  match subcommands with
  | [] => []
  | subcommand :: rest =>
    if subcommand.name = name then change subcommand :: rest
    else subcommand :: changeSubcommand rest name change

/-- The pattern `x := findSubcommand(list, name); if x == nil { x = &cli.Command{Name: name};
list = append(list, x) }` with the changes that are then made through `x`. -/
def withSubcommand {β : Type} (subcommands : List (Command β)) (name : String)
    (change : Command β → Command β) : List (Command β) :=
  match findSubcommand subcommands name with
  | some _ => changeSubcommand subcommands name change
  | none => subcommands ++ [change { name := name }]

/-- The block of `Cmd` for an operation of a resource: the verb group is found or made,
and the operation is appended to its subcommands. -/
def addOperation (result : RootCommand) (verb : String) (operation : ResourceCommand) :
    RootCommand :=
  { result with subcommands := (withSubcommand result.subcommands verb
      (fun subcommand =>
        { subcommand with subcommands := subcommand.subcommands ++ [operation] })) }

/-- The block of `Cmd` for an operation of a relationship: the verb group is found or made,
the parent is found or made among its subcommands, the filter flags of the resource are
added to the parent, and the operation is appended to the subcommands of the parent. -/
def addRelationshipOperation (result : RootCommand) (verb parentName resourceName : String)
    (jsopenapi : Schema) (operation : LeafCommand) : RootCommand :=
  { result with subcommands := (withSubcommand result.subcommands verb
      (fun subcommand =>
        { subcommand with subcommands := (withSubcommand subcommand.subcommands parentName
            (fun parent =>
              { parent with
                flags := addFilterTags parent.flags resourceName jsopenapi,
                subcommands := parent.subcommands ++ [operation] })) })) }

/-- A block of `Cmd` for an operation that is named `resourceName[:len(resourceName)-1]`. -/
def addSingularOperation (result : RootCommand) (verb resourceName : String)
    (operation : String → ResourceCommand) : Except Failure RootCommand :=
  match singular resourceName with
  | .ok name => .ok (addOperation result verb (operation name))
  | .error e => .error e

/-- Lines 322 to 345 of `Cmd`: the command `change <resource> <relationship>`. -/
def changeBlock (jsopenapi : Schema) (result : RootCommand)
    (resourceName relationshipName : String) (relationship : Relationship) :
    Except Failure RootCommand :=
  match relationship.change with
  | some change =>
    match singular resourceName with
    | .ok name =>
      .ok (addRelationshipOperation result "change" name resourceName jsopenapi
        { name := relationshipName, usage := change.summary,
          action := some (.change resourceName relationshipName),
          flags := addFilterTags [] relationship.resource jsopenapi })
    | .error e => .error e
  | none => .ok result

/-- Lines 347 to 371 of `Cmd`: the command `get <resource> <relationship>`. -/
def getRelatedBlock (jsopenapi : Schema) (result : RootCommand)
    (resourceName relationshipName : String) (relationship : Relationship) :
    Except Failure RootCommand :=
  match relationship.get with
  | some get =>
    match singular resourceName with
    | .ok name =>
      .ok (addRelationshipOperation result "get" name resourceName jsopenapi
        { name := relationshipName, usage := get.summary,
          action := some (.getRelated resourceName relationshipName) })
    | .error e => .error e
  | none => .ok result

/-- The loop of `Cmd` over the relationships of a resource (lines 320 to 372), in the order
the map is ranged over. -/
def relationshipsLoop (jsopenapi : Schema) (resourceName : String) :
    List (String × Relationship) → RootCommand → Except Failure RootCommand
  | [], result => .ok result
  | (relationshipName, relationship) :: rest, result =>
    match changeBlock jsopenapi result resourceName relationshipName relationship with
    | .ok result =>
      match getRelatedBlock jsopenapi result resourceName relationshipName relationship with
      | .ok result => relationshipsLoop jsopenapi resourceName rest result
      | .error e => .error e
    | .error e => .error e

/-- Lines 185 to 200 of `Cmd`: the command `get <resources>`. -/
def getManyBlock (jsopenapi : Schema) (result : RootCommand) (resourceName : String)
    (resource : ResourceSchema) : Except Failure RootCommand :=
  match resource.operations.getMany with
  | some getMany =>
    .ok (addOperation result "get"
      { name := resourceName, usage := getMany.summary,
        action := some (.getMany resourceName),
        flags := addFilterTags [] resourceName jsopenapi })
  | none => .ok result

/-- Lines 202 to 227 of `Cmd`: the command `get <resource>`. -/
def getOneBlock (jsopenapi : Schema) (result : RootCommand) (resourceName : String)
    (resource : ResourceSchema) : Except Failure RootCommand :=
  match resource.operations.getOne with
  | some getOne =>
    addSingularOperation result "get" resourceName (fun name =>
      { name := name, usage := getOne.summary,
        flags := (addFilterTags
          [{ name := "id", required := resource.operations.getMany.isNone }]
          resourceName jsopenapi),
        action := some (.getOne resourceName) })
  | none => .ok result

/-- Lines 229 to 254 of `Cmd`: the command `edit <resource>`. -/
def editOneBlock (jsopenapi : Schema) (result : RootCommand) (resourceName : String)
    (resource : ResourceSchema) : Except Failure RootCommand :=
  match resource.operations.editOne with
  | some editOne =>
    addSingularOperation result "edit" resourceName (fun name =>
      { name := name, usage := editOne.summary,
        flags := (addFilterTags
          [{ name := "id", required := resource.operations.getMany.isNone }]
          resourceName jsopenapi),
        action := some (.editOne resourceName) })
  | none => .ok result

/-- Lines 256 to 270 of `Cmd`: the command `create <resource>`. -/
def createOneBlock (result : RootCommand) (resourceName : String)
    (resource : ResourceSchema) : Except Failure RootCommand :=
  match resource.operations.createOne with
  | some createOne =>
    addSingularOperation result "create" resourceName (fun name =>
      { name := name, usage := createOne.summary,
        action := some (.createOne resourceName) })
  | none => .ok result

/-- Lines 272 to 289 of `Cmd`: the command `delete <resource>`. -/
def deleteBlock (result : RootCommand) (resourceName : String)
    (resource : ResourceSchema) : Except Failure RootCommand :=
  match resource.operations.delete with
  | some delete =>
    addSingularOperation result "delete" resourceName (fun name =>
      { name := name, usage := delete.summary, flags := [{ name := "id" }],
        action := some (.delete resourceName) })
  | none => .ok result

/-- Lines 290 to 304 of `Cmd`: the command `select <resource>`. -/
def selectBlock (result : RootCommand) (resourceName : String)
    (resource : ResourceSchema) : Except Failure RootCommand :=
  match resource.operations.select with
  | some select =>
    addSingularOperation result "select" resourceName (fun name =>
      { name := name, usage := select.summary, action := some (.select resourceName) })
  | none => .ok result

/-- Lines 305 to 319 of `Cmd`: the command `clear <resource>`. -/
def clearBlock (result : RootCommand) (resourceName : String)
    (resource : ResourceSchema) : Except Failure RootCommand :=
  match resource.operations.clear with
  | some clear =>
    addSingularOperation result "clear" resourceName (fun name =>
      { name := name, usage := clear.summary, action := some (.clear resourceName) })
  | none => .ok result

/-- The body of the loop of `Cmd` over the resources (lines 183 to 372). -/
def addResource (jsopenapi : Schema) (result : RootCommand) (resourceName : String)
    (resource : ResourceSchema) : Except Failure RootCommand := do
  let result ← getManyBlock jsopenapi result resourceName resource
  let result ← getOneBlock jsopenapi result resourceName resource
  let result ← editOneBlock jsopenapi result resourceName resource
  let result ← createOneBlock result resourceName resource
  let result ← deleteBlock result resourceName resource
  let result ← selectBlock result resourceName resource
  let result ← clearBlock result resourceName resource
  relationshipsLoop jsopenapi resourceName resource.relationships result

/-- The value of `result` before the loop of `Cmd` (lines 90 to 180). -/
def initialCommand : RootCommand :=
  { name := "api_new",
    flags := [{ name := "pager", envVars := ["PAGER"] },
              { name := "editor", envVars := ["EDITOR"] }],
    subcommands :=
      [{ name := "get",
         subcommands :=
           [{ name := "next", usage := "Get the next page of the last request",
              action := some .getNext },
            { name := "previous", usage := "Get the previous page of the last request",
              action := some .getPrevious }] },
       { name := "clear",
         subcommands :=
           [{ name := "all", usage := "Clear session file", action := some .clearAll }] }] }

/-- The loop of `Cmd` over the resources (line 182), in the order the map is ranged
over. -/
def resourcesLoop (jsopenapi : Schema) :
    List (String × ResourceSchema) → RootCommand → Except Failure RootCommand
  | [], result => .ok result
  | (resourceName, resource) :: rest, result =>
    match addResource jsopenapi result resourceName resource with
    | .ok result => resourcesLoop jsopenapi rest result
    | .error e => .error e

/-- The function `Cmd` of `main.go`, on the decoded schema; the order of the list is the
order in which the resources are visited. -/
def Cmd (jsopenapi : Schema) : Except Failure RootCommand :=
  resourcesLoop jsopenapi jsopenapi initialCommand

/-! ## The shape of a command tree -/

/-- What is compared of a flag: its name and its `Required` mark. -/
abbrev FlagKey := String × Bool

/-- A command with the order of its flags and the order of its subcommands forgotten: its
name, its flags as a multiset of names with `Required` marks, and the multiset of the
shapes of its subcommands. -/
structure Shape (γ : Type) where
  name : String
  flags : Multiset FlagKey
  children : Multiset γ

/-- The flags of a command, without their order. -/
def flagKeys (flags : List Flag) : Multiset FlagKey :=
  ↑(flags.map (fun flag => (flag.name, flag.required)))

/-- The shape of a command, given the shape of its subcommands. -/
def Command.shape {β γ : Type} (childShape : β → γ) (command : Command β) : Shape γ :=
  { name := command.name,
    flags := flagKeys command.flags,
    children := ↑(command.subcommands.map childShape) }

/-- The shape of a command of a relationship. -/
abbrev LeafShape := Shape Empty

/-- The shape of a command of a verb group. -/
abbrev ResourceShape := Shape LeafShape

/-- The shape of a verb group. -/
abbrev VerbShape := Shape ResourceShape

/-- The shape of a command tree. -/
abbrev TreeShape := Shape VerbShape

/-- The shape of a command of a relationship. -/
def leafShape (command : LeafCommand) : LeafShape := command.shape id

/-- The shape of a command of a verb group. -/
def resourceShape (command : ResourceCommand) : ResourceShape := command.shape leafShape

/-- The shape of a verb group. -/
def verbShape (command : VerbCommand) : VerbShape := command.shape resourceShape

/-- The shape of a command tree: two trees have the same shape when they are structurally
identical up to the order of sibling commands and of flags. -/
def treeShape (command : RootCommand) : TreeShape := command.shape verbShape

/-- The names of the verb groups of a command tree, in order. -/
def verbNames (command : RootCommand) : List String :=
  command.subcommands.map (fun verb => verb.name)

/-- On shapes, the pattern of `withSubcommand`: a shape with the name is added when there
is none, and every shape with the name is changed. -/
def updateNamed {γ : Type} (name : String) (change : Shape γ → Shape γ)
    (shapes : Multiset (Shape γ)) : Multiset (Shape γ) :=
  (if name ∈ shapes.map Shape.name then shapes
    else { name := name, flags := 0, children := 0 } ::ₘ shapes).map
    (fun shape => if shape.name = name then change shape else shape)

/-- On shapes, one more subcommand. -/
def addChild {γ : Type} (child : γ) (shape : Shape γ) : Shape γ :=
  { shape with children := child ::ₘ shape.children }

/-- On shapes, the flags that `addFilterTags` leaves: the flags of the filters are added
whose names are not the names under which package `cli` knows the flags of the command. -/
def addFilterKeys (filterKeys flags : Multiset FlagKey) : Multiset FlagKey :=
  flags + filterKeys.filter (fun key => key.1 ∉ flags.map (fun flag => lookupName flag.1))

/-- The name and the `Required` mark of the flag that `addFilterTags` declares for a
filter. -/
def declaredKey (entry : String × Filter) : FlagKey :=
  if entry.2.resource ≠ "" then (entry.1 ++ "-id", false)
  else (filterFlagName entry.1, entry.2.required)

/-- The flags that `addFilterTags` declares for the filters of a resource, without their
order. -/
def filterKeys (jsopenapi : Schema) (resourceName : String) : Multiset FlagKey :=
  match (jsopenapi.resource resourceName).operations.getMany with
  | none => 0
  | some getMany => ↑(getMany.filters.map declaredKey)

/-- A step of `Cmd`, on shapes: the block for an operation of a resource, or the block for
an operation of a relationship. -/
inductive ShapeStep where
  | operation (verb : String) (operation : ResourceShape)
  | relationship (verb parentName : String) (filterKeys : Multiset FlagKey)
      (operation : LeafShape)

/-- A step of `Cmd`, on the shape of the tree. -/
def applyStep (tree : TreeShape) : ShapeStep → TreeShape
  | .operation verb operation =>
    { tree with children := updateNamed verb (addChild operation) tree.children }
  | .relationship verb parentName filterKeys operation =>
    { tree with children := (updateNamed verb
        (fun subcommand =>
          { subcommand with children := (updateNamed parentName
              (fun parent =>
                { parent with
                  flags := addFilterKeys filterKeys parent.flags,
                  children := operation ::ₘ parent.children })
              subcommand.children) })
        tree.children) }

/-- The Go expression `resourceName[:len(resourceName)-1]` on a name that is not empty. -/
def singularName (resourceName : String) : String :=
  String.mk resourceName.data.dropLast

/-- A step that is taken when the schema has the operation. -/
def stepIf {α : Type} (operation : Option α) (step : ShapeStep) : List ShapeStep :=
  match operation with
  | some _ => [step]
  | none => []

/-- The steps of `Cmd` for a relationship of a resource, on shapes. -/
def relationshipSteps (keys : String → Multiset FlagKey) (resourceName : String)
    (entry : String × Relationship) : List ShapeStep :=
  stepIf entry.2.change
      (.relationship "change" (singularName resourceName) (keys resourceName)
        { name := entry.1, flags := addFilterKeys (keys entry.2.resource) 0, children := 0 }) ++
    stepIf entry.2.get
      (.relationship "get" (singularName resourceName) (keys resourceName)
        { name := entry.1, flags := 0, children := 0 })

/-- The steps of `Cmd` for a resource, on shapes; `keys` gives the filter flags of a
resource. -/
def resourceSteps (keys : String → Multiset FlagKey) (entry : String × ResourceSchema) :
    List ShapeStep :=
  stepIf entry.2.operations.getMany
      (.operation "get"
        { name := entry.1, flags := addFilterKeys (keys entry.1) 0, children := 0 }) ++
    stepIf entry.2.operations.getOne
      (.operation "get"
        { name := singularName entry.1,
          flags := (addFilterKeys (keys entry.1)
            {("id", entry.2.operations.getMany.isNone)}),
          children := 0 }) ++
    stepIf entry.2.operations.editOne
      (.operation "edit"
        { name := singularName entry.1,
          flags := (addFilterKeys (keys entry.1)
            {("id", entry.2.operations.getMany.isNone)}),
          children := 0 }) ++
    stepIf entry.2.operations.createOne
      (.operation "create" { name := singularName entry.1, flags := 0, children := 0 }) ++
    stepIf entry.2.operations.delete
      (.operation "delete"
        { name := singularName entry.1, flags := {("id", false)}, children := 0 }) ++
    stepIf entry.2.operations.select
      (.operation "select" { name := singularName entry.1, flags := 0, children := 0 }) ++
    stepIf entry.2.operations.clear
      (.operation "clear" { name := singularName entry.1, flags := 0, children := 0 }) ++
    entry.2.relationships.flatMap (relationshipSteps keys entry.1)

/-- The shape of the tree after the steps of `Cmd` for a resource. -/
def addResourceShape (keys : String → Multiset FlagKey) (tree : TreeShape)
    (entry : String × ResourceSchema) : TreeShape :=
  (resourceSteps keys entry).foldl applyStep tree

/-- The number of commands under the verb groups of a shape. -/
def commandCount (tree : TreeShape) : Nat :=
  (tree.children.map (fun verb => Multiset.card verb.children)).sum

/-- The number of required flags on the commands under the verb groups of a shape. -/
def requiredCount (tree : TreeShape) : Nat :=
  (tree.children.map (fun verb =>
    (verb.children.map (fun command =>
      Multiset.card (command.flags.filter (fun key => key.2 = true)))).sum)).sum

/-! ## Schemas whose names do not collide, and the orders of a schema -/

/-- The names of the commands that the resources of a schema give under the verb group
`get`, with the two fixed names: the names of the resources and the names without their
last character. -/
def commandNames (jsopenapi : Schema) : List String :=
  ["next", "previous"] ++ jsopenapi.map (fun entry => entry.1) ++
    jsopenapi.map (fun entry => singularName entry.1)

/-- Two flag names that do not collide: neither is the name under which package `cli`
knows the other. For names without comma or space these are two different names. -/
def NamesApart (a b : String) : Prop := a ≠ lookupName b ∧ b ≠ lookupName a

instance (a b : String) : Decidable (NamesApart a b) :=
  inferInstanceAs (Decidable (a ≠ lookupName b ∧ b ≠ lookupName a))

/-- A schema whose names do not collide: no resource name is empty, the command names are
pairwise different, and of the flags that two filters of one resource declare neither is
known to package `cli` under the name of the other. -/
def NoCollision (jsopenapi : Schema) : Prop :=
  (∀ entry ∈ jsopenapi, entry.1 ≠ "") ∧
  (commandNames jsopenapi).Nodup ∧
  ∀ entry ∈ jsopenapi, ∀ getMany, entry.2.operations.getMany = some getMany →
    (getMany.filters.map (fun filter => (declaredKey filter).1)).Pairwise NamesApart

/-- The operation `get_many` with its filters ranged over in another order. -/
def SameGetMany : Option GetMany → Option GetMany → Prop
  | some a, some b => a.summary = b.summary ∧ a.filters.Perm b.filters
  | none, none => True
  | _, _ => False

/-- A resource with its filters and its relationships ranged over in another order. -/
def SameResource (a b : ResourceSchema) : Prop :=
  SameGetMany a.operations.getMany b.operations.getMany ∧
  a.operations.getOne = b.operations.getOne ∧
  a.operations.createOne = b.operations.createOne ∧
  a.operations.editOne = b.operations.editOne ∧
  a.operations.delete = b.operations.delete ∧
  a.operations.select = b.operations.select ∧
  a.operations.clear = b.operations.clear ∧
  a.relationships.Perm b.relationships ∧
  a.display = b.display

/-- Two orders in which `Cmd` may visit one schema: the resources in another order, and in
each resource the filters and the relationships in another order. -/
def SameSchema (a b : Schema) : Prop :=
  ∃ c : Schema, a.Perm c ∧
    List.Forall₂ (fun x y => x.1 = y.1 ∧ SameResource x.2 y.2) c b

/-- A schema in which the flags that the filters of one resource declare do not collide. -/
def FiltersApart (jsopenapi : Schema) : Prop :=
  ∀ entry ∈ jsopenapi, ∀ getMany, entry.2.operations.getMany = some getMany →
    (getMany.filters.map (fun filter => (declaredKey filter).1)).Pairwise NamesApart

/-- A command tree in which the verb groups have pairwise different names, and the commands
of the verb groups `get` and `change`, to which `Cmd` adds the commands of relationships,
have pairwise different names that are all in `names`. -/
def ChildrenIn (names : List String) (tree : RootCommand) : Prop :=
  (tree.subcommands.map (fun verb => verb.name)).Nodup ∧
  ∀ verb ∈ tree.subcommands, verb.name = "get" ∨ verb.name = "change" →
    (verb.subcommands.map (fun command => command.name)).Nodup ∧
    ∀ name ∈ verb.subcommands.map (fun command => command.name), name ∈ names

/-- A part of `Cmd` that succeeds on the tree and takes the steps on its shape, and after
which the commands of the verb groups `get` and `change` are named in `names`. -/
def Simulates (names : List String) (tree : RootCommand)
    (result : Except Failure RootCommand) (steps : List ShapeStep) : Prop :=
  ∃ after, result = .ok after ∧ ChildrenIn names after ∧
    treeShape after = steps.foldl applyStep (treeShape tree)

/-! ## Observations on a run -/

/-- Whether an event is a call of the picker. -/
def Event.isFind : Event → Bool
  | .find _ _ => true
  | .findMulti _ => true
  | _ => false

/-- Whether an event is a request to the API. -/
def Event.isRequest : Event → Bool
  | .listBody _ _ => true
  | .listBodyFromPath _ => true
  | _ => false

/-- Whether an event is a call of package `os`. -/
def Event.isFileCall : Event → Bool
  | .stat _ => true
  | .mkdir _ => true
  | .readFile _ => true
  | .writeFile _ => true
  | .remove _ => true
  | _ => false

/-- Whether an event is a call of `Delete` on a resource. -/
def Event.isDelete : Event → Bool
  | .deleteResource _ => true
  | _ => false

/-- A program that leaves the file system as it found it, however it ends. -/
def KeepsFS {α : Type} (m : Prog α) : Prop :=
  ∀ w : World, (m w).2.fs = w.fs

/-- A program that only adds to the log, and only events of one kind, however it ends. -/
def Emits {α : Type} (kind : Event → Bool) (m : Prog α) : Prop :=
  ∀ w : World, ∃ evs : List Event,
    (m w).2.trace = w.trace ++ evs ∧ ∀ e ∈ evs, kind e = true

/-- Whether the members of an object are all strings: a flat string-to-string object. -/
def isFlatObject : List (String × JVal) → Bool
  | [] => true
  | (_, .str _) :: rest => isFlatObject rest
  | _ :: _ => false

/-- A world with an empty project directory and nothing logged. -/
def freshWorld : World :=
  { fs := { txDir := false, dataFile := .absent, sessionFile := .absent, readOnly := false },
    trace := [] }

/-- The world after `save("project", "p1")` in an empty project directory. -/
def projectSavedWorld : World := (save "project" "p1" freshWorld).2

/-- The world after `save("project", "p1")` and then `save("next", "U")`. -/
def cursorSavedWorld : World := (save "next" "U" projectSavedWorld).2

/-! ## Concrete inputs -/

/-- An environment in which no flag is set, the API has one empty page of every resource,
the operator picks the first entry, and the editor leaves the document as it is. -/
def quietEnv : Env :=
  { flags := fun _ => "",
    getApi := .ok (),
    listBodyAnswer := fun _ _ => .ok (some { data := [], next := "", previous := "" }),
    listBodyFromPathAnswer := fun _ => .ok (some { data := [], next := "", previous := "" }),
    findAnswer := fun _ _ => .ok 0,
    editorAnswer := fun document => .ok document,
    pagerAnswer := fun _ => .ok (),
    saveAnswer := fun _ _ => .ok (),
    render := fun _ item => item.id,
    findMultiAnswer := fun _ => .ok [],
    readLineAnswer := .ok "\n",
    deleteAnswer := fun _ => .ok () }

/-- The environment `quietEnv` with one flag set. -/
def flagEnv (name value : String) : Env :=
  { quietEnv with flags := fun n => if n = name then value else "" }

/-- The environment `quietEnv` with an operator who aborts the picker. -/
def abortEnv : Env :=
  { quietEnv with findAnswer := fun _ _ => .error (.collaborator "abort") }

/-- A schema with the one resource `projects`, listed without filters. -/
def projectsSchema : Schema :=
  [("projects",
    { operations := { getMany := some { summary := "", filters := [] } }, display := "" })]

/-- The environment `quietEnv` with an editor that leaves the given bytes. -/
def editorEnv (output : Option JVal) : Env :=
  { quietEnv with editorAnswer := fun _ => .ok output }

/-- A resource with the attributes `{"a": 1, "b": 2}`. -/
def itemAB : Resource :=
  { type := "projects", id := "1", attributes := some [("a", .num 1), ("b", .num 2)] }

/-- The last page of a list: no next link, a previous link. -/
def lastPage : ListPayload := { data := [], next := "", previous := "P" }

/-- A page in the middle of a list: both links. -/
def middlePage : ListPayload := { data := [], next := "V", previous := "P" }

/-- A resource with an identifier and no attributes. -/
def itemWithId (id : String) : Resource := { type := "projects", id := id, attributes := none }

/-- The environment `quietEnv` with an API that has the given items of every resource, on
one page. -/
def itemsEnv (items : List Resource) : Env :=
  { quietEnv with
    listBodyAnswer := fun _ _ => .ok (some { data := items, next := "", previous := "" }) }

/-- The environment `quietEnv` with an operator who picks the given entries. -/
def multiEnv (indices : List Nat) : Env :=
  { quietEnv with findMultiAnswer := fun _ => .ok indices }

/-- The environment `quietEnv` with an operator who types the given line. -/
def answerEnv (line : String) : Env :=
  { quietEnv with flags := fun n => if n = "id" then "7" else "", readLineAnswer := .ok line }

/-- A schema in which the lists of `resources` have the filter `source`, whose values are
`languages`. -/
def sourceSchema : Schema :=
  [("resources",
    { operations := { getMany := some { summary := "", filters :=
        [("source", { description := "", resource := "languages", required := false })] } },
      display := "" }),
   ("languages",
    { operations := { getMany := some { summary := "", filters := [] } }, display := "" })]

/-- A schema in which the singular name of the resource `ass` is the name of the resource
`as`: `as` has lists, `ass` has the relationship `r` with the operation `get`. -/
def collidingSchema : Schema :=
  [("as",
    { operations := { getMany := some { summary := "", filters := [] } }, display := "" }),
   ("ass",
    { operations := { getMany := none },
      relationships := [("r", { resource := "as", get := some { summary := "" } })],
      display := "" })]

/-- The schema `collidingSchema` with its resources in the other order. -/
def collidingSchemaSwapped : Schema :=
  [("ass",
    { operations := { getMany := none },
      relationships := [("r", { resource := "as", get := some { summary := "" } })],
      display := "" }),
   ("as",
    { operations := { getMany := some { summary := "", filters := [] } }, display := "" })]

/-- A schema in which two filters of one resource declare the same flag `a-b`, one of them
required. -/
def collidingFilters : Schema :=
  [("xs",
    { operations := { getMany := some { summary := "", filters :=
        [("a__b", { description := "", resource := "", required := true }),
         ("a-b", { description := "", resource := "", required := false })] } },
      display := "" })]

/-- The schema `collidingFilters` with the filters in the other order. -/
def collidingFiltersSwapped : Schema :=
  [("xs",
    { operations := { getMany := some { summary := "", filters :=
        [("a-b", { description := "", resource := "", required := false }),
         ("a__b", { description := "", resource := "", required := true })] } },
      display := "" })]

/-- A schema in which the flag `a` of one filter is the name under which package `cli`
knows the flag `a b` of another filter of the same resource. -/
def collidingLookup : Schema :=
  [("xs",
    { operations := { getMany := some { summary := "", filters :=
        [("a", { description := "", resource := "", required := true }),
         ("a b", { description := "", resource := "", required := false })] } },
      display := "" })]

/-- The schema `collidingLookup` with the filters in the other order. -/
def collidingLookupSwapped : Schema :=
  [("xs",
    { operations := { getMany := some { summary := "", filters :=
        [("a b", { description := "", resource := "", required := false }),
         ("a", { description := "", resource := "", required := true })] } },
      display := "" })]

/-- The resource `projects` of `teamSchema`, with the filters and the relationships in the
given order. -/
def projectsResource (filters : GoMap Filter) (relationships : GoMap Relationship) :
    ResourceSchema :=
  { operations :=
      { getMany := some { summary := "", filters := filters },
        getOne := some { summary := "" },
        delete := some { summary := "" } },
    relationships := relationships,
    display := "" }

/-- The resource `languages` of `teamSchema`. -/
def languagesResource : ResourceSchema :=
  { operations :=
      { getMany := some { summary := "", filters := [] },
        getOne := some { summary := "" } },
    display := "" }

/-- The filter `organization` of `projects`, whose values are `organizations`. -/
def organizationFilter : String × Filter :=
  ("organization", { description := "", resource := "organizations", required := true })

/-- The filter `name__contains` of `projects`. -/
def nameFilter : String × Filter :=
  ("name__contains", { description := "", resource := "", required := false })

/-- The relationship `languages` of `projects`, with both operations. -/
def languagesRelationship : String × Relationship :=
  ("languages",
    { resource := "languages", change := some { summary := "" },
      get := some { summary := "" } })

/-- The relationship `maintainers` of `projects`, with the operation `get`. -/
def maintainersRelationship : String × Relationship :=
  ("maintainers", { resource := "users", get := some { summary := "" } })

/-- A schema with the resources `projects` and `languages`, whose names do not collide. -/
def teamSchema : Schema :=
  [("projects", projectsResource [organizationFilter, nameFilter]
      [languagesRelationship, maintainersRelationship]),
   ("languages", languagesResource)]

/-- The schema `teamSchema` with the resources, the filters and the relationships in the
other order. -/
def teamSchemaReordered : Schema :=
  [("languages", languagesResource),
   ("projects", projectsResource [nameFilter, organizationFilter]
      [maintainersRelationship, languagesRelationship])]

/-! # Theorems -/

/-! ## Running a program -/

theorem bind_run {α β : Type} (m : Prog α) (f : α → Prog β) (w : World) :
    (m >>= f) w = match m w with
      | (.ok a, w1) => f a w1
      | (.error e, w1) => (.error e, w1) := rfl

theorem pure_run {α : Type} (a : α) (w : World) : (pure a : Prog α) w = (.ok a, w) := rfl

theorem ret_run {α : Type} (a : α) (w : World) : (Prog.ret a) w = (.ok a, w) := rfl

theorem fail_run {α : Type} (e : Failure) (w : World) :
    (Prog.fail e : Prog α) w = (.error e, w) := rfl

/-! ## Maps -/

theorem mapGet_cons {V : Type} (k : String) (v : V) (rest : GoMap V) (key : String) :
    mapGet ((k, v) :: rest) key = if k = key then some v else mapGet rest key := rfl

theorem mapDelete_cons {V : Type} (k1 : String) (v : V) (rest : GoMap V) (k : String) :
    mapDelete ((k1, v) :: rest) k
      = if k1 = k then mapDelete rest k else (k1, v) :: mapDelete rest k := by
  by_cases h : k1 = k <;> simp [mapDelete, h]

theorem mapGet_mapDelete_self {V : Type} (m : GoMap V) (k : String) :
    mapGet (mapDelete m k) k = none := by
  induction m with
  | nil => rfl
  | cons e rest ih =>
    obtain ⟨k1, v1⟩ := e
    by_cases h : k1 = k
    · simp [mapDelete_cons, h, ih]
    · simp [mapDelete_cons, mapGet_cons, h, ih]

theorem mapGet_mapDelete_ne {V : Type} (m : GoMap V) (k k1 : String) (h : k1 ≠ k) :
    mapGet (mapDelete m k) k1 = mapGet m k1 := by
  induction m with
  | nil => rfl
  | cons e rest ih =>
    obtain ⟨k2, v2⟩ := e
    rw [mapDelete_cons, mapGet_cons]
    by_cases h2 : k2 = k
    · have h3 : ¬ k2 = k1 := fun h4 => h (h4 ▸ h2)
      rw [if_pos h2, if_neg h3, ih]
    · rw [if_neg h2, mapGet_cons, ih]

theorem mapGet_append {V : Type} (m1 m2 : GoMap V) (k : String) :
    mapGet (m1 ++ m2) k = (mapGet m1 k).orElse (fun _ => mapGet m2 k) := by
  induction m1 with
  | nil => simp [mapGet]
  | cons e rest ih =>
    obtain ⟨k1, v1⟩ := e
    by_cases h : k1 = k
    · simp [mapGet, h]
    · simpa [mapGet, h] using ih

theorem mapGet_mapSet_self {V : Type} (m : GoMap V) (k : String) (v : V) :
    mapGet (mapSet m k v) k = some v := by
  simp [mapSet, mapGet_append, mapGet_mapDelete_self, mapGet]

theorem mapGet_mapSet_ne {V : Type} (m : GoMap V) (k k1 : String) (v : V) (h : k1 ≠ k) :
    mapGet (mapSet m k v) k1 = mapGet m k1 := by
  have h1 : k ≠ k1 := fun h2 => h h2.symm
  cases h3 : mapGet m k1 <;>
    simp [mapSet, mapGet_append, mapGet_mapDelete_ne _ _ _ h, mapGet, h1, h3]

/-! ## The session file -/

theorem decodeStringMembers_marshal (m : GoMap String) :
    decodeStringMembers (m.map (fun e => (e.1, JVal.str e.2))) = .ok m := by
  induction m with
  | nil => rfl
  | cons e rest ih =>
    obtain ⟨k, v⟩ := e
    simp [decodeStringMembers, ih]

theorem unmarshal_marshal (data : Option (GoMap String)) :
    unmarshalStringMap (marshalStringMap data) = .ok data := by
  cases data with
  | none => rfl
  | some m => simp [marshalStringMap, unmarshalStringMap, decodeStringMembers_marshal]

/-- What `load` returns when the session file holds a document. -/
theorem load_present (key : String) (w : World) (body : Option JVal)
    (data : Option (GoMap String)) (hf : w.fs.dataFile = .present body)
    (hd : unmarshalStringMap body = .ok data) :
    (load key w).1 = .ok (((data.bind (fun m => mapGet m key))).getD "") := by
  simp only [load, bind_run, statFile, readFile, FS.file, hf, hd, liftExcept, ret_run]
  cases data with
  | none => rfl
  | some m =>
    cases hg : mapGet m key <;> simp [hg, pure_run]

/-- What `load` returns when there is no session file. -/
theorem load_absent (key : String) (w : World) (hf : w.fs.dataFile = .absent) :
    (load key w).1 = .ok "" := by
  simp [load, bind_run, statFile, FS.file, hf, pure_run]

/-- A successful `save` leaves in the session file the former map with one entry set; the
former map is empty when there was no file. -/
theorem save_ok (key value : String) (w w1 : World)
    (h : save key value w = (.ok (), w1)) :
    ∃ m : GoMap String,
      w1.fs.dataFile = .present (marshalStringMap (some (mapSet m key value))) ∧
      ((w.fs.dataFile = .absent ∧ m = []) ∨
        ∃ body, w.fs.dataFile = .present body ∧ unmarshalStringMap body = .ok (some m)) := by
  obtain ⟨⟨txDir, dataFile, sessionFile, readOnly⟩, tr⟩ := w
  cases dataFile with
  | absent =>
    refine ⟨[], ?_, Or.inl ⟨rfl, rfl⟩⟩
    cases txDir <;> cases readOnly <;>
      simp [save, bind_run, pure_run, ret_run, fail_run, statTxDirIsNotExist, mkdirTx,
        statFile, writeFile, FS.file, FS.setFile, liftExcept, unmarshalStringMap,
        decodeStringMembers] at h ⊢
    all_goals rw [← h]
  | denied =>
    cases txDir <;> cases readOnly <;>
      simp [save, bind_run, pure_run, ret_run, fail_run, statTxDirIsNotExist, mkdirTx,
        statFile, FS.file] at h
  | present body =>
    cases hd : unmarshalStringMap body with
    | error e =>
      cases txDir <;> cases readOnly <;>
        simp [save, bind_run, pure_run, ret_run, fail_run, statTxDirIsNotExist, mkdirTx,
          statFile, readFile, FS.file, liftExcept, hd] at h
    | ok data =>
      cases data with
      | none =>
        cases txDir <;> cases readOnly <;>
          simp [save, bind_run, pure_run, ret_run, fail_run, statTxDirIsNotExist, mkdirTx,
            statFile, readFile, FS.file, liftExcept, hd] at h
      | some m =>
        refine ⟨m, ?_, Or.inr ⟨body, rfl, hd⟩⟩
        cases txDir <;> cases readOnly <;>
          simp [save, bind_run, pure_run, ret_run, fail_run, statTxDirIsNotExist, mkdirTx,
            statFile, readFile, writeFile, FS.file, FS.setFile, liftExcept, hd] at h ⊢
        all_goals rw [← h]

/-- A successful `clear` leaves the world alone when there is no session file, and else
leaves in the file the former map without the key (the nil map of a `null` file stays). -/
theorem clear_ok (key : String) (w w1 : World) (h : clear key w = (.ok (), w1)) :
    (w.fs.dataFile = .absent ∧ w1.fs = w.fs) ∨
      ∃ body data, w.fs.dataFile = .present body ∧ unmarshalStringMap body = .ok data ∧
        w1.fs.dataFile
          = .present (marshalStringMap (data.map (fun m => mapDelete m key))) := by
  obtain ⟨⟨txDir, dataFile, sessionFile, readOnly⟩, tr⟩ := w
  cases dataFile with
  | absent =>
    left
    simp [clear, bind_run, pure_run, ret_run, statFile, FS.file] at h ⊢
    rw [← h]
  | denied =>
    simp [clear, bind_run, pure_run, ret_run, fail_run, statFile, FS.file] at h
  | present body =>
    right
    cases hd : unmarshalStringMap body with
    | error e =>
      simp [clear, bind_run, pure_run, ret_run, fail_run, statFile, readFile, FS.file,
        liftExcept, hd] at h
    | ok data =>
      refine ⟨body, data, rfl, hd, ?_⟩
      cases data <;> cases txDir <;> cases readOnly <;>
        simp [clear, bind_run, pure_run, ret_run, fail_run, statFile, readFile, writeFile,
          FS.file, FS.setFile, liftExcept, hd] at h ⊢
      all_goals rw [← h]

theorem decodeStringMembers_flat (members : List (String × JVal))
    (hflat : isFlatObject members = true) :
    ∃ m, decodeStringMembers members = .ok m ∧ mapKeys m = members.map Prod.fst := by
  induction members with
  | nil => exact ⟨[], rfl, rfl⟩
  | cons e rest ih =>
    obtain ⟨k, v⟩ := e
    cases v <;> simp [isFlatObject] at hflat
    obtain ⟨m, hm, hk⟩ := ih hflat
    rename_i s
    refine ⟨(k, s) :: m, ?_, ?_⟩
    · simp [decodeStringMembers, hm]
    · simp [mapKeys] at hk ⊢
      exact hk

theorem mapGet_of_not_mem_keys {V : Type} (m : GoMap V) (key : String)
    (h : key ∉ mapKeys m) : mapGet m key = none := by
  induction m with
  | nil => rfl
  | cons e rest ih =>
    obtain ⟨k, v⟩ := e
    simp [mapKeys] at h
    have h1 : ¬ k = key := fun h2 => h.1 h2.symm
    rw [mapGet_cons, if_neg h1]
    apply ih
    simpa [mapKeys] using h.2

/-- The function `save` succeeds when the file system takes changes and the session file is
absent or holds a flat string-to-string object. -/
theorem save_succeeds (key value : String) (w : World) (hrw : w.fs.readOnly = false)
    (hfile : w.fs.dataFile = .absent ∨
      ∃ members, w.fs.dataFile = .present (some (.obj members)) ∧
        isFlatObject members = true) :
    (save key value w).1 = .ok () := by
  obtain ⟨⟨txDir, dataFile, sessionFile, readOnly⟩, tr⟩ := w
  simp at hrw
  subst hrw
  rcases hfile with hf | ⟨members, hf, hflat⟩
  · simp at hf
    subst hf
    cases txDir <;>
      simp [save, bind_run, pure_run, ret_run, statTxDirIsNotExist, mkdirTx,
        statFile, writeFile, FS.file, liftExcept, unmarshalStringMap, decodeStringMembers]
  · simp at hf
    subst hf
    obtain ⟨m, hm, _⟩ := decodeStringMembers_flat members hflat
    cases txDir <;>
      simp [save, bind_run, pure_run, ret_run, statTxDirIsNotExist, mkdirTx,
        statFile, readFile, writeFile, FS.file, liftExcept, unmarshalStringMap, hm]

/-- After a successful `save`, `load` of the key returns the value. -/
theorem load_after_save (key value : String) (w w1 : World)
    (h : save key value w = (.ok (), w1)) : (load key w1).1 = .ok value := by
  obtain ⟨m, hf, _⟩ := save_ok key value w w1 h
  rw [load_present key w1 _ _ hf (unmarshal_marshal _)]
  simp [mapGet_mapSet_self]

/-- After a successful `save`, `load` of another key returns what it returned before. -/
theorem load_other_after_save (key value other : String) (hne : other ≠ key) (w w1 : World)
    (h : save key value w = (.ok (), w1)) :
    ∃ v, (load other w).1 = .ok v ∧ (load other w1).1 = .ok v := by
  obtain ⟨m, hf1, hprior⟩ := save_ok key value w w1 h
  rw [load_present other w1 _ _ hf1 (unmarshal_marshal _)]
  rcases hprior with ⟨hf, hm⟩ | ⟨body, hf, hd⟩
  · subst hm
    refine ⟨"", load_absent other w hf, ?_⟩
    have hget : mapGet (mapSet ([] : GoMap String) key value) other = none := by
      rw [mapGet_mapSet_ne _ _ _ _ hne]
      rfl
    simp [hget]
  · rw [load_present other w _ _ hf hd]
    refine ⟨_, rfl, ?_⟩
    simp [mapGet_mapSet_ne _ _ _ _ hne]

/-! ## Claims on the session store -/

/-- C1. Session round trip: whatever the session store held before, once `save(key, value)`
has succeeded, `load(key)` returns `value` and no error. -/
theorem save_then_load (key value : String) (w w1 : World)
    (h : save key value w = (.ok (), w1)) :
    (load key w1).1 = .ok value := by
  obtain ⟨m, hf, _⟩ := save_ok key value w w1 h
  rw [load_present key w1 _ _ hf (unmarshal_marshal _)]
  simp [mapGet_mapSet_self]

/-- C1 at the example of the specification: `save("project", "p1")` in an empty project
directory, then `load("project")`. -/
theorem save_then_load_witness :
    save "project" "p1" freshWorld = (.ok (), projectSavedWorld) ∧
      (load "project" projectSavedWorld).1 = .ok "p1" :=
  ⟨rfl, save_then_load "project" "p1" freshWorld projectSavedWorld rfl⟩

/-- C2. The function `load` returns the empty string and no error for a key that is not
stored: (a) when there is no session file, (b) when the session file holds a flat
string-to-string object without the key, (c) after a successful `clear` of the key. -/
theorem load_absent_key (key : String) :
    (∀ w : World, w.fs.dataFile = .absent → (load key w).1 = .ok "") ∧
    (∀ (w : World) (members : List (String × JVal)),
      w.fs.dataFile = .present (some (.obj members)) → isFlatObject members = true →
      key ∉ members.map Prod.fst → (load key w).1 = .ok "") ∧
    (∀ w w1 : World, clear key w = (.ok (), w1) → (load key w1).1 = .ok "") := by
  refine ⟨fun w hf => load_absent key w hf, ?_, ?_⟩
  · intro w members hf hflat hkey
    obtain ⟨m, hm, hk⟩ := decodeStringMembers_flat members hflat
    have hd : unmarshalStringMap (some (.obj members)) = .ok (some m) := by
      simp [unmarshalStringMap, hm]
    rw [load_present key w _ _ hf hd]
    have hnone : mapGet m key = none := mapGet_of_not_mem_keys m key (by rw [hk]; exact hkey)
    simp [hnone]
  · intro w w1 h
    rcases clear_ok key w w1 h with ⟨hf, hfs⟩ | ⟨body, data, _, _, hf1⟩
    · exact load_absent key w1 (by rw [hfs]; exact hf)
    · rw [load_present key w1 _ _ hf1 (unmarshal_marshal _)]
      cases data <;> simp [mapGet_mapDelete_self]

/-- C2 at concrete worlds: no file; a file with the one entry `project`, asked for `next`;
and `clear("project")` after `save("project", "p1")`. -/
theorem load_absent_key_witness :
    (load "project" freshWorld).1 = .ok "" ∧
    (load "next" projectSavedWorld).1 = .ok "" ∧
    (load "project" (clear "project" projectSavedWorld).2).1 = .ok "" :=
  ⟨(load_absent_key "project").1 freshWorld rfl,
   (load_absent_key "next").2.1 projectSavedWorld [("project", .str "p1")] rfl rfl
     (by decide),
   (load_absent_key "project").2.2 projectSavedWorld (clear "project" projectSavedWorld).2
     rfl⟩

/-- C3. The functions `save` and `clear` change one key only: for another key, `load`
returns after a successful `save(key, value)`, and after a successful `clear(key)`, the
value it returned before. -/
theorem save_clear_frame (key value other : String) (hne : other ≠ key) :
    (∀ w w1 : World, save key value w = (.ok (), w1) →
      ∃ v, (load other w).1 = .ok v ∧ (load other w1).1 = .ok v) ∧
    (∀ w w1 : World, clear key w = (.ok (), w1) →
      ∃ v, (load other w).1 = .ok v ∧ (load other w1).1 = .ok v) := by
  constructor
  · intro w w1 h
    exact load_other_after_save key value other hne w w1 h
  · intro w w1 h
    rcases clear_ok key w w1 h with ⟨hf, hfs⟩ | ⟨body, data, hf, hd, hf1⟩
    · exact ⟨"", load_absent other w hf, load_absent other w1 (by rw [hfs]; exact hf)⟩
    · rw [load_present other w1 _ _ hf1 (unmarshal_marshal _),
        load_present other w _ _ hf hd]
      refine ⟨_, rfl, ?_⟩
      cases data <;> simp [mapGet_mapDelete_ne _ _ _ hne]

/-- C3 at a concrete world: with `project` and `next` stored, `save("next", "V")` and
`clear("next")` both leave `load("project")` at `"p1"`. -/
theorem save_clear_frame_witness :
    (∃ v, (load "project" cursorSavedWorld).1 = .ok v ∧
      (load "project" (save "next" "V" cursorSavedWorld).2).1 = .ok v) ∧
    (∃ v, (load "project" cursorSavedWorld).1 = .ok v ∧
      (load "project" (clear "next" cursorSavedWorld).2).1 = .ok v) :=
  ⟨(save_clear_frame "next" "V" "project" (by decide)).1 cursorSavedWorld
      (save "next" "V" cursorSavedWorld).2 rfl,
   (save_clear_frame "next" "V" "project" (by decide)).2 cursorSavedWorld
      (clear "next" cursorSavedWorld).2 rfl⟩

/-- The action of `clear all` never changes the file that `save`, `load` and `clear` of
`utils.go` use. -/
theorem clearAllAction_keeps_dataFile (w : World) :
    (clearAllAction w).2.fs.dataFile = w.fs.dataFile := by
  obtain ⟨⟨txDir, dataFile, sessionFile, readOnly⟩, tr⟩ := w
  cases sessionFile <;> cases readOnly <;> simp [clearAllAction, removeFile, FS.file, FS.setFile]

/-- A successful `save` of the session store of `main.go` leaves the session file in place,
on a file system that accepts changes. -/
theorem sessionSave_ok (key value : String) (w w1 : World)
    (h : sessionSave key value w = (.ok (), w1)) :
    (∃ body, w1.fs.sessionFile = .present body) ∧ w1.fs.readOnly = false := by
  obtain ⟨⟨txDir, dataFile, sessionFile, readOnly⟩, tr⟩ := w
  cases sessionFile with
  | absent =>
    cases txDir <;> cases readOnly <;>
      simp [sessionSave, bind_run, pure_run, ret_run, fail_run, statTxDirIsNotExist,
        mkdirTx, statFile, writeFile, FS.file, FS.setFile, liftExcept, unmarshalStringMap,
        decodeStringMembers] at h ⊢
    all_goals rw [← h]; exact ⟨⟨_, rfl⟩, rfl⟩
  | denied =>
    cases txDir <;> cases readOnly <;>
      simp [sessionSave, bind_run, pure_run, ret_run, fail_run, statTxDirIsNotExist,
        mkdirTx, statFile, FS.file] at h
  | present body =>
    cases hd : unmarshalStringMap body with
    | error e =>
      cases txDir <;> cases readOnly <;>
        simp [sessionSave, bind_run, pure_run, ret_run, fail_run, statTxDirIsNotExist,
          mkdirTx, statFile, readFile, FS.file, liftExcept, hd] at h
    | ok data =>
      cases data with
      | none =>
        cases txDir <;> cases readOnly <;>
          simp [sessionSave, bind_run, pure_run, ret_run, fail_run, statTxDirIsNotExist,
            mkdirTx, statFile, readFile, FS.file, liftExcept, hd] at h
      | some m =>
        cases txDir <;> cases readOnly <;>
          simp [sessionSave, bind_run, pure_run, ret_run, fail_run, statTxDirIsNotExist,
            mkdirTx, statFile, readFile, writeFile, FS.file, FS.setFile, liftExcept,
            hd] at h ⊢
        all_goals rw [← h]; exact ⟨⟨_, rfl⟩, rfl⟩

/-- What `load` of the session store of `main.go` returns when there is no session file. -/
theorem sessionLoad_absent (key : String) (w : World) (hf : w.fs.sessionFile = .absent) :
    (sessionLoad key w).1 = .ok "" := by
  simp [sessionLoad, bind_run, statFile, FS.file, hf, pure_run]

/-- C4. For every session state that a successful `save` of the session store of `main.go`
leaves, the action of `clear all` succeeds, the file that the store reads and writes,
`.tx/api_explorer_session.json`, no longer exists afterwards, and `load` returns the empty
string, with no error, for every key. -/
theorem clearAll_removes_session (key value : String) (w w1 : World)
    (h : sessionSave key value w = (.ok (), w1)) :
    ∃ w2, clearAllAction w1 = (.ok (), w2) ∧ w2.fs.file .sessionJson = .absent ∧
      ∀ k, (sessionLoad k w2).1 = .ok "" := by
  obtain ⟨⟨body, hfile⟩, hro⟩ := sessionSave_ok key value w w1 h
  obtain ⟨⟨txDir, dataFile, sessionFile, readOnly⟩, tr⟩ := w1
  simp only at hfile hro
  subst hfile hro
  exact ⟨_, rfl, rfl, fun k => sessionLoad_absent k _ rfl⟩

/-- C4 at a concrete input: after `save("project", "p1")` in an empty project directory,
`load("project")` returns `"p1"`; after `clear all` the session file is gone and `load`
returns the empty string for every key. -/
theorem clearAll_removes_session_witness :
    (sessionLoad "project" (sessionSave "project" "p1" freshWorld).2).1 = .ok "p1" ∧
    ∃ w2, clearAllAction (sessionSave "project" "p1" freshWorld).2 = (.ok (), w2) ∧
      w2.fs.file .sessionJson = .absent ∧ ∀ k, (sessionLoad k w2).1 = .ok "" :=
  ⟨rfl, clearAll_removes_session "project" "p1" freshWorld _ rfl⟩

/-! ## What a run leaves behind -/

theorem keepsFS_pure {α : Type} (a : α) : KeepsFS (pure a : Prog α) := fun _ => rfl

theorem keepsFS_fail {α : Type} (e : Failure) : KeepsFS (Prog.fail e : Prog α) := fun _ => rfl

theorem keepsFS_liftExcept {α : Type} (x : Except Failure α) : KeepsFS (liftExcept x) := by
  cases x <;> exact fun _ => rfl

theorem keepsFS_emit (ev : Event) : KeepsFS (emit ev) := fun _ => rfl

theorem keepsFS_bind {α β : Type} {m : Prog α} {f : α → Prog β} (hm : KeepsFS m)
    (hf : ∀ a, KeepsFS (f a)) : KeepsFS (m >>= f) := by
  intro w
  rw [bind_run]
  have h1 := hm w
  rcases hmw : m w with ⟨r, w1⟩
  rw [hmw] at h1
  cases r with
  | error e => exact h1
  | ok a => exact (hf a w1).trans h1

theorem emits_pure {α : Type} (kind : Event → Bool) (a : α) : Emits kind (pure a : Prog α) :=
  fun w => ⟨[], by simp [pure_run], by simp⟩

theorem emits_fail {α : Type} (kind : Event → Bool) (e : Failure) :
    Emits kind (Prog.fail e : Prog α) :=
  fun w => ⟨[], by simp [fail_run], by simp⟩

theorem emits_liftExcept {α : Type} (kind : Event → Bool) (x : Except Failure α) :
    Emits kind (liftExcept x) := by
  cases x
  · exact emits_fail kind _
  · exact emits_pure kind _

theorem emits_emit (kind : Event → Bool) (ev : Event) (h : kind ev = true) :
    Emits kind (emit ev) :=
  fun w => ⟨[ev], rfl, by simpa using h⟩

theorem emits_bind {α β : Type} {kind : Event → Bool} {m : Prog α} {f : α → Prog β}
    (hm : Emits kind m) (hf : ∀ a, Emits kind (f a)) : Emits kind (m >>= f) := by
  intro w
  rw [bind_run]
  obtain ⟨evs, h1, h2⟩ := hm w
  rcases hmw : m w with ⟨r, w1⟩
  rw [hmw] at h1
  cases r with
  | error e => exact ⟨evs, h1, h2⟩
  | ok a =>
    obtain ⟨evs1, h3, h4⟩ := hf a w1
    refine ⟨evs ++ evs1, ?_, ?_⟩
    · show (f a w1).2.trace = _
      rw [h3, h1, List.append_assoc]
    · intro e he
      rcases List.mem_append.mp he with h | h
      · exact h2 e h
      · exact h4 e h

theorem emits_mono {α : Type} {kind kind1 : Event → Bool} {m : Prog α}
    (h : ∀ e, kind e = true → kind1 e = true) (hm : Emits kind m) : Emits kind1 m := by
  intro w
  obtain ⟨evs, h1, h2⟩ := hm w
  exact ⟨evs, h1, fun e he => h e (h2 e he)⟩

theorem keepsFS_statFile (f : FileId) : KeepsFS (statFile f) := by
  intro w
  unfold statFile
  cases w.fs.file f <;> rfl

theorem keepsFS_readFile (f : FileId) : KeepsFS (readFile f) := by
  intro w
  unfold readFile
  cases w.fs.file f <;> rfl

theorem keepsFS_load (key : String) : KeepsFS (load key) := by
  unfold load
  repeat' first
    | exact keepsFS_pure _
    | exact keepsFS_fail _
    | exact keepsFS_liftExcept _
    | exact keepsFS_statFile _
    | exact keepsFS_readFile _
    | refine keepsFS_bind ?_ (fun _ => ?_)
    | split

theorem emits_statFile (f : FileId) : Emits Event.isFileCall (statFile f) := by
  intro w
  refine ⟨[.stat f.path], ?_, by simp [Event.isFileCall]⟩
  unfold statFile
  cases w.fs.file f <;> rfl

theorem emits_readFile (f : FileId) : Emits Event.isFileCall (readFile f) := by
  intro w
  refine ⟨[.readFile f.path], ?_, by simp [Event.isFileCall]⟩
  unfold readFile
  cases w.fs.file f <;> rfl

theorem emits_writeFile (f : FileId) (body : Option JVal) :
    Emits Event.isFileCall (writeFile f body) := by
  intro w
  refine ⟨[.writeFile f.path], ?_, by simp [Event.isFileCall]⟩
  unfold writeFile
  cases w.fs.file f <;> cases w.fs.readOnly <;> cases w.fs.txDir <;> rfl

theorem emits_statTxDir : Emits Event.isFileCall statTxDirIsNotExist :=
  fun w => ⟨[.stat ".tx"], rfl, by simp [Event.isFileCall]⟩

theorem emits_mkdirTx : Emits Event.isFileCall mkdirTx := by
  intro w
  refine ⟨[.mkdir ".tx"], ?_, by simp [Event.isFileCall]⟩
  unfold mkdirTx
  cases w.fs.readOnly <;> rfl

theorem emits_save (key value : String) : Emits Event.isFileCall (save key value) := by
  unfold save
  repeat' first
    | exact emits_pure _ _
    | exact emits_fail _ _
    | exact emits_liftExcept _ _
    | exact emits_statFile _
    | exact emits_readFile _
    | exact emits_writeFile _ _
    | exact emits_statTxDir
    | exact emits_mkdirTx
    | refine emits_bind ?_ (fun _ => ?_)
    | split

theorem emits_load (key : String) : Emits Event.isFileCall (load key) := by
  unfold load
  repeat' first
    | exact emits_pure _ _
    | exact emits_fail _ _
    | exact emits_liftExcept _ _
    | exact emits_statFile _
    | exact emits_readFile _
    | refine emits_bind ?_ (fun _ => ?_)
    | split

/-! ## Claims on the resolver: precedence -/

theorem singular_ok (resourceName : String) (h : resourceName ≠ "") :
    singular resourceName = .ok (String.mk resourceName.data.dropLast) := by
  simp [singular, h]

/-- C5. Precedence in `getResourceId`: the value of `--id` when it is not empty, and then
the world is left as it was (nothing is read from the session store, nothing is requested,
the picker is not called); otherwise the value of `--<singular>-id` when it is not empty;
otherwise the value stored in the session under the singular name when it is not empty;
otherwise the result of `selectResourceId`. -/
theorem getResourceId_precedence (env : Env) (jsopenapi : Schema) (fuel : Nat)
    (resourceName : String) (required : Bool) (w : World) :
    (env.flags "id" ≠ "" →
      getResourceId env jsopenapi fuel resourceName required w = (.ok (env.flags "id"), w)) ∧
    (∀ name : String, singular resourceName = .ok name → env.flags "id" = "" →
      (env.flags (name ++ "-id") ≠ "" →
        getResourceId env jsopenapi fuel resourceName required w
          = (.ok (env.flags (name ++ "-id")), w)) ∧
      (env.flags (name ++ "-id") = "" →
        (∀ (v : String) (w1 : World), load name w = (.ok v, w1) → v ≠ "" →
          getResourceId env jsopenapi fuel resourceName required w = (.ok v, w1)) ∧
        (∀ w1 : World, load name w = (.ok "", w1) →
          getResourceId env jsopenapi fuel resourceName required w
            = selectResourceId env jsopenapi fuel resourceName required w1))) := by
  refine ⟨?_, ?_⟩
  · intro hid
    simp [getResourceId, getResourceIdWith, hid, pure_run]
  · intro name hname hid
    refine ⟨?_, ?_⟩
    · intro htyped
      simp [getResourceId, getResourceIdWith, hid, hname, htyped, bind_run, liftExcept,
        ret_run, pure_run]
    · intro htyped
      refine ⟨?_, ?_⟩
      · intro v w1 hload hv
        simp [getResourceId, getResourceIdWith, hid, hname, htyped, bind_run, liftExcept,
          ret_run, pure_run, hload, hv]
      · intro w1 hload
        simp [getResourceId, getResourceIdWith, hid, hname, htyped, bind_run, liftExcept,
          ret_run, hload]

/-- C5 at concrete inputs, one for each rank: `--id 7`; `--project-id 8`; `project` stored
as `p1` in the session; nothing given, where the result is that of `selectResourceId`. -/
theorem getResourceId_precedence_witness :
    getResourceId (flagEnv "id" "7") projectsSchema 0 "projects" true projectSavedWorld
      = (.ok "7", projectSavedWorld) ∧
    getResourceId (flagEnv "project-id" "8") projectsSchema 0 "projects" true
      projectSavedWorld = (.ok "8", projectSavedWorld) ∧
    getResourceId quietEnv projectsSchema 0 "projects" true projectSavedWorld
      = (.ok "p1", (load "project" projectSavedWorld).2) ∧
    getResourceId quietEnv projectsSchema 0 "projects" true freshWorld
      = selectResourceId quietEnv projectsSchema 0 "projects" true
          (load "project" freshWorld).2 :=
  ⟨(getResourceId_precedence (flagEnv "id" "7") projectsSchema 0 "projects" true
      projectSavedWorld).1 (by decide),
   ((getResourceId_precedence (flagEnv "project-id" "8") projectsSchema 0 "projects" true
      projectSavedWorld).2 "project" rfl rfl).1 (by decide),
   (((getResourceId_precedence quietEnv projectsSchema 0 "projects" true
      projectSavedWorld).2 "project" rfl rfl).2 rfl).1 "p1" _ rfl (by decide),
   (((getResourceId_precedence quietEnv projectsSchema 0 "projects" true
      freshWorld).2 "project" rfl rfl).2 rfl).2 _ rfl⟩

/-! ## Claims on pagination -/

/-- A successful `handlePagination` is a `save` of each link that is not empty, `next`
first. -/
theorem handlePagination_ok (payload : ListPayload) (w w1 : World)
    (h : handlePagination (some payload) w = (.ok (), w1)) :
    ∃ wm : World,
      (if payload.next ≠ "" then save "next" payload.next w = (.ok (), wm) else wm = w) ∧
      (if payload.previous ≠ "" then save "previous" payload.previous wm = (.ok (), w1)
        else w1 = wm) := by
  simp only [handlePagination, bind_run, liftExcept, unmarshalPayload, ret_run] at h
  by_cases hn : payload.next = "" <;> by_cases hp : payload.previous = ""
  · simp [hn, hp, pure_run] at h
    exact ⟨w, by simp [hn], by simp [hp, h]⟩
  · simp [hn, hp, pure_run] at h
    exact ⟨w, by simp [hn], by simp [hp, h]⟩
  · simp only [hn, hp, ne_eq, not_false_eq_true, not_true_eq_false, if_true, if_false,
      pure_run] at h
    rcases hs : save "next" payload.next w with ⟨r, wm⟩
    rw [hs] at h
    cases r with
    | error e => simp at h
    | ok u =>
      simp at h
      exact ⟨wm, by simp [hn], by simp [hp, h]⟩
  · simp only [hn, hp, ne_eq, not_false_eq_true, if_true] at h
    rcases hs : save "next" payload.next w with ⟨r, wm⟩
    rw [hs] at h
    cases r with
    | error e => simp at h
    | ok u =>
      simp only at h
      exact ⟨wm, by simp [hn], by simp [hp, h]⟩

theorem emits_handlePagination (body : Body) :
    Emits Event.isFileCall (handlePagination body) := by
  unfold handlePagination
  repeat' first
    | exact emits_pure _ _
    | exact emits_liftExcept _ _
    | exact emits_save _ _
    | refine emits_bind ?_ (fun _ => ?_)
    | split

theorem emits_invokePager (kind : Event → Bool) (h : kind .pager = true) (env : Env)
    (body : Body) : Emits kind (invokePager env body) := by
  unfold invokePager
  exact emits_bind (emits_emit kind _ h) (fun _ => emits_liftExcept _ _)

/-- C8, the code at the failing input. With `next` stored as `"U"`, a response without a
next link (the last page) is handled with success and leaves `"U"` under `next`: the stored
value is not the `links.next` of the body, and the cursor of an earlier response survives.
The command `get next` then succeeds with the one request of `"U"` again, where its branch
for an empty cursor would fail with `last request did not have a next page`. -/
theorem handlePagination_keeps_old_next :
    (handlePagination (some lastPage) cursorSavedWorld).1 = .ok () ∧
    lastPage.next = "" ∧
    (load "next" (handlePagination (some lastPage) cursorSavedWorld).2).1 = .ok "U" ∧
    (load "next" (handlePagination (some lastPage) cursorSavedWorld).2).1
      ≠ .ok lastPage.next ∧
    (getNextAction quietEnv (handlePagination (some lastPage) cursorSavedWorld).2).1
      = .ok () ∧
    (getNextAction quietEnv
        (handlePagination (some lastPage) cursorSavedWorld).2).2.trace.filter Event.isRequest
      = [.listBodyFromPath "U"] := by
  refine ⟨rfl, rfl, rfl, ?_, rfl, rfl⟩
  have h : (load "next" (handlePagination (some lastPage) cursorSavedWorld).2).1
      = .ok "U" := rfl
  rw [h]
  simp [lastPage]

/-- What the session store holds under `next` and `previous` after a successful
`handlePagination`: the link of the body when it is not empty, and what was held before
when it is empty. -/
theorem handlePagination_links (payload : ListPayload) (w w1 : World)
    (h : handlePagination (some payload) w = (.ok (), w1)) :
    (payload.next ≠ "" → (load "next" w1).1 = .ok payload.next) ∧
    (payload.next = "" → (load "next" w1).1 = (load "next" w).1) ∧
    (payload.previous ≠ "" → (load "previous" w1).1 = .ok payload.previous) ∧
    (payload.previous = "" → (load "previous" w1).1 = (load "previous" w).1) := by
  obtain ⟨wm, hnext, hprev⟩ := handlePagination_ok payload w w1 h
  have hmid : (payload.next ≠ "" → (load "next" wm).1 = .ok payload.next) ∧
      (payload.next = "" → wm = w) ∧
      (payload.next ≠ "" → ∃ v, (load "previous" w).1 = .ok v ∧
        (load "previous" wm).1 = .ok v) := by
    by_cases hn : payload.next = ""
    · simp [hn] at hnext
      simp [hn, hnext]
    · simp only [ne_eq, hn, not_false_eq_true, if_true] at hnext
      exact ⟨fun _ => load_after_save _ _ _ _ hnext, fun h0 => absurd h0 hn,
        fun _ => load_other_after_save "next" _ "previous" (by decide) _ _ hnext⟩
  obtain ⟨hm1, hm2, hm3⟩ := hmid
  by_cases hp : payload.previous = ""
  · simp [hp] at hprev
    subst hprev
    refine ⟨hm1, fun h0 => by rw [hm2 h0], fun h0 => absurd hp h0, fun _ => ?_⟩
    by_cases hn : payload.next = ""
    · rw [hm2 hn]
    · obtain ⟨v, hv1, hv2⟩ := hm3 hn
      rw [hv1, hv2]
  · simp only [ne_eq, hp, not_false_eq_true, if_true] at hprev
    obtain ⟨v, hv1, hv2⟩ :=
      load_other_after_save "previous" _ "next" (by decide) _ _ hprev
    refine ⟨fun h0 => ?_, fun h0 => ?_, fun _ => load_after_save _ _ _ _ hprev,
      fun h0 => absurd h0 hp⟩
    · rw [hv2, ← hv1]
      exact hm1 h0
    · rw [hv2, ← hv1, hm2 h0]

/-- What `handlePagination` does store. After a successful `handlePagination`, a link of
the body that is not empty is what the session store holds under its key (`next` for
`links.next`, `previous` for `links.previous`). The command `get next`, when a cursor is
stored under `next`, requests that URL and makes no other request. -/
theorem handlePagination_cursors :
    (∀ (payload : ListPayload) (w w1 : World),
      handlePagination (some payload) w = (.ok (), w1) →
      (payload.next ≠ "" → (load "next" w1).1 = .ok payload.next) ∧
      (payload.previous ≠ "" → (load "previous" w1).1 = .ok payload.previous)) ∧
    (∀ (env : Env) (w w0 : World) (url : String),
      env.getApi = .ok () → load "next" w = (.ok url, w0) → url ≠ "" →
      ∃ evs : List Event,
        (getNextAction env w).2.trace = w0.trace ++ .listBodyFromPath url :: evs ∧
        ∀ e ∈ evs, e.isRequest = false) := by
  constructor
  · intro payload w w1 h
    have hl := handlePagination_links payload w w1 h
    exact ⟨hl.1, hl.2.2.1⟩
  · intro env w w0 url hapi hload hurl
    have hrest : ∀ body : Body, Emits (fun e => !e.isRequest)
        (handlePagination body >>= fun _ => invokePager env body) := fun body =>
      emits_bind
        (emits_mono (by intro e he; cases e <;> simp_all [Event.isFileCall, Event.isRequest])
          (emits_handlePagination body))
        (fun _ => emits_invokePager _ (by simp [Event.isRequest]) env body)
    simp only [getNextAction, bind_run, hapi, liftExcept, ret_run, hload, hurl, if_false,
      listBodyFromPath, emit]
    cases hans : env.listBodyFromPathAnswer url with
    | error e => exact ⟨[], by simp [fail_run], by simp⟩
    | ok body =>
      obtain ⟨evs, h1, h2⟩ := hrest body
        { w0 with trace := w0.trace ++ [.listBodyFromPath url] }
      refine ⟨evs, ?_, fun e he => by simpa using h2 e he⟩
      simp only [ret_run]
      simp only [bind_run] at h1
      rw [h1]
      simp

/-- The cursors at concrete inputs: with `next` stored as `"U"`, a middle page with both
links overwrites both cursors, the last page overwrites `previous`, and `get next` requests
`"U"`. -/
theorem handlePagination_cursors_witness :
    ((load "next" (handlePagination (some middlePage) cursorSavedWorld).2).1 = .ok "V" ∧
      (load "previous" (handlePagination (some middlePage) cursorSavedWorld).2).1
        = .ok "P") ∧
    (load "previous" (handlePagination (some lastPage) cursorSavedWorld).2).1 = .ok "P" ∧
    ∃ evs : List Event,
      (getNextAction quietEnv cursorSavedWorld).2.trace
        = (load "next" cursorSavedWorld).2.trace ++ .listBodyFromPath "U" :: evs ∧
      ∀ e ∈ evs, e.isRequest = false :=
  ⟨⟨(handlePagination_cursors.1 middlePage cursorSavedWorld _ rfl).1 (by decide),
    (handlePagination_cursors.1 middlePage cursorSavedWorld _ rfl).2 (by decide)⟩,
   (handlePagination_cursors.1 lastPage cursorSavedWorld _ rfl).2 (by decide),
   handlePagination_cursors.2 quietEnv cursorSavedWorld _ "U" rfl rfl (by decide)⟩

/-! ## Claims on the resolver: the fetched list -/

theorem selectResourceId_eq (env : Env) (jsopenapi : Schema) (fuel : Nat)
    (resourceName : String) (required : Bool) :
    selectResourceId env jsopenapi fuel resourceName required
      = selectResourceIdWith (resolveFilterId env jsopenapi fuel) env fuel jsopenapi
          resourceName required := by
  cases fuel <;> rfl

theorem keepsFS_listBody (env : Env) (resourceName : String) (filters : GoMap String) :
    KeepsFS (listBody env resourceName filters) :=
  keepsFS_bind (keepsFS_emit _) (fun _ => keepsFS_liftExcept _)

theorem keepsFS_listBodyFromPath (env : Env) (url : String) :
    KeepsFS (listBodyFromPath env url) :=
  keepsFS_bind (keepsFS_emit _) (fun _ => keepsFS_liftExcept _)

theorem keepsFS_find (env : Env) (labels : List String) (header : String) :
    KeepsFS (find env labels header) :=
  keepsFS_bind (keepsFS_emit _) (fun _ => keepsFS_liftExcept _)

theorem emits_listBody (env : Env) (resourceName : String) (filters : GoMap String) :
    Emits Event.isRequest (listBody env resourceName filters) :=
  emits_bind (emits_emit _ _ rfl) (fun _ => emits_liftExcept _ _)

theorem emits_listBodyFromPath (env : Env) (url : String) :
    Emits Event.isRequest (listBodyFromPath env url) :=
  emits_bind (emits_emit _ _ rfl) (fun _ => emits_liftExcept _ _)

theorem keepsFS_joinPages (env : Env) (fuel : Nat) (body : Body) :
    KeepsFS (joinPages env fuel body) := by
  induction fuel generalizing body with
  | zero =>
    cases body with
    | none => exact keepsFS_fail _
    | some page =>
      unfold joinPages
      split
      · exact keepsFS_pure _
      · exact keepsFS_fail _
  | succ n ih =>
    cases body with
    | none => exact keepsFS_fail _
    | some page =>
      unfold joinPages
      split
      · exact keepsFS_pure _
      · refine keepsFS_bind (keepsFS_listBodyFromPath _ _) (fun nextBody => ?_)
        refine keepsFS_bind (ih nextBody) (fun rest => ?_)
        cases rest
        · exact keepsFS_fail _
        · exact keepsFS_pure _

theorem emits_joinPages (env : Env) (fuel : Nat) (body : Body) :
    Emits Event.isRequest (joinPages env fuel body) := by
  induction fuel generalizing body with
  | zero =>
    cases body with
    | none => exact emits_fail _ _
    | some page =>
      unfold joinPages
      split
      · exact emits_pure _ _
      · exact emits_fail _ _
  | succ n ih =>
    cases body with
    | none => exact emits_fail _ _
    | some page =>
      unfold joinPages
      split
      · exact emits_pure _ _
      · refine emits_bind (emits_listBodyFromPath _ _) (fun nextBody => ?_)
        refine emits_bind (ih nextBody) (fun rest => ?_)
        cases rest
        · exact emits_fail _ _
        · exact emits_pure _ _

theorem keepsFS_fetchList (env : Env) (fuel : Nat) (resourceName : String)
    (query : GoMap String) : KeepsFS (fetchList env fuel resourceName query) :=
  keepsFS_bind (keepsFS_listBody _ _ _) (fun _ => keepsFS_joinPages _ _ _)

theorem emits_fetchList (env : Env) (fuel : Nat) (resourceName : String)
    (query : GoMap String) : Emits Event.isRequest (fetchList env fuel resourceName query) :=
  emits_bind (emits_listBody _ _ _) (fun _ => emits_joinPages _ _ _)

theorem keepsFS_fuzzy (env : Env) (body : Body) (header : String)
    (pprint : Option (Resource → String)) (allowEmpty : Bool) :
    KeepsFS (fuzzy env body header pprint allowEmpty) := by
  unfold fuzzy
  repeat' first
    | exact keepsFS_pure _
    | exact keepsFS_fail _
    | exact keepsFS_liftExcept _
    | exact keepsFS_find _ _ _
    | refine keepsFS_bind ?_ (fun _ => ?_)
    | split

theorem keepsFS_chooseFrom (env : Env) (jsopenapi : Schema) (resourceName : String)
    (required : Bool) (body : Body) :
    KeepsFS (chooseFrom env jsopenapi resourceName required body) := by
  unfold chooseFrom
  repeat' first
    | exact keepsFS_pure _
    | exact keepsFS_fail _
    | exact keepsFS_liftExcept _
    | exact keepsFS_fuzzy _ _ _ _ _
    | refine keepsFS_bind ?_ (fun _ => ?_)
    | split

theorem keepsFS_resolveFilters (getId : String → Bool → Prog String) (env : Env)
    (hget : ∀ name required, KeepsFS (getId name required))
    (filters : List (String × Filter)) (query : GoMap String) :
    KeepsFS (resolveFilters getId env filters query) := by
  induction filters generalizing query with
  | nil => exact keepsFS_pure _
  | cons e rest ih =>
    obtain ⟨filterName, filter⟩ := e
    unfold resolveFilters
    repeat' first
      | exact ih _
      | exact hget _ _
      | refine keepsFS_bind ?_ (fun _ => ?_)
      | split
      | dsimp only

theorem keepsFS_buildQuery (getId : String → Bool → Prog String) (env : Env)
    (hget : ∀ name required, KeepsFS (getId name required)) (jsopenapi : Schema)
    (resourceName : String) : KeepsFS (buildQuery getId env jsopenapi resourceName) := by
  unfold buildQuery
  split
  · exact keepsFS_resolveFilters _ _ hget _ _
  · exact keepsFS_pure _

theorem keepsFS_selectResourceIdWith (getId : String → Bool → Prog String) (env : Env)
    (hget : ∀ name required, KeepsFS (getId name required)) (fuel : Nat)
    (jsopenapi : Schema) (resourceName : String) (required : Bool) :
    KeepsFS (selectResourceIdWith getId env fuel jsopenapi resourceName required) :=
  keepsFS_bind (keepsFS_buildQuery _ _ hget _ _)
    (fun _ => keepsFS_bind (keepsFS_fetchList _ _ _ _)
      (fun _ => keepsFS_chooseFrom _ _ _ _ _))

theorem keepsFS_getResourceIdWith (select : String → Bool → Prog String) (env : Env)
    (hsel : ∀ name required, KeepsFS (select name required)) (resourceName : String)
    (required : Bool) : KeepsFS (getResourceIdWith select env resourceName required) := by
  unfold getResourceIdWith
  repeat' first
    | exact keepsFS_pure _
    | exact keepsFS_liftExcept _
    | exact keepsFS_load _
    | exact hsel _ _
    | refine keepsFS_bind ?_ (fun _ => ?_)
    | split
    | dsimp only

/-- The function `selectResourceId` never changes the file system: it writes nothing to
the session store, however it ends. -/
theorem keepsFS_selectResourceId (env : Env) (jsopenapi : Schema) (fuel : Nat)
    (resourceName : String) (required : Bool) :
    KeepsFS (selectResourceId env jsopenapi fuel resourceName required) := by
  induction fuel generalizing resourceName required with
  | zero =>
    exact keepsFS_selectResourceIdWith _ _ (fun _ _ => keepsFS_fail _) _ _ _ _
  | succ n ih =>
    exact keepsFS_selectResourceIdWith _ _
      (fun name req => keepsFS_getResourceIdWith _ _ (fun a b => ih a b) name req) _ _ _ _

theorem keepsFS_resolveFilterId (env : Env) (jsopenapi : Schema) (fuel : Nat)
    (resourceName : String) (required : Bool) :
    KeepsFS (resolveFilterId env jsopenapi fuel resourceName required) := by
  cases fuel with
  | zero => exact keepsFS_fail _
  | succ n =>
    exact keepsFS_getResourceIdWith _ _
      (fun a b => keepsFS_selectResourceId env jsopenapi n a b) _ _

/-- The two first phases of `selectResourceId` leave the file system alone, and the fetch
adds nothing but requests to the log. -/
theorem fetched_world (env : Env) (jsopenapi : Schema) (fuel : Nat) (resourceName : String)
    (w w1 w2 : World) (query : GoMap String) (body : Body)
    (hq : buildQuery (resolveFilterId env jsopenapi fuel) env jsopenapi resourceName w
      = (.ok query, w1))
    (hb : fetchList env fuel resourceName query w1 = (.ok body, w2)) :
    w2.fs = w.fs ∧
      ∃ evs : List Event, w2.trace = w1.trace ++ evs ∧
        ∀ e ∈ evs, e.isRequest = true ∧ e.isFind = false := by
  constructor
  · have h1 := keepsFS_buildQuery _ env (keepsFS_resolveFilterId env jsopenapi fuel)
      jsopenapi resourceName w
    have h2 := keepsFS_fetchList env fuel resourceName query w1
    rw [hq] at h1
    rw [hb] at h2
    exact h2.trans h1
  · obtain ⟨evs, h1, h2⟩ := emits_fetchList env fuel resourceName query w1
    rw [hb] at h1
    refine ⟨evs, h1, fun e he => ⟨h2 e he, ?_⟩⟩
    have h3 := h2 e he
    cases e <;> simp_all [Event.isRequest, Event.isFind]

/-- C9. Required resource not found: when the filters of the resource are resolved and the
fully paginated list that `selectResourceId` fetches has no item, `selectResourceId` with
`required = true` fails with `"<singular> not found"`; the world it leaves is the one
after the fetch, so the picker is not called on the list; the file system is the one it
started from, so nothing is written to the session store. -/
theorem selectResourceId_required_not_found (env : Env) (jsopenapi : Schema) (fuel : Nat)
    (resourceName : String) (hname : resourceName ≠ "") (w w1 w2 : World)
    (query : GoMap String) (payload : ListPayload)
    (hq : buildQuery (resolveFilterId env jsopenapi fuel) env jsopenapi resourceName w
      = (.ok query, w1))
    (hb : fetchList env fuel resourceName query w1 = (.ok (some payload), w2))
    (hempty : payload.data = []) :
    selectResourceId env jsopenapi fuel resourceName true w
        = (.error (.message (String.mk resourceName.data.dropLast ++ " not found")), w2) ∧
      w2.fs = w.fs ∧
      ∃ evs : List Event, w2.trace = w1.trace ++ evs ∧
        ∀ e ∈ evs, e.isRequest = true ∧ e.isFind = false := by
  refine ⟨?_, fetched_world env jsopenapi fuel resourceName w w1 w2 query _ hq hb⟩
  rw [selectResourceId_eq]
  simp [selectResourceIdWith, bind_run, hq, hb, chooseFrom, getIsEmpty, unmarshalPayload,
    hempty, liftExcept, singular_ok resourceName hname, ret_run, fail_run]

/-- C9 at a concrete input: `projects` has no filter and the API has no project. -/
theorem selectResourceId_required_not_found_witness :
    selectResourceId quietEnv projectsSchema 0 "projects" true projectSavedWorld
        = (.error (.message "project not found"),
            (fetchList quietEnv 0 "projects" [] projectSavedWorld).2) ∧
      (fetchList quietEnv 0 "projects" [] projectSavedWorld).2.fs = projectSavedWorld.fs ∧
      ∃ evs : List Event,
        (fetchList quietEnv 0 "projects" [] projectSavedWorld).2.trace
          = projectSavedWorld.trace ++ evs ∧
        ∀ e ∈ evs, e.isRequest = true ∧ e.isFind = false :=
  selectResourceId_required_not_found quietEnv projectsSchema 0 "projects" (by decide)
    projectSavedWorld projectSavedWorld _ [] { data := [], next := "", previous := "" }
    rfl rfl rfl

/-- C10, the claim as stated fails. With no project on the API and `required = false`,
`selectResourceId` calls the picker, showing the one entry `<empty>`; and when the operator
aborts the picker, it returns the picker's error. -/
theorem selectResourceId_empty_calls_picker :
    (selectResourceId quietEnv projectsSchema 0 "projects" false freshWorld).2.trace
        = [.listBody "projects" [], .find ["<empty>"] "Select project"] ∧
      (selectResourceId abortEnv projectsSchema 0 "projects" false freshWorld).1
        = .error (.collaborator "abort") :=
  ⟨rfl, rfl⟩

/-- C10 as amended. When the filters of the resource are resolved and the fully paginated
list that `selectResourceId` fetches has no item, `selectResourceId` with
`required = false` calls the picker once, with the one entry `<empty>`, and returns the
empty identifier and no error when the picker returns that entry (index 0), and the error
of the picker when it fails. -/
theorem selectResourceId_empty_not_required (env : Env) (jsopenapi : Schema) (fuel : Nat)
    (resourceName : String) (hname : resourceName ≠ "") (w w1 w2 : World)
    (query : GoMap String) (payload : ListPayload)
    (hq : buildQuery (resolveFilterId env jsopenapi fuel) env jsopenapi resourceName w
      = (.ok query, w1))
    (hb : fetchList env fuel resourceName query w1 = (.ok (some payload), w2))
    (hempty : payload.data = []) :
    selectResourceId env jsopenapi fuel resourceName false w
      = ((match env.findAnswer ["<empty>"]
              ("Select " ++ String.mk resourceName.data.dropLast) with
          | .ok 0 => .ok ""
          | .ok (_ + 1) => .error (.panicked "index out of range")
          | .error e => .error e),
         { w2 with trace := w2.trace ++
            [.find ["<empty>"] ("Select " ++ String.mk resourceName.data.dropLast)] }) := by
  rw [selectResourceId_eq]
  simp only [selectResourceIdWith, bind_run, hq, hb, chooseFrom, getIsEmpty, getIfOnlyOne,
    unmarshalPayload, hempty, liftExcept, singular_ok resourceName hname, ret_run, fuzzy,
    find, emit]
  cases hfind : env.findAnswer ["<empty>"]
      ("Select " ++ String.mk resourceName.data.dropLast) with
  | error e => simp [bind_run, hempty, emit, hfind, fail_run, ret_run, pure_run]
  | ok idx =>
    cases idx with
    | zero => simp [bind_run, hempty, emit, hfind, fail_run, ret_run, pure_run, emptyResource]
    | succ k => simp [bind_run, hempty, emit, hfind, fail_run, ret_run, pure_run]

/-- C10 as amended, at concrete inputs: an operator who picks the entry, and one who
aborts. -/
theorem selectResourceId_empty_not_required_witness :
    selectResourceId quietEnv projectsSchema 0 "projects" false freshWorld
        = (.ok "", { freshWorld with
            trace := [.listBody "projects" [], .find ["<empty>"] "Select project"] }) ∧
      selectResourceId abortEnv projectsSchema 0 "projects" false freshWorld
        = (.error (.collaborator "abort"), { freshWorld with
            trace := [.listBody "projects" [], .find ["<empty>"] "Select project"] }) :=
  ⟨selectResourceId_empty_not_required quietEnv projectsSchema 0 "projects" (by decide)
      freshWorld freshWorld _ [] { data := [], next := "", previous := "" } rfl rfl rfl,
   selectResourceId_empty_not_required abortEnv projectsSchema 0 "projects" (by decide)
      freshWorld freshWorld _ [] { data := [], next := "", previous := "" } rfl rfl rfl⟩

/-! ## The edit engine -/

theorem mapDelete_eq_filter {V : Type} (m : GoMap V) (k : String) :
    mapDelete m k = m.filter (fun e => decide (e.1 ≠ k)) := rfl

theorem stringSliceContains_iff (haystack : List String) (needle : String) :
    stringSliceContains haystack needle = true ↔ needle ∈ haystack := by
  induction haystack with
  | nil => simp [stringSliceContains]
  | cons key rest ih =>
    unfold stringSliceContains
    by_cases h : key = needle
    · simp [h]
    · have h1 : ¬ needle = key := fun h2 => h h2.symm
      simp [h, h1, ih]

/-- The first loop deletes from the map the keys it ranges over that are not editable. -/
theorem restrictLoop_eq (E : List String) (l : List (String × JVal)) (pre : GoMap JVal) :
    restrictLoop E l pre
      = pre.filter (fun e => !(decide (e.1 ∈ mapKeys l) && !stringSliceContains E e.1)) := by
  induction l generalizing pre with
  | nil => simp [restrictLoop, mapKeys]
  | cons x rest ih =>
    obtain ⟨field, v⟩ := x
    unfold restrictLoop
    by_cases hc : stringSliceContains E field = true
    · simp only [hc, Bool.not_true, Bool.false_eq_true, if_false]
      rw [ih]
      apply List.filter_congr
      intro e _
      by_cases he : e.1 = field
      · simp [mapKeys, he, hc]
      · have hb : (e.1 == field) = false := by simp [he]
        simp [mapKeys, he, hb]
    · simp only [Bool.not_eq_true] at hc
      simp only [hc, Bool.not_false, if_true]
      rw [ih, mapDelete_eq_filter, List.filter_filter]
      apply List.filter_congr
      intro e _
      by_cases he : e.1 = field
      · simp [mapKeys, he, hc]
      · have hb : (e.1 == field) = false := by simp [he]
        simp [mapKeys, he, hb]

theorem restrictLoop_self (E : List String) (A : GoMap JVal) :
    restrictLoop E A A = A.filter (fun e => stringSliceContains E e.1) := by
  rw [restrictLoop_eq]
  apply List.filter_congr
  intro e he
  have h : e.1 ∈ mapKeys A := List.mem_map_of_mem Prod.fst he
  simp [h]

theorem mapGet_filter_key {V : Type} (m : GoMap V) (p : String → Bool) (f : String) :
    mapGet (m.filter (fun e => p e.1)) f = if p f = true then mapGet m f else none := by
  induction m with
  | nil => simp [mapGet]
  | cons x rest ih =>
    obtain ⟨k, v⟩ := x
    by_cases hk : k = f
    · subst hk
      by_cases hp : p k = true
      · simp [List.filter_cons, hp, mapGet_cons]
      · simp [List.filter_cons, hp, ih]
    · by_cases hp : p k = true
      · simp [List.filter_cons, hp, mapGet_cons, hk, ih]
      · simp [List.filter_cons, hp, mapGet_cons, hk, ih]

/-- The second loop deletes from the map the keys of the unchanged entries it ranges over,
and appends the keys of the others to `finalFields`, in order. -/
theorem diffLoop_eq (pre : GoMap JVal) (l : List (String × JVal)) (post : GoMap JVal)
    (acc : List String) :
    diffLoop pre l (post, acc)
      = (post.filter (fun e =>
            !decide (e.1 ∈ mapKeys (l.filter (fun x => unchanged pre x.1 x.2)))),
          acc ++ mapKeys (l.filter (fun x => !unchanged pre x.1 x.2))) := by
  induction l generalizing post acc with
  | nil => simp [diffLoop, mapKeys]
  | cons x rest ih =>
    obtain ⟨field, postValue⟩ := x
    unfold diffLoop
    by_cases hu : unchanged pre field postValue = true
    · simp only [hu, if_true]
      rw [ih, mapDelete_eq_filter, List.filter_filter]
      congr 1
      · apply List.filter_congr
        intro e _
        by_cases he : e.1 = field
        · simp [mapKeys, List.filter_cons, hu, he]
        · have hb : (e.1 == field) = false := by simp [he]
          simp [mapKeys, List.filter_cons, hu, he, hb]
      · simp [mapKeys, List.filter_cons, hu]
    · simp only [hu, Bool.false_eq_true, if_false]
      rw [ih]
      simp only [Bool.not_eq_true] at hu
      have hf : List.filter (fun x => unchanged pre x.1 x.2) ((field, postValue) :: rest)
          = List.filter (fun x => unchanged pre x.1 x.2) rest := by
        simp [List.filter_cons, hu]
      rw [hf]
      congr 1
      simp [mapKeys, List.filter_cons, hu]

theorem mem_of_mapGet {V : Type} (m : GoMap V) (k : String) (v : V)
    (h : mapGet m k = some v) : (k, v) ∈ m := by
  induction m with
  | nil => simp [mapGet] at h
  | cons x rest ih =>
    obtain ⟨k1, v1⟩ := x
    rw [mapGet_cons] at h
    by_cases hk : k1 = k
    · simp [hk] at h
      simp [hk, h]
    · simp [hk] at h
      exact List.mem_cons_of_mem _ (ih h)

theorem mapGet_of_mem {V : Type} (m : GoMap V) (hnodup : (mapKeys m).Nodup) (k : String)
    (v : V) (h : (k, v) ∈ m) : mapGet m k = some v := by
  induction m with
  | nil => simp at h
  | cons x rest ih =>
    obtain ⟨k1, v1⟩ := x
    simp only [mapKeys, List.map_cons, List.nodup_cons] at hnodup
    rw [mapGet_cons]
    rcases List.mem_cons.mp h with heq | hmem
    · simp only [Prod.mk.injEq] at heq
      simp [heq.1, heq.2]
    · have hk : ¬ k1 = k := by
        intro hk
        apply hnodup.1
        rw [hk]
        exact List.mem_map_of_mem Prod.fst hmem
      rw [if_neg hk]
      exact ih hnodup.2 hmem

/-- On a map with pairwise different keys, the second loop leaves the changed entries. -/
theorem diffLoop_self (pre post : GoMap JVal) (hnodup : (mapKeys post).Nodup) :
    diffLoop pre post (post, [])
      = (post.filter (fun x => !unchanged pre x.1 x.2),
          mapKeys (post.filter (fun x => !unchanged pre x.1 x.2))) := by
  rw [diffLoop_eq]
  congr 1
  apply List.filter_congr
  intro e he
  by_cases hu : unchanged pre e.1 e.2 = true
  · have hmem : e.1 ∈ mapKeys (post.filter (fun x => unchanged pre x.1 x.2)) :=
      List.mem_map_of_mem Prod.fst (List.mem_filter.mpr ⟨he, hu⟩)
    simp [hmem, hu]
  · have hnot : e.1 ∉ mapKeys (post.filter (fun x => unchanged pre x.1 x.2)) := by
      intro hmem
      obtain ⟨x, hx, hxe⟩ := List.mem_map.mp hmem
      obtain ⟨hxpost, hxu⟩ := List.mem_filter.mp hx
      have hxeq : x = e := List.inj_on_of_nodup_map hnodup hxpost he hxe
      rw [hxeq] at hxu
      exact hu hxu
    simp only [Bool.not_eq_true] at hu
    simp [hnot, hu]

/-- What a run of `edit` is, once the editor has left an object: the error
`nothing changed` when no entry of the object is changed, and else one call of `Save` with
the changed entries. -/
theorem edit_run (env : Env) (item : Resource) (E : List String) (body : Option JVal)
    (P : GoMap JVal) (w : World)
    (hed : env.editorAnswer (marshalAnyMap (restrictAttributes E item.attributes))
      = .ok body)
    (hP : unmarshalAnyMap body = .ok (some P)) (hnodup : (mapKeys P).Nodup) :
    edit env item E w
      = if mapKeys (P.filter (fun x =>
            !unchanged (entries (restrictAttributes E item.attributes)) x.1 x.2)) = []
        then (.error (.message "nothing changed"),
          { w with trace := w.trace ++
              [.editor (marshalAnyMap (restrictAttributes E item.attributes))] })
        else (env.saveAnswer
            { item with attributes := some (P.filter (fun x =>
                !unchanged (entries (restrictAttributes E item.attributes)) x.1 x.2)) }
            (mapKeys (P.filter (fun x =>
                !unchanged (entries (restrictAttributes E item.attributes)) x.1 x.2))),
          { w with trace := w.trace ++
              [.editor (marshalAnyMap (restrictAttributes E item.attributes)),
               .saveResource
                { item with attributes := some (P.filter (fun x =>
                    !unchanged (entries (restrictAttributes E item.attributes)) x.1 x.2)) }
                (mapKeys (P.filter (fun x =>
                    !unchanged (entries (restrictAttributes E item.attributes)) x.1 x.2)))] })
      := by
  simp only [edit, bind_run, mapAttributes, liftExcept, ret_run, invokeEditor, emit, hed, hP,
    diffLoop_self _ P hnodup, List.length_eq_zero]
  split
  · rfl
  · simp only [saveResource, bind_run, emit, liftExcept]
    cases env.saveAnswer _ _ <;> simp [fail_run, ret_run]

theorem not_mem_keys_of_mapGet_none {V : Type} (m : GoMap V) (k : String)
    (h : mapGet m k = none) : k ∉ mapKeys m := by
  induction m with
  | nil => simp [mapKeys]
  | cons x rest ih =>
    obtain ⟨k1, v1⟩ := x
    rw [mapGet_cons] at h
    by_cases hk : k1 = k
    · simp [hk] at h
    · simp only [hk, if_false] at h
      simp only [mapKeys, List.map_cons, List.mem_cons, not_or]
      exact ⟨fun h1 => hk h1.symm, ih h⟩

theorem nodup_keys_of_wellFormedMap (m : List (String × JVal))
    (h : wellFormedMap m = true) : (mapKeys m).Nodup := by
  induction m with
  | nil => simp [mapKeys]
  | cons x rest ih =>
    obtain ⟨k, v⟩ := x
    simp only [wellFormedMap, Bool.and_eq_true, Option.isNone_iff_eq_none] at h
    simp only [mapKeys, List.map_cons, List.nodup_cons]
    exact ⟨not_mem_keys_of_mapGet_none rest k h.1.1, ih h.2⟩

mutual
/-- On Go values `reflect.DeepEqual` is reflexive. -/
theorem deepEqual_refl : ∀ v : JVal, wellFormed v = true → deepEqual v v = true
  | .null, _ => rfl
  | .bool _, _ => by simp [deepEqual]
  | .num _, _ => by simp [deepEqual]
  | .str _, _ => by simp [deepEqual]
  | .arr xs, h => by
    rw [deepEqual]
    exact deepEqualSlice_refl xs (by simpa [wellFormed] using h)
  | .obj m, h => by
    have hwf : wellFormedMap m = true := by simpa [wellFormed] using h
    rw [deepEqual]
    simp only [beq_self_eq_true, Bool.true_and]
    exact deepEqualMap_of_get m m hwf
      (fun k v hmem => mapGet_of_mem m (nodup_keys_of_wellFormedMap m hwf) k v hmem)
/-- On slices of Go values the check of `reflect.DeepEqual` is reflexive. -/
theorem deepEqualSlice_refl :
    ∀ xs : List JVal, wellFormedSlice xs = true → deepEqualSlice xs xs = true
  | [], _ => rfl
  | x :: xs, h => by
    simp only [wellFormedSlice, Bool.and_eq_true] at h
    rw [deepEqualSlice, deepEqual_refl x h.1, deepEqualSlice_refl xs h.2]
    rfl
/-- The check of `reflect.DeepEqual` on maps holds when the second map has every entry of
the first. -/
theorem deepEqualMap_of_get :
    ∀ (m1 m2 : List (String × JVal)), wellFormedMap m1 = true →
      (∀ k v, (k, v) ∈ m1 → mapGet m2 k = some v) → deepEqualMap m1 m2 = true
  | [], _, _, _ => by simp [deepEqualMap]
  | (k, v) :: rest, m2, h, hget => by
    simp only [wellFormedMap, Bool.and_eq_true] at h
    rw [deepEqualMap, hget k v (List.mem_cons_self _ _)]
    simp only [deepEqual_refl v h.1.2, Bool.true_and]
    exact deepEqualMap_of_get rest m2 h.2
      (fun k1 v1 hmem => hget k1 v1 (List.mem_cons_of_mem _ hmem))
end

/-- What the restricted attributes hold: the attribute, for an editable field. -/
theorem mapGet_restrictAttributes (E : List String) (attributes : Option (GoMap JVal))
    (f : String) :
    mapGet (entries (restrictAttributes E attributes)) f
      = if stringSliceContains E f = true then mapGet (entries attributes) f else none := by
  cases attributes with
  | none => simp [restrictAttributes, entries, mapGet]
  | some A =>
    simp only [restrictAttributes, Option.map_some', entries, restrictLoop_self]
    exact mapGet_filter_key A (fun k => stringSliceContains E k) f

/-- The test of the second loop, in the words of the claims. -/
theorem unchanged_eq_false_iff (E : List String) (attributes : Option (GoMap JVal))
    (f : String) (p : JVal) :
    unchanged (entries (restrictAttributes E attributes)) f p = false ↔
      ∃ a, mapGet (entries attributes) f = some a ∧ f ∈ E ∧ deepEqual a p = false := by
  unfold unchanged
  rw [mapGet_restrictAttributes]
  by_cases hc : stringSliceContains E f = true
  · have hmem : f ∈ E := (stringSliceContains_iff E f).mp hc
    rw [if_pos hc]
    cases hget : mapGet (entries attributes) f with
    | none => simp
    | some a => simp [hmem]
  · have hmem : f ∉ E := fun h => hc ((stringSliceContains_iff E f).mpr h)
    rw [if_neg hc]
    simp [hmem]

/-- The keys of the changed entries, in the words of the claims. -/
theorem mem_changed_keys_iff (E : List String) (attributes : Option (GoMap JVal))
    (P : GoMap JVal) (hnodup : (mapKeys P).Nodup) (f : String) :
    f ∈ mapKeys (P.filter (fun x =>
        !unchanged (entries (restrictAttributes E attributes)) x.1 x.2)) ↔
      ∃ a p, mapGet (entries attributes) f = some a ∧ f ∈ E ∧ mapGet P f = some p ∧
        deepEqual a p = false := by
  constructor
  · intro h
    obtain ⟨x, hx, hxf⟩ := List.mem_map.mp h
    obtain ⟨hxP, hxu⟩ := List.mem_filter.mp hx
    obtain ⟨k, p⟩ := x
    simp only at hxf
    subst hxf
    simp only [Bool.not_eq_true'] at hxu
    obtain ⟨a, ha, hE, hd⟩ := (unchanged_eq_false_iff E attributes k p).mp hxu
    exact ⟨a, p, ha, hE, mapGet_of_mem P hnodup k p hxP, hd⟩
  · rintro ⟨a, p, ha, hE, hp, hd⟩
    have hu : unchanged (entries (restrictAttributes E attributes)) f p = false :=
      (unchanged_eq_false_iff E attributes f p).mpr ⟨a, ha, hE, hd⟩
    exact List.mem_map.mpr ⟨(f, p),
      List.mem_filter.mpr ⟨mem_of_mapGet P f p hp, by simp [hu]⟩, rfl⟩

theorem nodup_keys_filter {V : Type} (m : GoMap V) (q : String × V → Bool)
    (hnodup : (mapKeys m).Nodup) : (mapKeys (m.filter q)).Nodup :=
  List.Nodup.sublist (List.Sublist.map Prod.fst (List.filter_sublist m)) hnodup

theorem mapGet_filter_of_mem {V : Type} (m : GoMap V) (q : String × V → Bool)
    (hnodup : (mapKeys m).Nodup) (f : String) (hf : f ∈ mapKeys (m.filter q)) :
    mapGet (m.filter q) f = mapGet m f := by
  obtain ⟨x, hx, hxf⟩ := List.mem_map.mp hf
  obtain ⟨k, v⟩ := x
  simp only at hxf
  subst hxf
  rw [mapGet_of_mem _ (nodup_keys_filter m q hnodup) k v hx,
    mapGet_of_mem m hnodup k v (List.mem_filter.mp hx).1]

/-! ## Claims on the edit engine -/

/-- C6. Edit submits exactly the changed fields. When the editor leaves an object `P`, there
are a field list and an attribute map such that: a field is in the list exactly when it is
an attribute of the resource, is editable, is a key of `P`, and its value in `P` is not
deeply equal to the attribute; no field is listed twice; the keys of the map are the list;
each listed field has in the map its value in `P`; a key that is not an editable attribute
of the resource is not in the list; and when the list is not empty, `edit` makes one call
of `Save`, with that list, on the resource with that map as attributes. -/
theorem edit_submits_changed_fields (env : Env) (item : Resource) (E : List String)
    (body : Option JVal) (P : GoMap JVal) (w : World)
    (hed : env.editorAnswer (marshalAnyMap (restrictAttributes E item.attributes))
      = .ok body)
    (hP : unmarshalAnyMap body = .ok (some P)) (hnodup : (mapKeys P).Nodup) :
    ∃ (fields : List String) (submitted : GoMap JVal),
      (∀ f, f ∈ fields ↔
        ∃ a p, mapGet (entries item.attributes) f = some a ∧ f ∈ E ∧
          mapGet P f = some p ∧ deepEqual a p = false) ∧
      fields.Nodup ∧
      mapKeys submitted = fields ∧
      (∀ f ∈ fields, mapGet submitted f = mapGet P f) ∧
      (∀ f, (mapGet (entries item.attributes) f = none ∨ f ∉ E) → f ∉ fields) ∧
      (fields ≠ [] →
        edit env item E w
          = (env.saveAnswer { item with attributes := some submitted } fields,
              { w with trace := w.trace ++
                [.editor (marshalAnyMap (restrictAttributes E item.attributes)),
                 .saveResource { item with attributes := some submitted } fields] })) := by
  have hiff := mem_changed_keys_iff E item.attributes P hnodup
  refine ⟨_, _, hiff, nodup_keys_filter P _ hnodup, rfl,
    fun f hf => mapGet_filter_of_mem P _ hnodup f hf, ?_, ?_⟩
  · intro f hf hmem
    obtain ⟨a, p, ha, hE, _, _⟩ := (hiff f).mp hmem
    rcases hf with h | h
    · rw [h] at ha
      exact Option.noConfusion ha
    · exact h hE
  · intro hne
    rw [edit_run env item E body P w hed hP hnodup, if_neg hne]

/-- C6 at the example of the specification: attributes `{"a": 1, "b": 2}`, editable fields
`a`, and an editor that leaves `{"a": 5}`; the update submitted is `{"a": 5}` for the
field list `a`. -/
theorem edit_submits_changed_fields_witness :
    ∃ (fields : List String) (submitted : GoMap JVal),
      (∀ f, f ∈ fields ↔
        ∃ a p, mapGet (entries itemAB.attributes) f = some a ∧ f ∈ ["a"] ∧
          mapGet [("a", JVal.num 5)] f = some p ∧ deepEqual a p = false) ∧
      fields.Nodup ∧
      mapKeys submitted = fields ∧
      (∀ f ∈ fields, mapGet submitted f = mapGet [("a", JVal.num 5)] f) ∧
      (∀ f, (mapGet (entries itemAB.attributes) f = none ∨ f ∉ ["a"]) → f ∉ fields) ∧
      (fields ≠ [] →
        edit (editorEnv (some (.obj [("a", .num 5)]))) itemAB ["a"] freshWorld
          = ((editorEnv (some (.obj [("a", .num 5)]))).saveAnswer
                { itemAB with attributes := some submitted } fields,
              { freshWorld with trace := freshWorld.trace ++
                [.editor (marshalAnyMap (restrictAttributes ["a"] itemAB.attributes)),
                 .saveResource { itemAB with attributes := some submitted } fields] })) :=
  edit_submits_changed_fields (editorEnv (some (.obj [("a", .num 5)]))) itemAB ["a"]
    (some (.obj [("a", .num 5)])) [("a", .num 5)] freshWorld rfl rfl (by decide)

/-- The run of `edit` at the example of the specification, evaluated: the one call of
`Save` has the field list `a` and the attributes `{"a": 5}`. -/
theorem edit_example_run :
    edit (editorEnv (some (.obj [("a", .num 5)]))) itemAB ["a"] freshWorld
      = (.ok (), { freshWorld with trace :=
          [.editor (some (.obj [("a", .num 1)])),
           .saveResource { itemAB with attributes := some [("a", .num 5)] } ["a"]] }) :=
  rfl

theorem wellFormed_of_mem (m : List (String × JVal)) (h : wellFormedMap m = true)
    (x : String × JVal) (hx : x ∈ m) : wellFormed x.2 = true := by
  induction m with
  | nil => simp at hx
  | cons y rest ih =>
    obtain ⟨k, v⟩ := y
    simp only [wellFormedMap, Bool.and_eq_true] at h
    rcases List.mem_cons.mp hx with heq | hmem
    · rw [heq]
      exact h.1.2
    · exact ih h.2 hmem

/-- An editor that leaves the document it was given: the run of `edit`. -/
theorem edit_same_document (env : Env) (item : Resource) (E : List String) (w : World)
    (hwf : wellFormedMap (entries item.attributes) = true)
    (hed : env.editorAnswer (marshalAnyMap (restrictAttributes E item.attributes))
      = .ok (marshalAnyMap (restrictAttributes E item.attributes))) :
    edit env item E w
      = (.error (.message "nothing changed"),
          { w with trace := w.trace ++
            [.editor (marshalAnyMap (restrictAttributes E item.attributes))] }) := by
  obtain ⟨type, id, attributes⟩ := item
  cases attributes with
  | none =>
    simp only [restrictAttributes, Option.map_none', marshalAnyMap] at hed
    simp [edit, bind_run, mapAttributes, liftExcept, ret_run, invokeEditor, emit,
      restrictAttributes, marshalAnyMap, hed, unmarshalAnyMap, fail_run]
  | some A =>
    simp only [entries] at hwf
    have hAnodup : (mapKeys A).Nodup := nodup_keys_of_wellFormedMap A hwf
    have hR : restrictAttributes E (some A)
        = some (A.filter (fun e => stringSliceContains E e.1)) := by
      simp [restrictAttributes, restrictLoop_self]
    have hRnodup : (mapKeys (A.filter (fun e => stringSliceContains E e.1))).Nodup :=
      nodup_keys_filter A _ hAnodup
    have hrun := edit_run env { type := type, id := id, attributes := some A } E _
      (A.filter (fun e => stringSliceContains E e.1)) w hed (by rw [hR]; rfl) hRnodup
    have hnil : mapKeys ((A.filter (fun e => stringSliceContains E e.1)).filter (fun x =>
        !unchanged (entries (restrictAttributes E (some A))) x.1 x.2)) = [] := by
      rw [hR]
      simp only [entries, mapKeys, List.map_eq_nil_iff, List.filter_eq_nil_iff]
      intro x hx
      have hxA : x ∈ A := (List.mem_filter.mp hx).1
      have hget : mapGet (A.filter (fun e => stringSliceContains E e.1)) x.1 = some x.2 :=
        mapGet_of_mem _ hRnodup x.1 x.2 hx
      simp [unchanged, hget, deepEqual_refl x.2 (wellFormed_of_mem A hwf x hxA)]
    rw [hrun, if_pos hnil]

/-- C7. Edit no-op guard. When the editor leaves an object, `edit` fails with
`nothing changed` after the call of the editor and no call of `Save` exactly when no
editable attribute of the resource has in the object a value that is not deeply equal to
it. And an editor that leaves the document it was given makes `edit` fail so. -/
theorem edit_nothing_changed :
    (∀ (env : Env) (item : Resource) (E : List String) (body : Option JVal)
        (P : GoMap JVal) (w : World),
      env.editorAnswer (marshalAnyMap (restrictAttributes E item.attributes)) = .ok body →
      unmarshalAnyMap body = .ok (some P) → (mapKeys P).Nodup →
      (edit env item E w
          = (.error (.message "nothing changed"),
              { w with trace := w.trace ++
                [.editor (marshalAnyMap (restrictAttributes E item.attributes))] }) ↔
        ¬ ∃ f a p, mapGet (entries item.attributes) f = some a ∧ f ∈ E ∧
            mapGet P f = some p ∧ deepEqual a p = false)) ∧
    (∀ (env : Env) (item : Resource) (E : List String) (w : World),
      wellFormedMap (entries item.attributes) = true →
      env.editorAnswer (marshalAnyMap (restrictAttributes E item.attributes))
        = .ok (marshalAnyMap (restrictAttributes E item.attributes)) →
      edit env item E w
        = (.error (.message "nothing changed"),
            { w with trace := w.trace ++
              [.editor (marshalAnyMap (restrictAttributes E item.attributes))] })) := by
  refine ⟨?_, fun env item E w hwf hed => edit_same_document env item E w hwf hed⟩
  intro env item E body P w hed hP hnodup
  have hiff := mem_changed_keys_iff E item.attributes P hnodup
  rw [edit_run env item E body P w hed hP hnodup]
  constructor
  · intro hrun hex
    obtain ⟨f, hf⟩ := hex
    have hmem := (hiff f).mpr hf
    have hne : mapKeys (P.filter (fun x =>
        !unchanged (entries (restrictAttributes E item.attributes)) x.1 x.2)) ≠ [] :=
      fun h => by rw [h] at hmem; exact List.not_mem_nil _ hmem
    rw [if_neg hne] at hrun
    have htrace := congrArg (fun r => r.2.trace) hrun
    simp at htrace
  · intro hno
    have hnil : mapKeys (P.filter (fun x =>
        !unchanged (entries (restrictAttributes E item.attributes)) x.1 x.2)) = [] := by
      apply List.eq_nil_iff_forall_not_mem.mpr
      intro f hf
      exact hno ⟨f, (hiff f).mp hf⟩
    rw [if_pos hnil]

/-- C7 at the example of the specification: attributes `{"a": 1, "b": 2}`, editable fields
`a`; an editor that leaves `{"a": 1}`, and the editor that leaves what it was given. -/
theorem edit_nothing_changed_witness :
    (edit (editorEnv (some (.obj [("a", .num 1)]))) itemAB ["a"] freshWorld
          = (.error (.message "nothing changed"),
              { freshWorld with trace := freshWorld.trace ++
                [.editor (marshalAnyMap (restrictAttributes ["a"] itemAB.attributes))] }) ↔
        ¬ ∃ f a p, mapGet (entries itemAB.attributes) f = some a ∧ f ∈ ["a"] ∧
            mapGet [("a", JVal.num 1)] f = some p ∧ deepEqual a p = false) ∧
    edit quietEnv itemAB ["a"] freshWorld
        = (.error (.message "nothing changed"),
            { freshWorld with trace := freshWorld.trace ++
              [.editor (marshalAnyMap (restrictAttributes ["a"] itemAB.attributes))] }) :=
  ⟨edit_nothing_changed.1 (editorEnv (some (.obj [("a", .num 1)]))) itemAB ["a"]
      (some (.obj [("a", .num 1)])) [("a", .num 1)] freshWorld rfl rfl (by decide),
   edit_nothing_changed.2 quietEnv itemAB ["a"] freshWorld rfl rfl⟩

/-- The run of `edit` with an editor that leaves `{"a": 1}`, evaluated: the error
`nothing changed`, and the editor is the only call made. -/
theorem edit_example_unchanged :
    edit (editorEnv (some (.obj [("a", .num 1)]))) itemAB ["a"] freshWorld
      = (.error (.message "nothing changed"),
          { freshWorld with trace := [.editor (some (.obj [("a", .num 1)]))] }) :=
  rfl

/-! ## Claims on the resolver: one item -/

/-- C11. Singleton auto-select: when the filters of the resource are resolved and the fully
paginated list that `selectResourceId` fetches has exactly one item (with an identifier),
`selectResourceId` returns the identifier of the item, for both values of `required`; the
world it leaves is the one after the fetch, so the picker is not called on the list. -/
theorem selectResourceId_singleton (env : Env) (jsopenapi : Schema) (fuel : Nat)
    (resourceName : String) (required : Bool) (w w1 w2 : World)
    (query : GoMap String) (payload : ListPayload) (item : Resource)
    (hq : buildQuery (resolveFilterId env jsopenapi fuel) env jsopenapi resourceName w
      = (.ok query, w1))
    (hb : fetchList env fuel resourceName query w1 = (.ok (some payload), w2))
    (hone : payload.data = [item]) (hid : item.id ≠ "") :
    selectResourceId env jsopenapi fuel resourceName required w = (.ok item.id, w2) ∧
      w2.fs = w.fs ∧
      ∃ evs : List Event, w2.trace = w1.trace ++ evs ∧
        ∀ e ∈ evs, e.isRequest = true ∧ e.isFind = false := by
  refine ⟨?_, fetched_world env jsopenapi fuel resourceName w w1 w2 query _ hq hb⟩
  rw [selectResourceId_eq]
  simp [selectResourceIdWith, bind_run, hq, hb, chooseFrom, getIsEmpty, getIfOnlyOne,
    unmarshalPayload, hone, liftExcept, ret_run, pure_run, hid]

/-- C11 at concrete inputs: the API has the one project `p7`; `required` true and false. -/
theorem selectResourceId_singleton_witness :
    (selectResourceId (itemsEnv [itemWithId "p7"]) projectsSchema 0 "projects" true
        freshWorld
      = (.ok "p7", { freshWorld with trace := [.listBody "projects" []] })) ∧
    (selectResourceId (itemsEnv [itemWithId "p7"]) projectsSchema 0 "projects" false
        freshWorld
      = (.ok "p7", { freshWorld with trace := [.listBody "projects" []] })) :=
  ⟨(selectResourceId_singleton (itemsEnv [itemWithId "p7"]) projectsSchema 0 "projects" true
      freshWorld freshWorld _ [] { data := [itemWithId "p7"], next := "", previous := "" }
      (itemWithId "p7") rfl rfl rfl (by decide)).1,
   (selectResourceId_singleton (itemsEnv [itemWithId "p7"]) projectsSchema 0 "projects" false
      freshWorld freshWorld _ [] { data := [itemWithId "p7"], next := "", previous := "" }
      (itemWithId "p7") rfl rfl rfl (by decide)).1⟩

/-! ## Claims on multi-select -/

/-- The loop of `fuzzyMulti` with the sentinel: chosen indices that include 0. -/
theorem collectIds_sentinel (items : List Resource) (idx : List Nat) (result : List String)
    (hrange : ∀ i ∈ idx, i < items.length + 1) (hzero : 0 ∈ idx) :
    collectIds (emptyResource :: items) true idx result = .ok [] := by
  induction idx generalizing result with
  | nil => simp at hzero
  | cons i rest ih =>
    unfold collectIds
    cases i with
    | zero => simp
    | succ k =>
      have hk : k < items.length := by
        have := hrange (k + 1) (List.mem_cons_self _ _)
        omega
      have hmem : 0 ∈ rest := by
        rcases List.mem_cons.mp hzero with h | h
        · exact absurd h (by omega)
        · exact h
      simp only [Bool.true_and, beq_iff_eq, Nat.add_one_ne_zero, if_false,
        List.getElem?_cons_succ, List.getElem?_eq_getElem hk]
      exact ih _ (fun j hj => hrange j (List.mem_cons_of_mem _ hj)) hmem

/-- The loop of `fuzzyMulti` with the sentinel: chosen indices without 0. -/
theorem collectIds_items (items : List Resource) (idx : List Nat) (result : List String)
    (hrange : ∀ i ∈ idx, i < items.length + 1) (hzero : 0 ∉ idx) :
    collectIds (emptyResource :: items) true idx result
      = .ok (result ++ idx.map (fun i => (items.getD (i - 1) emptyResource).id)) := by
  induction idx generalizing result with
  | nil => simp [collectIds]
  | cons i rest ih =>
    unfold collectIds
    cases i with
    | zero => simp at hzero
    | succ k =>
      have hk : k < items.length := by
        have := hrange (k + 1) (List.mem_cons_self _ _)
        omega
      have hnot : 0 ∉ rest := fun h => hzero (List.mem_cons_of_mem _ h)
      simp only [Bool.true_and, beq_iff_eq, Nat.add_one_ne_zero, if_false,
        List.getElem?_cons_succ, List.getElem?_eq_getElem hk]
      rw [ih _ (fun j hj => hrange j (List.mem_cons_of_mem _ hj)) hnot]
      simp [List.getD_eq_getElem?_getD, List.getElem?_eq_getElem hk]

/-- The loop of `fuzzyMulti` without the sentinel. -/
theorem collectIds_plain (items : List Resource) (idx : List Nat) (result : List String)
    (hrange : ∀ i ∈ idx, i < items.length) :
    collectIds items false idx result
      = .ok (result ++ idx.map (fun i => (items.getD i emptyResource).id)) := by
  induction idx generalizing result with
  | nil => simp [collectIds]
  | cons i rest ih =>
    unfold collectIds
    have hi : i < items.length := hrange i (List.mem_cons_self _ _)
    simp only [Bool.false_and, Bool.false_eq_true, if_false, List.getElem?_eq_getElem hi]
    rw [ih _ (fun j hj => hrange j (List.mem_cons_of_mem _ hj))]
    simp [List.getD_eq_getElem?_getD, List.getElem?_eq_getElem hi]

/-- C12. Multi-select sentinel. With `allowEmpty = true`, when the picker returns indices
that include the sentinel index 0, `fuzzyMulti` returns no selection and no error, and when
it returns indices without 0, `fuzzyMulti` returns the identifiers of `items[i-1]` for the
chosen indices `i`, in the order of the picker. With `allowEmpty = false` it returns the
identifiers of `items[i]`. The indices are indices of the entries shown. -/
theorem fuzzyMulti_result (env : Env) (payload : ListPayload) (header : String)
    (pprint : Option (Resource → String)) (idx : List Nat) (w : World) :
    (env.findMultiAnswer (itemLabels (emptyResource :: payload.data) pprint true) = .ok idx →
      (∀ i ∈ idx, i < payload.data.length + 1) →
      (0 ∈ idx →
        fuzzyMulti env (some payload) header pprint true w
          = (.ok [], { w with trace := w.trace ++
              [.findMulti (itemLabels (emptyResource :: payload.data) pprint true)] })) ∧
      (0 ∉ idx →
        fuzzyMulti env (some payload) header pprint true w
          = (.ok (idx.map (fun i => (payload.data.getD (i - 1) emptyResource).id)),
              { w with trace := w.trace ++
                [.findMulti (itemLabels (emptyResource :: payload.data) pprint true)] }))) ∧
    (env.findMultiAnswer (itemLabels payload.data pprint false) = .ok idx →
      (∀ i ∈ idx, i < payload.data.length) →
      fuzzyMulti env (some payload) header pprint false w
        = (.ok (idx.map (fun i => (payload.data.getD i emptyResource).id)),
            { w with trace := w.trace ++
              [.findMulti (itemLabels payload.data pprint false)] })) := by
  refine ⟨fun hpick hrange => ⟨fun hzero => ?_, fun hzero => ?_⟩, fun hpick hrange => ?_⟩
  · simp [fuzzyMulti, bind_run, liftExcept, unmarshalPayload, ret_run, findMulti, emit,
      hpick, collectIds_sentinel payload.data idx [] hrange hzero]
  · simp [fuzzyMulti, bind_run, liftExcept, unmarshalPayload, ret_run, findMulti, emit,
      hpick, collectIds_items payload.data idx [] hrange hzero]
  · simp [fuzzyMulti, bind_run, liftExcept, unmarshalPayload, ret_run, findMulti, emit,
      hpick, collectIds_plain payload.data idx [] hrange]

/-- C12 at concrete inputs, with the items `a`, `b`, `c`: the operator picks entries 2 and
0; entries 3 and 1; and, without the sentinel, entries 2 and 0. -/
theorem fuzzyMulti_result_witness :
    (fuzzyMulti (multiEnv [2, 0])
        (some { data := [itemWithId "a", itemWithId "b", itemWithId "c"],
                next := "", previous := "" }) "" none true freshWorld).1 = .ok [] ∧
    (fuzzyMulti (multiEnv [3, 1])
        (some { data := [itemWithId "a", itemWithId "b", itemWithId "c"],
                next := "", previous := "" }) "" none true freshWorld).1
      = .ok ["c", "a"] ∧
    (fuzzyMulti (multiEnv [2, 0])
        (some { data := [itemWithId "a", itemWithId "b", itemWithId "c"],
                next := "", previous := "" }) "" none false freshWorld).1
      = .ok ["c", "a"] :=
  ⟨congrArg Prod.fst
      (((fuzzyMulti_result (multiEnv [2, 0])
        { data := [itemWithId "a", itemWithId "b", itemWithId "c"], next := "",
          previous := "" } "" none [2, 0] freshWorld).1 rfl (by decide)).1 (by decide)),
   congrArg Prod.fst
      (((fuzzyMulti_result (multiEnv [3, 1])
        { data := [itemWithId "a", itemWithId "b", itemWithId "c"], next := "",
          previous := "" } "" none [3, 1] freshWorld).1 rfl (by decide)).2 (by decide)),
   congrArg Prod.fst
      ((fuzzyMulti_result (multiEnv [2, 0])
        { data := [itemWithId "a", itemWithId "b", itemWithId "c"], next := "",
          previous := "" } "" none [2, 0] freshWorld).2 rfl (by decide))⟩

/-! ## Claims on delete -/

/-- C14. Delete needs an explicit "y". Once the identifier is resolved and a line is read
from the operator, `cliCmdDelete` calls `Delete` on the resource exactly when the
lower-cased, white-space-trimmed line is `y` (its result is then the one of `Delete`); for
every other line it calls no `Delete` and returns no error. -/
theorem cliCmdDelete_confirmation (env : Env) (jsopenapi : Schema) (fuel : Nat)
    (resourceName name resourceId answer : String) (w w1 : World)
    (hapi : env.getApi = .ok ())
    (hid : getResourceId env jsopenapi fuel resourceName true w = (.ok resourceId, w1))
    (hname : singular resourceName = .ok name)
    (hline : env.readLineAnswer = .ok answer) :
    (trimSpace (toLower answer) = "y" →
      cliCmdDelete env jsopenapi fuel resourceName w
        = (env.deleteAnswer { type := resourceName, id := resourceId, attributes := none },
            { w1 with trace := w1.trace ++
              [.readLine,
               .deleteResource
                 { type := resourceName, id := resourceId, attributes := none }] })) ∧
    (trimSpace (toLower answer) ≠ "y" →
      cliCmdDelete env jsopenapi fuel resourceName w
        = (.ok (), { w1 with trace := w1.trace ++ [.readLine] })) ∧
    ∃ evs : List Event,
      (cliCmdDelete env jsopenapi fuel resourceName w).2.trace = w1.trace ++ evs ∧
      ((∃ e ∈ evs, e.isDelete = true) ↔ trimSpace (toLower answer) = "y") := by
  have hyes : trimSpace (toLower answer) = "y" →
      cliCmdDelete env jsopenapi fuel resourceName w
        = (env.deleteAnswer { type := resourceName, id := resourceId, attributes := none },
            { w1 with trace := w1.trace ++
              [.readLine,
               .deleteResource
                 { type := resourceName, id := resourceId, attributes := none }] }) := by
    intro hy
    simp only [cliCmdDelete, bind_run, hapi, liftExcept, ret_run, hid, hname, readLine, emit,
      hline, hy, if_true, deleteResource]
    cases env.deleteAnswer _ <;> simp [fail_run, ret_run]
  have hno : trimSpace (toLower answer) ≠ "y" →
      cliCmdDelete env jsopenapi fuel resourceName w
        = (.ok (), { w1 with trace := w1.trace ++ [.readLine] }) := by
    intro hn
    simp [cliCmdDelete, bind_run, hapi, liftExcept, ret_run, hid, hname, readLine, emit,
      hline, hn, pure_run]
  refine ⟨hyes, hno, ?_⟩
  by_cases hy : trimSpace (toLower answer) = "y"
  · refine ⟨[.readLine, .deleteResource
      { type := resourceName, id := resourceId, attributes := none }], ?_, ?_⟩
    · rw [hyes hy]
    · simp [hy, Event.isDelete]
  · refine ⟨[.readLine], ?_, ?_⟩
    · rw [hno hy]
    · simp [hy, Event.isDelete]

/-- C14 at concrete inputs, with `--id 7`: the operator types `Y`, then `yes`. -/
theorem cliCmdDelete_confirmation_witness :
    cliCmdDelete (answerEnv "Y\n") projectsSchema 0 "projects" freshWorld
      = (.ok (), { freshWorld with trace :=
          [.readLine,
           .deleteResource { type := "projects", id := "7", attributes := none }] }) ∧
    cliCmdDelete (answerEnv "yes\n") projectsSchema 0 "projects" freshWorld
      = (.ok (), { freshWorld with trace := [.readLine] }) :=
  ⟨(cliCmdDelete_confirmation (answerEnv "Y\n") projectsSchema 0 "projects" "project" "7"
      "Y\n" freshWorld freshWorld rfl rfl rfl rfl).1 (by decide),
   (cliCmdDelete_confirmation (answerEnv "yes\n") projectsSchema 0 "projects" "project" "7"
      "yes\n" freshWorld freshWorld rfl rfl rfl rfl).2.1 (by decide)⟩

/-! ## Claims on the filter flags -/

/-- The flag that `addFilterTags` declares for one filter on a command without flags:
`<filter name>-id` for a filter that is a resource, the rewritten name for another. -/
theorem filterTagsLoop_single (filterName : String) (filter : Filter) :
    (filterTagsLoop [(filterName, filter)] []).map Flag.name
      = [if filter.resource ≠ "" then filterName ++ "-id" else filterFlagName filterName] := by
  by_cases h : filter.resource = "" <;> simp [filterTagsLoop, flagExists, h]

/-- The flag that `getResourceId` reads for a filter that is a resource, when `--id` is not
set: `<singular of the resource>-id`. -/
theorem getResourceId_reads_typed_flag (env : Env) (jsopenapi : Schema) (fuel : Nat)
    (resourceName name : String) (required : Bool) (w : World)
    (hname : singular resourceName = .ok name) (hid : env.flags "id" = "")
    (htyped : env.flags (name ++ "-id") ≠ "") :
    getResourceId env jsopenapi fuel resourceName required w
      = (.ok (env.flags (name ++ "-id")), w) := by
  simp [getResourceId, getResourceIdWith, hid, hname, htyped, bind_run, liftExcept,
    ret_run, pure_run]

/-- C15, the code at the failing input. In a schema where the lists of `resources` have the
filter `source` with values in `languages`, `addFilterTags` declares the flag `source-id`;
`get resources --source-id 7` resolves the filter without that value (it reads
`language-id`, then the session, then asks the operator) and requests the list without the
filter; `--language-id 7`, a flag that is not declared, does reach the query. -/
theorem declared_filter_flag_not_read :
    (addFilterTags [] "resources" sourceSchema).map Flag.name = ["source-id"] ∧
    (cliCmdGetMany (flagEnv "source-id" "7") sourceSchema 1 "resources" freshWorld).2.trace
      = [.stat ".tx/api_explorer_data.json", .listBody "languages" [],
         .find ["<empty>"] "Select language", .listBody "resources" [], .pager] ∧
    (cliCmdGetMany (flagEnv "language-id" "7") sourceSchema 1 "resources" freshWorld).2.trace
      = [.listBody "resources" [("source", "7")], .pager] :=
  ⟨rfl, rfl, rfl⟩

/-! ## Shapes: changing the shapes with a name -/

theorem updateNamed_absent {γ : Type} (n : String) (f : Shape γ → Shape γ)
    (S : Multiset (Shape γ)) (h : n ∉ S.map Shape.name) :
    updateNamed n f S = f { name := n, flags := 0, children := 0 } ::ₘ S := by
  unfold updateNamed
  rw [if_neg h, Multiset.map_cons, if_pos rfl]
  congr 1
  conv_rhs => rw [← Multiset.map_id S]
  apply Multiset.map_congr rfl
  intro x hx
  have hne : x.name ≠ n := fun hxn => h (hxn ▸ Multiset.mem_map_of_mem Shape.name hx)
  simp [hne]

theorem updateNamed_present {γ : Type} (n : String) (f : Shape γ → Shape γ)
    (S : Multiset (Shape γ)) (h : n ∈ S.map Shape.name) :
    updateNamed n f S = S.map (fun x => if x.name = n then f x else x) := by
  unfold updateNamed
  rw [if_pos h]

theorem map_name_change {γ : Type} (n : String) (f : Shape γ → Shape γ)
    (hf : ∀ x, (f x).name = x.name) (S : Multiset (Shape γ)) :
    (S.map (fun x => if x.name = n then f x else x)).map Shape.name = S.map Shape.name := by
  rw [Multiset.map_map]
  apply Multiset.map_congr rfl
  intro x _
  by_cases h : x.name = n <;> simp [h, hf]

theorem updateNamed_names {γ : Type} (n : String) (f : Shape γ → Shape γ)
    (hf : ∀ x, (f x).name = x.name) (S : Multiset (Shape γ)) :
    (updateNamed n f S).map Shape.name
      = if n ∈ S.map Shape.name then S.map Shape.name else n ::ₘ S.map Shape.name := by
  by_cases h : n ∈ S.map Shape.name
  · rw [updateNamed_present n f S h, if_pos h, map_name_change n f hf]
  · rw [updateNamed_absent n f S h, if_neg h, Multiset.map_cons, hf]

theorem mem_names_updateNamed {γ : Type} (n : String) (f : Shape γ → Shape γ)
    (hf : ∀ x, (f x).name = x.name) (S : Multiset (Shape γ)) :
    n ∈ (updateNamed n f S).map Shape.name := by
  rw [updateNamed_names n f hf]
  by_cases h : n ∈ S.map Shape.name
  · rw [if_pos h]; exact h
  · rw [if_neg h]; exact Multiset.mem_cons_self _ _

theorem mem_names_updateNamed_iff {γ : Type} (n m : String) (f : Shape γ → Shape γ)
    (hf : ∀ x, (f x).name = x.name) (S : Multiset (Shape γ)) (hne : m ≠ n) :
    m ∈ (updateNamed n f S).map Shape.name ↔ m ∈ S.map Shape.name := by
  rw [updateNamed_names n f hf]
  by_cases h : n ∈ S.map Shape.name
  · rw [if_pos h]
  · rw [if_neg h, Multiset.mem_cons]
    constructor
    · rintro (h1 | h1)
      · exact absurd h1 hne
      · exact h1
    · exact fun h1 => Or.inr h1

/-- Two changes of the shapes with one name are one change. -/
theorem updateNamed_updateNamed {γ : Type} (n : String) (f g : Shape γ → Shape γ)
    (hg : ∀ x, (g x).name = x.name) (S : Multiset (Shape γ)) :
    updateNamed n f (updateNamed n g S) = updateNamed n (fun x => f (g x)) S := by
  rw [updateNamed_present n f _ (mem_names_updateNamed n g hg S)]
  by_cases h : n ∈ S.map Shape.name
  · rw [updateNamed_present n g S h, updateNamed_present n _ S h, Multiset.map_map]
    apply Multiset.map_congr rfl
    intro x _
    by_cases hx : x.name = n <;> simp [hx, hg]
  · rw [updateNamed_absent n g S h, updateNamed_absent n _ S h, Multiset.map_cons]
    have hgn : (g { name := n, flags := 0, children := 0 }).name = n := by rw [hg]
    rw [if_pos hgn]
    congr 1
    conv_rhs => rw [← Multiset.map_id S]
    apply Multiset.map_congr rfl
    intro x hx
    have hne : x.name ≠ n := fun hxn => h (hxn ▸ Multiset.mem_map_of_mem Shape.name hx)
    simp [hne]

/-- A shape with another name passes through a change. -/
theorem updateNamed_cons_ne {γ : Type} (n : String) (f : Shape γ → Shape γ)
    (c : Shape γ) (S : Multiset (Shape γ)) (hc : c.name ≠ n) :
    updateNamed n f (c ::ₘ S) = c ::ₘ updateNamed n f S := by
  have hiff : n ∈ (c ::ₘ S).map Shape.name ↔ n ∈ S.map Shape.name := by
    rw [Multiset.map_cons, Multiset.mem_cons]
    constructor
    · rintro (h | h)
      · exact absurd h.symm hc
      · exact h
    · exact fun h => Or.inr h
  by_cases h : n ∈ S.map Shape.name
  · rw [updateNamed_present n f _ (hiff.mpr h), updateNamed_present n f S h,
      Multiset.map_cons, if_neg hc]
  · rw [updateNamed_absent n f _ (fun h1 => h (hiff.mp h1)), updateNamed_absent n f S h,
      Multiset.cons_swap]

/-- A change of the shapes with a name depends on what it does to the shapes with that
name only. -/
theorem updateNamed_congr {γ : Type} (n : String) (f g : Shape γ → Shape γ)
    (S : Multiset (Shape γ)) (h : ∀ x, x.name = n → f x = g x) :
    updateNamed n f S = updateNamed n g S := by
  unfold updateNamed
  apply Multiset.map_congr rfl
  intro x _
  by_cases hx : x.name = n
  · simp [hx, h x hx]
  · simp [hx]

/-- Changes of the shapes with different names commute. -/
theorem updateNamed_comm {γ : Type} (n m : String) (f g : Shape γ → Shape γ)
    (hf : ∀ x, (f x).name = x.name) (hg : ∀ x, (g x).name = x.name) (hne : n ≠ m)
    (S : Multiset (Shape γ)) :
    updateNamed n f (updateNamed m g S) = updateNamed m g (updateNamed n f S) := by
  have hmap : ∀ T : Multiset (Shape γ),
      (T.map (fun x => if x.name = m then g x else x)).map
          (fun x => if x.name = n then f x else x)
        = (T.map (fun x => if x.name = n then f x else x)).map
          (fun x => if x.name = m then g x else x) := by
    intro T
    rw [Multiset.map_map, Multiset.map_map]
    apply Multiset.map_congr rfl
    intro x _
    by_cases hxn : x.name = n
    · have hxm : x.name ≠ m := fun h => hne (hxn ▸ h)
      have hfm : (f x).name ≠ m := by rw [hf]; exact hxm
      simp only [Function.comp_apply, if_pos hxn, if_neg hxm, if_neg hfm]
    · by_cases hxm : x.name = m
      · have hgn : (g x).name ≠ n := by rw [hg]; exact hxn
        simp only [Function.comp_apply, if_neg hxn, if_pos hxm, if_neg hgn]
      · simp only [Function.comp_apply, if_neg hxn, if_neg hxm]
  have hfn : (f { name := n, flags := 0, children := 0 }).name ≠ m := by
    rw [hf]; exact hne
  have hgm : (g { name := m, flags := 0, children := 0 }).name ≠ n := by
    rw [hg]; exact fun h => hne h.symm
  by_cases hn : n ∈ S.map Shape.name <;> by_cases hm : m ∈ S.map Shape.name
  · have hn' : n ∈ (updateNamed m g S).map Shape.name :=
      (mem_names_updateNamed_iff m n g hg S hne).mpr hn
    have hm' : m ∈ (updateNamed n f S).map Shape.name :=
      (mem_names_updateNamed_iff n m f hf S (fun h => hne h.symm)).mpr hm
    rw [updateNamed_present n f _ hn', updateNamed_present m g _ hm',
      updateNamed_present m g S hm, updateNamed_present n f S hn]
    exact hmap S
  · have hn' : n ∈ (updateNamed m g S).map Shape.name :=
      (mem_names_updateNamed_iff m n g hg S hne).mpr hn
    have hm' : m ∉ (updateNamed n f S).map Shape.name := fun h =>
      hm ((mem_names_updateNamed_iff n m f hf S (fun h => hne h.symm)).mp h)
    rw [updateNamed_present n f _ hn', updateNamed_absent m g _ hm',
      updateNamed_absent m g S hm, updateNamed_present n f S hn, Multiset.map_cons,
      if_neg hgm]
  · have hn' : n ∉ (updateNamed m g S).map Shape.name := fun h =>
      hn ((mem_names_updateNamed_iff m n g hg S hne).mp h)
    have hm' : m ∈ (updateNamed n f S).map Shape.name :=
      (mem_names_updateNamed_iff n m f hf S (fun h => hne h.symm)).mpr hm
    rw [updateNamed_absent n f _ hn', updateNamed_present m g _ hm',
      updateNamed_present m g S hm, updateNamed_absent n f S hn, Multiset.map_cons,
      if_neg hfn]
  · have hn' : n ∉ (updateNamed m g S).map Shape.name := fun h =>
      hn ((mem_names_updateNamed_iff m n g hg S hne).mp h)
    have hm' : m ∉ (updateNamed n f S).map Shape.name := fun h =>
      hm ((mem_names_updateNamed_iff n m f hf S (fun h => hne h.symm)).mp h)
    rw [updateNamed_absent n f _ hn', updateNamed_absent m g _ hm',
      updateNamed_absent m g S hm, updateNamed_absent n f S hn, Multiset.cons_swap]

/-! ## Shapes: the steps commute -/

theorem addChild_name {γ : Type} (c : γ) (x : Shape γ) : (addChild c x).name = x.name := rfl

/-- Two blocks for operations of resources commute. -/
theorem commute_operation_operation (v v1 : String) (a b : ResourceShape) (z : TreeShape) :
    applyStep (applyStep z (.operation v a)) (.operation v1 b)
      = applyStep (applyStep z (.operation v1 b)) (.operation v a) := by
  simp only [applyStep]
  congr 1
  by_cases hv : v = v1
  · subst hv
    rw [updateNamed_updateNamed v _ _ (addChild_name a),
      updateNamed_updateNamed v _ _ (addChild_name b)]
    apply updateNamed_congr
    intro x _
    simp only [addChild]
    rw [Multiset.cons_swap]
  · exact (updateNamed_comm v v1 _ _ (addChild_name a) (addChild_name b) hv _).symm

/-- A block for an operation of a resource and a block for an operation of a relationship
commute when they are in different verb groups or the operation is not named as the
parent. -/
theorem commute_operation_relationship (v v1 s : String) (a : ResourceShape)
    (F : Multiset FlagKey) (l : LeafShape) (h : v ≠ v1 ∨ a.name ≠ s) (z : TreeShape) :
    applyStep (applyStep z (.operation v a)) (.relationship v1 s F l)
      = applyStep (applyStep z (.relationship v1 s F l)) (.operation v a) := by
  simp only [applyStep]
  congr 1
  by_cases hv : v = v1
  · subst hv
    have hs : a.name ≠ s := by
      rcases h with h | h
      · exact absurd rfl h
      · exact h
    rw [updateNamed_updateNamed v _ _ (addChild_name a),
      updateNamed_updateNamed v _ _ (by intro _; rfl)]
    apply updateNamed_congr
    intro x _
    simp only [addChild]
    rw [updateNamed_cons_ne s _ a _ hs]
  · exact (updateNamed_comm v v1 _ _ (addChild_name a) (by intro _; rfl) hv _).symm

/-- Two blocks for operations of relationships commute when they are in different verb
groups, or have different parents, or add the same filter flags to the parent. -/
theorem commute_relationship_relationship (v v1 s s1 : String) (F F1 : Multiset FlagKey)
    (l l1 : LeafShape) (h : v ≠ v1 ∨ s ≠ s1 ∨ F = F1) (z : TreeShape) :
    applyStep (applyStep z (.relationship v s F l)) (.relationship v1 s1 F1 l1)
      = applyStep (applyStep z (.relationship v1 s1 F1 l1)) (.relationship v s F l) := by
  simp only [applyStep]
  congr 1
  by_cases hv : v = v1
  · subst hv
    rw [updateNamed_updateNamed v _ _ (by intro _; rfl),
      updateNamed_updateNamed v _ _ (by intro _; rfl)]
    apply updateNamed_congr
    intro x _
    simp only
    congr 1
    by_cases hs : s = s1
    · subst hs
      have hF : F = F1 := by
        rcases h with h | h | h
        · exact absurd rfl h
        · exact absurd rfl h
        · exact h
      subst hF
      rw [updateNamed_updateNamed s _ _ (by intro _; rfl),
        updateNamed_updateNamed s _ _ (by intro _; rfl)]
      apply updateNamed_congr
      intro p _
      simp only
      rw [Multiset.cons_swap]
    · exact (updateNamed_comm s s1 _ _ (by intro _; rfl) (by intro _; rfl) hs _).symm
  · exact (updateNamed_comm v v1 _ _ (by intro _; rfl) (by intro _; rfl) hv _).symm

/-- A step that commutes with every step of a list commutes with the list. -/
theorem commute_step_steps (a : ShapeStep) (lb : List ShapeStep)
    (h : ∀ b ∈ lb, ∀ z, applyStep (applyStep z a) b = applyStep (applyStep z b) a)
    (z : TreeShape) :
    lb.foldl applyStep (applyStep z a) = applyStep (lb.foldl applyStep z) a := by
  induction lb generalizing z with
  | nil => rfl
  | cons b rest ih =>
    simp only [List.foldl_cons]
    rw [h b (List.mem_cons_self _ _) z]
    exact ih (fun c hc => h c (List.mem_cons_of_mem _ hc)) _

/-- Two lists of steps commute when their steps do. -/
theorem commute_steps_steps (la lb : List ShapeStep)
    (h : ∀ a ∈ la, ∀ b ∈ lb, ∀ z,
      applyStep (applyStep z a) b = applyStep (applyStep z b) a)
    (z : TreeShape) :
    lb.foldl applyStep (la.foldl applyStep z) = la.foldl applyStep (lb.foldl applyStep z) := by
  induction la generalizing z with
  | nil => rfl
  | cons a rest ih =>
    simp only [List.foldl_cons]
    rw [ih (fun c hc => h c (List.mem_cons_of_mem _ hc)) (applyStep z a),
      commute_step_steps a lb (h a (List.mem_cons_self _ _)) z]

theorem mem_stepIf {α : Type} (operation : Option α) (step x : ShapeStep)
    (h : x ∈ stepIf operation step) : x = step := by
  cases operation with
  | none => simp [stepIf] at h
  | some _ => simpa [stepIf] using h

/-- The steps for a relationship of a resource are blocks for relationships, with the
singular name of the resource as parent and the filter flags of the resource. -/
theorem mem_relationshipSteps (keys : String → Multiset FlagKey) (n : String)
    (entry : String × Relationship) (x : ShapeStep)
    (h : x ∈ relationshipSteps keys n entry) :
    ∃ v l, x = .relationship v (singularName n) (keys n) l := by
  unfold relationshipSteps at h
  rcases List.mem_append.mp h with h | h
  · exact ⟨_, _, mem_stepIf _ _ _ h⟩
  · exact ⟨_, _, mem_stepIf _ _ _ h⟩

/-- The steps for a resource are blocks for operations named as the resource or with its
singular name, and blocks for relationships with its singular name as parent. -/
theorem mem_resourceSteps (keys : String → Multiset FlagKey)
    (entry : String × ResourceSchema) (x : ShapeStep) (h : x ∈ resourceSteps keys entry) :
    (∃ v a, x = .operation v a ∧ (a.name = entry.1 ∨ a.name = singularName entry.1)) ∨
      ∃ v l, x = .relationship v (singularName entry.1) (keys entry.1) l := by
  unfold resourceSteps at h
  simp only [List.mem_append, List.mem_flatMap] at h
  rcases h with ((((((h | h) | h) | h) | h) | h) | h) | ⟨r, _, h⟩
  · exact Or.inl ⟨_, _, mem_stepIf _ _ _ h, Or.inl rfl⟩
  · exact Or.inl ⟨_, _, mem_stepIf _ _ _ h, Or.inr rfl⟩
  · exact Or.inl ⟨_, _, mem_stepIf _ _ _ h, Or.inr rfl⟩
  · exact Or.inl ⟨_, _, mem_stepIf _ _ _ h, Or.inr rfl⟩
  · exact Or.inl ⟨_, _, mem_stepIf _ _ _ h, Or.inr rfl⟩
  · exact Or.inl ⟨_, _, mem_stepIf _ _ _ h, Or.inr rfl⟩
  · exact Or.inl ⟨_, _, mem_stepIf _ _ _ h, Or.inr rfl⟩
  · exact Or.inr (mem_relationshipSteps keys entry.1 r x h)

/-- The steps for two resources commute when the names of the one and the singular name of
the other do not collide. -/
theorem addResourceShape_comm (keys : String → Multiset FlagKey)
    (x y : String × ResourceSchema) (hxy : x.1 ≠ singularName y.1)
    (hyx : y.1 ≠ singularName x.1) (hss : singularName x.1 ≠ singularName y.1)
    (z : TreeShape) :
    addResourceShape keys (addResourceShape keys z x) y
      = addResourceShape keys (addResourceShape keys z y) x := by
  unfold addResourceShape
  apply commute_steps_steps
  intro a ha b hb z1
  rcases mem_resourceSteps keys x a ha with ⟨v, p, rfl, hp⟩ | ⟨v, l, rfl⟩ <;>
    rcases mem_resourceSteps keys y b hb with ⟨v1, p1, rfl, hp1⟩ | ⟨v1, l1, rfl⟩
  · exact commute_operation_operation v v1 p p1 z1
  · apply commute_operation_relationship
    right
    rcases hp with hp | hp
    · rw [hp]; exact hxy
    · rw [hp]; exact hss
  · symm
    apply commute_operation_relationship
    right
    rcases hp1 with hp1 | hp1
    · rw [hp1]; exact hyx
    · rw [hp1]; exact fun h => hss h.symm
  · apply commute_relationship_relationship
    right; left
    exact hss

/-! ## Shapes: the order of the schema -/

theorem stepIf_congr {α β : Type} (a : Option α) (b : Option β) (step : ShapeStep)
    (h : a.isSome = b.isSome) : stepIf a step = stepIf b step := by
  cases a <;> cases b <;> simp_all [stepIf]

theorem SameGetMany.isSome_eq {a b : Option GetMany} (h : SameGetMany a b) :
    a.isSome = b.isSome := by
  cases a <;> cases b <;> simp_all [SameGetMany]

theorem SameGetMany.isNone_eq {a b : Option GetMany} (h : SameGetMany a b) :
    a.isNone = b.isNone := by
  cases a <;> cases b <;> simp_all [SameGetMany]

/-- The steps for the relationships of one resource commute. -/
theorem relationshipSteps_commute (keys : String → Multiset FlagKey) (n : String)
    (relationships : GoMap Relationship) :
    ∀ x ∈ relationships.flatMap (relationshipSteps keys n),
      ∀ y ∈ relationships.flatMap (relationshipSteps keys n),
      ∀ z, applyStep (applyStep z x) y = applyStep (applyStep z y) x := by
  intro x hx y hy z
  obtain ⟨r, _, hxr⟩ := List.mem_flatMap.mp hx
  obtain ⟨r1, _, hyr⟩ := List.mem_flatMap.mp hy
  obtain ⟨v, l, rfl⟩ := mem_relationshipSteps keys n r x hxr
  obtain ⟨v1, l1, rfl⟩ := mem_relationshipSteps keys n r1 y hyr
  exact commute_relationship_relationship v v1 _ _ _ _ l l1 (Or.inr (Or.inr rfl)) z

/-- The steps for a resource lead to the same shape when its filters and its relationships
are ranged over in another order. -/
theorem addResourceShape_congr (keys : String → Multiset FlagKey) (n : String)
    (a b : ResourceSchema) (h : SameResource a b) (z : TreeShape) :
    addResourceShape keys z (n, a) = addResourceShape keys z (n, b) := by
  obtain ⟨hgm, h1, h2, h3, h4, h5, h6, hrel, _⟩ := h
  unfold addResourceShape resourceSteps
  simp only [List.foldl_append]
  rw [stepIf_congr _ _ _ hgm.isSome_eq, hgm.isNone_eq, h1, h2, h3, h4, h5, h6]
  exact List.Perm.foldl_eq' (hrel.flatMap_right _)
    (relationshipSteps_commute keys n a.relationships) _

/-- The steps for the resources lead to the same shape in every order of the resources,
when names and singular names do not collide. -/
theorem foldl_addResourceShape_perm (keys : String → Multiset FlagKey)
    (l1 l2 : List (String × ResourceSchema)) (h : l1.Perm l2)
    (hcross : ∀ a ∈ l1, ∀ b ∈ l1, a.1 ≠ singularName b.1)
    (hsingular : (l1.map (fun entry => singularName entry.1)).Nodup) (z : TreeShape) :
    l1.foldl (addResourceShape keys) z = l2.foldl (addResourceShape keys) z := by
  apply List.Perm.foldl_eq' h
  intro x hx y hy z1
  by_cases hxy : x = y
  · rw [hxy]
  · apply addResourceShape_comm keys x y (hcross x hx y hy) (hcross y hy x hx)
    intro hs
    exact hxy (List.inj_on_of_nodup_map hsingular hx hy hs)

/-- The steps for the resources lead to the same shape when, resource by resource, the
filters and the relationships are ranged over in another order. -/
theorem foldl_addResourceShape_congr (keys : String → Multiset FlagKey)
    (l1 l2 : List (String × ResourceSchema))
    (h : List.Forall₂ (fun x y => x.1 = y.1 ∧ SameResource x.2 y.2) l1 l2) (z : TreeShape) :
    l1.foldl (addResourceShape keys) z = l2.foldl (addResourceShape keys) z := by
  induction h generalizing z with
  | nil => rfl
  | cons hxy htail ih =>
    rename_i x y rest1 rest2
    obtain ⟨n, a⟩ := x
    obtain ⟨m, b⟩ := y
    obtain ⟨hn, hab⟩ := hxy
    simp only at hn hab
    subst hn
    simp only [List.foldl_cons]
    rw [addResourceShape_congr keys _ _ _ hab z]
    exact ih _

theorem forall₂_mem_right {α β : Type} {R : α → β → Prop} {l1 : List α} {l2 : List β}
    (h : List.Forall₂ R l1 l2) (y : β) (hy : y ∈ l2) : ∃ x ∈ l1, R x y := by
  induction h with
  | nil => simp at hy
  | cons hxy _ ih =>
    rcases List.mem_cons.mp hy with rfl | hy
    · exact ⟨_, List.mem_cons_self _ _, hxy⟩
    · obtain ⟨x, hx, hR⟩ := ih hy
      exact ⟨x, List.mem_cons_of_mem _ hx, hR⟩

theorem forall₂_mem_left {α β : Type} {R : α → β → Prop} {l1 : List α} {l2 : List β}
    (h : List.Forall₂ R l1 l2) (x : α) (hx : x ∈ l1) : ∃ y ∈ l2, R x y := by
  induction h with
  | nil => simp at hx
  | cons hxy _ ih =>
    rcases List.mem_cons.mp hx with rfl | hx
    · exact ⟨_, List.mem_cons_self _ _, hxy⟩
    · obtain ⟨y, hy, hR⟩ := ih hx
      exact ⟨y, List.mem_cons_of_mem _ hy, hR⟩

theorem forall₂_map_fst {V : Type} {R : V → V → Prop} {l1 l2 : GoMap V}
    (h : List.Forall₂ (fun x y => x.1 = y.1 ∧ R x.2 y.2) l1 l2) :
    l1.map Prod.fst = l2.map Prod.fst := by
  induction h with
  | nil => rfl
  | cons hxy _ ih => simp [hxy.1, ih]

/-- A name has a resource in one order of a schema exactly when it has one in the other,
and the two are the same resource up to the order of filters and relationships. -/
theorem mapGet_sameSchema (a b : Schema) (h : SameSchema a b) (hnodup : (mapKeys a).Nodup)
    (n : String) :
    (mapGet a n = none ∧ mapGet b n = none) ∨
      ∃ x y, mapGet a n = some x ∧ mapGet b n = some y ∧ SameResource x y := by
  obtain ⟨c, hperm, hforall⟩ := h
  have hkeys : mapKeys c = mapKeys b := forall₂_map_fst hforall
  have hcnodup : (mapKeys c).Nodup := (hperm.map Prod.fst).nodup_iff.mp hnodup
  have hbnodup : (mapKeys b).Nodup := hkeys ▸ hcnodup
  cases ha : mapGet a n with
  | none =>
    left
    refine ⟨rfl, ?_⟩
    apply mapGet_of_not_mem_keys
    rw [← hkeys]
    intro hmem
    exact not_mem_keys_of_mapGet_none a n ha ((hperm.map Prod.fst).mem_iff.mpr hmem)
  | some x =>
    right
    have hmem : (n, x) ∈ c := hperm.mem_iff.mp (mem_of_mapGet a n x ha)
    obtain ⟨y, hy, hn, hxy⟩ := forall₂_mem_left hforall (n, x) hmem
    obtain ⟨m, r⟩ := y
    simp only at hn hxy
    subst hn
    exact ⟨x, r, rfl, mapGet_of_mem b hbnodup n r hy, hxy⟩

/-- The filter flags of a resource are the same in every order of the schema. -/
theorem filterKeys_sameSchema (a b : Schema) (h : SameSchema a b)
    (hnodup : (mapKeys a).Nodup) (n : String) : filterKeys a n = filterKeys b n := by
  unfold filterKeys Schema.resource
  rcases mapGet_sameSchema a b h hnodup n with ⟨ha, hb⟩ | ⟨x, y, ha, hb, hxy⟩
  · rw [ha, hb]
  · rw [ha, hb]
    obtain ⟨hgm, _⟩ := hxy
    simp only
    cases hx : x.operations.getMany with
    | none =>
      cases hy : y.operations.getMany with
      | none => rfl
      | some gy => rw [hx, hy] at hgm; exact hgm.elim
    | some gx =>
      cases hy : y.operations.getMany with
      | none => rw [hx, hy] at hgm; exact hgm.elim
      | some gy =>
        rw [hx, hy] at hgm
        simp only
        exact Multiset.coe_eq_coe.mpr (hgm.2.map declaredKey)

/-! ## The command tree: finding and changing a subcommand -/

theorem findSubcommand_none {β : Type} (xs : List (Command β)) (n : String)
    (h : findSubcommand xs n = none) : n ∉ xs.map (fun c => c.name) := by
  induction xs with
  | nil => simp
  | cons c rest ih =>
    unfold findSubcommand at h
    by_cases hc : c.name = n
    · rw [if_pos hc] at h; exact absurd h (by simp)
    · rw [if_neg hc] at h
      simp only [List.map_cons, List.mem_cons, not_or]
      exact ⟨fun h1 => hc h1.symm, ih h⟩

theorem findSubcommand_some {β : Type} (xs : List (Command β)) (n : String)
    (c : Command β) (h : findSubcommand xs n = some c) : n ∈ xs.map (fun c => c.name) := by
  induction xs with
  | nil => simp [findSubcommand] at h
  | cons d rest ih =>
    unfold findSubcommand at h
    by_cases hd : d.name = n
    · simp [hd]
    · rw [if_neg hd] at h
      exact List.mem_cons_of_mem _ (ih h)

/-- The names after a change through the pointer are the names before, when the change
keeps the name. -/
theorem changeSubcommand_names {β : Type} (xs : List (Command β)) (n : String)
    (change : Command β → Command β)
    (hname : ∀ c ∈ xs, c.name = n → (change c).name = n) :
    (changeSubcommand xs n change).map (fun c => c.name) = xs.map (fun c => c.name) := by
  induction xs with
  | nil => rfl
  | cons c rest ih =>
    unfold changeSubcommand
    by_cases hc : c.name = n
    · rw [if_pos hc, List.map_cons, List.map_cons, hname c (List.mem_cons_self _ _) hc, hc]
    · rw [if_neg hc, List.map_cons, List.map_cons,
        ih (fun d hd => hname d (List.mem_cons_of_mem _ hd))]

/-- The names after the pattern find-or-make: the name is added when it was not there. -/
theorem withSubcommand_names {β : Type} (xs : List (Command β)) (n : String)
    (change : Command β → Command β)
    (hname : ∀ c, c ∈ xs ∨ c = { name := n } → c.name = n → (change c).name = n) :
    (withSubcommand xs n change).map (fun c => c.name)
      = if n ∈ xs.map (fun c => c.name) then xs.map (fun c => c.name)
        else xs.map (fun c => c.name) ++ [n] := by
  unfold withSubcommand
  cases h : findSubcommand xs n with
  | none =>
    simp only
    rw [if_neg (findSubcommand_none xs n h), List.map_append, List.map_singleton,
      hname _ (Or.inr rfl) rfl]
  | some c =>
    simp only
    rw [if_pos (findSubcommand_some xs n c h),
      changeSubcommand_names xs n change (fun d hd => hname d (Or.inl hd))]

theorem withSubcommand_names_nodup {β : Type} (xs : List (Command β)) (n : String)
    (change : Command β → Command β)
    (hname : ∀ c, c ∈ xs ∨ c = { name := n } → c.name = n → (change c).name = n)
    (hnodup : (xs.map (fun c => c.name)).Nodup) :
    ((withSubcommand xs n change).map (fun c => c.name)).Nodup := by
  rw [withSubcommand_names xs n change hname]
  by_cases h : n ∈ xs.map (fun c => c.name)
  · rw [if_pos h]; exact hnodup
  · rw [if_neg h]
    exact List.nodup_append.mpr ⟨hnodup, List.nodup_singleton n, by
      intro a ha hb
      rw [List.mem_singleton] at hb
      exact h (hb ▸ ha)⟩

theorem mem_changeSubcommand {β : Type} (xs : List (Command β)) (n : String)
    (change : Command β → Command β) (y : Command β)
    (h : y ∈ changeSubcommand xs n change) :
    y ∈ xs ∨ ∃ c ∈ xs, c.name = n ∧ y = change c := by
  induction xs with
  | nil => simp [changeSubcommand] at h
  | cons c rest ih =>
    unfold changeSubcommand at h
    by_cases hc : c.name = n
    · rw [if_pos hc] at h
      rcases List.mem_cons.mp h with h | h
      · exact Or.inr ⟨c, List.mem_cons_self _ _, hc, h⟩
      · exact Or.inl (List.mem_cons_of_mem _ h)
    · rw [if_neg hc] at h
      rcases List.mem_cons.mp h with h | h
      · exact Or.inl (h ▸ List.mem_cons_self _ _)
      · rcases ih h with h1 | ⟨d, hd, hdn, hy⟩
        · exact Or.inl (List.mem_cons_of_mem _ h1)
        · exact Or.inr ⟨d, List.mem_cons_of_mem _ hd, hdn, hy⟩

/-- A subcommand after the pattern find-or-make was there before, or is the change of the
one with the name or of a new one. -/
theorem mem_withSubcommand {β : Type} (xs : List (Command β)) (n : String)
    (change : Command β → Command β) (y : Command β)
    (h : y ∈ withSubcommand xs n change) :
    y ∈ xs ∨ ∃ c, (c ∈ xs ∨ c = { name := n }) ∧ c.name = n ∧ y = change c := by
  unfold withSubcommand at h
  cases hf : findSubcommand xs n with
  | none =>
    rw [hf] at h
    simp only [List.mem_append, List.mem_singleton] at h
    rcases h with h | h
    · exact Or.inl h
    · exact Or.inr ⟨_, Or.inr rfl, rfl, h⟩
  | some c =>
    rw [hf] at h
    rcases mem_changeSubcommand xs n change y h with h | ⟨d, hd, hdn, hy⟩
    · exact Or.inl h
    · exact Or.inr ⟨d, Or.inl hd, hdn, hy⟩

/-- The shapes after a change through the pointer: the shape with the name is changed. -/
theorem changeSubcommand_shape {β γ : Type} (cs : β → γ) (xs : List (Command β))
    (n : String) (change : Command β → Command β) (f : Shape γ → Shape γ)
    (hnodup : (xs.map (fun c => c.name)).Nodup)
    (h : ∀ c ∈ xs, c.name = n → (change c).shape cs = f (c.shape cs)) :
    (changeSubcommand xs n change).map (Command.shape cs)
      = (xs.map (Command.shape cs)).map (fun s => if s.name = n then f s else s) := by
  induction xs with
  | nil => rfl
  | cons c rest ih =>
    rw [List.map_cons, List.nodup_cons] at hnodup
    unfold changeSubcommand
    by_cases hc : c.name = n
    · have hcs : (c.shape cs).name = n := hc
      rw [if_pos hc, List.map_cons, List.map_cons, List.map_cons, if_pos hcs,
        h c (List.mem_cons_self _ _) hc, List.map_map]
      congr 1
      apply List.map_congr_left
      intro d hd
      have hdn : ¬ (d.shape cs).name = n := by
        intro hdn
        apply hnodup.1
        rw [hc, ← hdn]
        exact List.mem_map_of_mem (fun c => c.name) hd
      simp only [Function.comp_apply, if_neg hdn]
    · have hcs : ¬ (c.shape cs).name = n := hc
      rw [if_neg hc, List.map_cons, List.map_cons, List.map_cons, if_neg hcs,
        ih hnodup.2 (fun d hd => h d (List.mem_cons_of_mem _ hd))]

/-- The shapes after the pattern find-or-make, for subcommands with pairwise different
names. -/
theorem withSubcommand_shape {β γ : Type} (cs : β → γ) (xs : List (Command β))
    (n : String) (change : Command β → Command β) (f : Shape γ → Shape γ)
    (hnodup : (xs.map (fun c => c.name)).Nodup)
    (h : ∀ c, c ∈ xs ∨ c = { name := n } → c.name = n →
      (change c).shape cs = f (c.shape cs)) :
    (↑((withSubcommand xs n change).map (Command.shape cs)) : Multiset (Shape γ))
      = updateNamed n f ↑(xs.map (Command.shape cs)) := by
  have hnames : (↑(xs.map (Command.shape cs)) : Multiset (Shape γ)).map Shape.name
      = ↑(xs.map (fun c => c.name)) := by
    rw [Multiset.map_coe, List.map_map]
    rfl
  unfold withSubcommand
  cases hf : findSubcommand xs n with
  | none =>
    have hn : n ∉ (↑(xs.map (Command.shape cs)) : Multiset (Shape γ)).map Shape.name := by
      rw [hnames, Multiset.mem_coe]
      exact findSubcommand_none xs n hf
    simp only
    rw [updateNamed_absent n f _ hn, List.map_append, List.map_singleton,
      h _ (Or.inr rfl) rfl, Multiset.cons_coe]
    exact Multiset.coe_eq_coe.mpr (List.perm_append_singleton _ _)
  | some c =>
    have hn : n ∈ (↑(xs.map (Command.shape cs)) : Multiset (Shape γ)).map Shape.name := by
      rw [hnames, Multiset.mem_coe]
      exact findSubcommand_some xs n c hf
    simp only
    rw [updateNamed_present n f _ hn,
      changeSubcommand_shape cs xs n change f hnodup (fun d hd => h d (Or.inl hd)),
      Multiset.map_coe]

/-! ## The command tree: the filter flags -/

theorem flagExists_iff (flags : List Flag) (name : String) :
    flagExists flags name = true
      ↔ name ∈ flags.map (fun flag => lookupName flag.name) := by
  induction flags with
  | nil => simp [flagExists]
  | cons flag rest ih =>
    unfold flagExists
    by_cases h : stringSliceContains flag.names name = true
    · rw [if_pos h]
      have h1 := (stringSliceContains_iff _ _).mp h
      simp only [Flag.names, List.mem_singleton] at h1
      simp [h1]
    · rw [if_neg h, ih]
      have h1 : ¬ name = lookupName flag.name := by
        intro h2
        apply h
        apply (stringSliceContains_iff _ _).mpr
        simp [Flag.names, h2]
      simp [h1]

theorem flagKeys_names (flags : List Flag) :
    (flagKeys flags).map (fun key => lookupName key.1)
      = ↑(flags.map (fun flag => lookupName flag.name)) := by
  unfold flagKeys
  rw [Multiset.map_coe, List.map_map]
  rfl

theorem flagKeys_append_singleton (flags : List Flag) (flag : Flag) :
    flagKeys (flags ++ [flag]) = (flag.name, flag.required) ::ₘ flagKeys flags := by
  unfold flagKeys
  rw [List.map_append, List.map_singleton, Multiset.cons_coe]
  exact Multiset.coe_eq_coe.mpr (List.perm_append_singleton _ _)

theorem addFilterKeys_zero (flags : Multiset FlagKey) : addFilterKeys 0 flags = flags := by
  simp [addFilterKeys]

/-- A filter whose flag the command knows already adds no flag. -/
theorem addFilterKeys_cons_mem (key : FlagKey) (keys flags : Multiset FlagKey)
    (h : key.1 ∈ flags.map (fun flag => lookupName flag.1)) :
    addFilterKeys (key ::ₘ keys) flags = addFilterKeys keys flags := by
  unfold addFilterKeys
  simp only [Multiset.filter_cons, h, not_true_eq_false, if_false, zero_add]

/-- A filter whose flag the command does not know adds its flag, and the flags of the other
filters are added as before when the command does not know them under the name of the new
flag. -/
theorem addFilterKeys_cons_not_mem (key : FlagKey) (keys flags : Multiset FlagKey)
    (h : key.1 ∉ flags.map (fun flag => lookupName flag.1))
    (hkeys : ∀ x ∈ keys, x.1 ≠ lookupName key.1) :
    addFilterKeys (key ::ₘ keys) flags = addFilterKeys keys (key ::ₘ flags) := by
  unfold addFilterKeys
  simp only [Multiset.filter_cons, h, not_false_eq_true, if_true]
  rw [Multiset.singleton_add, Multiset.add_cons, Multiset.cons_add]
  congr 2
  apply Multiset.filter_congr
  intro x hx
  simp [hkeys x hx]

/-- The flags that the loop of `addFilterTags` leaves, for filters whose flags do not
collide. -/
theorem filterTagsLoop_keys (filters : List (String × Filter)) (flags : List Flag)
    (h : (filters.map (fun filter => (declaredKey filter).1)).Pairwise NamesApart) :
    flagKeys (filterTagsLoop filters flags)
      = addFilterKeys ↑(filters.map declaredKey) (flagKeys flags) := by
  induction filters generalizing flags with
  | nil => simp [filterTagsLoop, addFilterKeys]
  | cons entry rest ih =>
    obtain ⟨filterName, filter⟩ := entry
    rw [List.map_cons, List.pairwise_cons] at h
    have hrest : ∀ x ∈ (↑(rest.map declaredKey) : Multiset FlagKey),
        x.1 ≠ lookupName (declaredKey (filterName, filter)).1 := by
      intro x hx
      rw [Multiset.mem_coe] at hx
      obtain ⟨y, hy, rfl⟩ := List.mem_map.mp hx
      exact (h.1 _ (List.mem_map_of_mem (fun filter => (declaredKey filter).1) hy)).2
    rw [List.map_cons, ← Multiset.cons_coe]
    unfold filterTagsLoop
    by_cases hr : filter.resource ≠ ""
    · have hkey : declaredKey (filterName, filter) = (filterName ++ "-id", false) := by
        simp only [declaredKey, if_pos hr]
      rw [hkey] at hrest ⊢
      simp only [if_pos hr]
      by_cases he : flagExists flags (filterName ++ "-id") = true
      · have hmem : (filterName ++ "-id", false).1
            ∈ (flagKeys flags).map (fun flag => lookupName flag.1) := by
          rw [flagKeys_names, Multiset.mem_coe]
          exact (flagExists_iff _ _).mp he
        simp only [he, Bool.not_true, Bool.false_eq_true, if_false]
        rw [addFilterKeys_cons_mem _ _ _ hmem]
        exact ih flags h.2
      · have hmem : (filterName ++ "-id", false).1
            ∉ (flagKeys flags).map (fun flag => lookupName flag.1) := by
          rw [flagKeys_names, Multiset.mem_coe]
          exact fun h1 => he ((flagExists_iff _ _).mpr h1)
        simp only [Bool.not_eq_true] at he
        simp only [he, Bool.not_false, if_true]
        rw [addFilterKeys_cons_not_mem _ _ _ hmem hrest, ih _ h.2,
          flagKeys_append_singleton]
    · have hkey : declaredKey (filterName, filter)
          = (filterFlagName filterName, filter.required) := by
        simp only [declaredKey, if_neg hr]
      rw [hkey] at hrest ⊢
      simp only [if_neg hr]
      by_cases he : flagExists flags (filterFlagName filterName) = true
      · have hmem : (filterFlagName filterName, filter.required).1
            ∈ (flagKeys flags).map (fun flag => lookupName flag.1) := by
          rw [flagKeys_names, Multiset.mem_coe]
          exact (flagExists_iff _ _).mp he
        simp only [he, Bool.not_true, Bool.false_eq_true, if_false]
        rw [addFilterKeys_cons_mem _ _ _ hmem]
        exact ih flags h.2
      · have hmem : (filterFlagName filterName, filter.required).1
            ∉ (flagKeys flags).map (fun flag => lookupName flag.1) := by
          rw [flagKeys_names, Multiset.mem_coe]
          exact fun h1 => he ((flagExists_iff _ _).mpr h1)
        simp only [Bool.not_eq_true] at he
        simp only [he, Bool.not_false, if_true]
        rw [addFilterKeys_cons_not_mem _ _ _ hmem hrest, ih _ h.2,
          flagKeys_append_singleton]

theorem resource_getMany_mem (jsopenapi : Schema) (n : String) (getMany : GetMany)
    (h : (jsopenapi.resource n).operations.getMany = some getMany) :
    ∃ entry ∈ jsopenapi, entry.2.operations.getMany = some getMany := by
  unfold Schema.resource at h
  cases hg : mapGet jsopenapi n with
  | none => rw [hg] at h; simp at h
  | some r =>
    rw [hg] at h
    exact ⟨(n, r), mem_of_mapGet jsopenapi n r hg, h⟩

/-- The flags that `addFilterTags` leaves on a command. -/
theorem addFilterTags_keys (jsopenapi : Schema) (h : FiltersApart jsopenapi)
    (flags : List Flag) (n : String) :
    flagKeys (addFilterTags flags n jsopenapi)
      = addFilterKeys (filterKeys jsopenapi n) (flagKeys flags) := by
  unfold addFilterTags filterKeys
  cases hg : (jsopenapi.resource n).operations.getMany with
  | none => simp only; rw [addFilterKeys_zero]
  | some getMany =>
    obtain ⟨entry, hentry, hmany⟩ := resource_getMany_mem jsopenapi n getMany hg
    simp only
    exact filterTagsLoop_keys getMany.filters flags (h entry hentry getMany hmany)

/-! ## The command tree: the blocks of `Cmd` and their steps on the shape -/

theorem ChildrenIn.mono {U V : List String} {t : RootCommand} (h : ChildrenIn U t)
    (hsub : ∀ n ∈ U, n ∈ V) : ChildrenIn V t :=
  ⟨h.1, fun verb hv hn =>
    ⟨(h.2 verb hv hn).1, fun name hname => hsub name ((h.2 verb hv hn).2 name hname)⟩⟩

/-- On the shape, the block for an operation of a resource is its step. -/
theorem addOperation_shape (t : RootCommand) (v : String) (op : ResourceCommand)
    (hnodup : (t.subcommands.map (fun verb => verb.name)).Nodup) :
    treeShape (addOperation t v op)
      = applyStep (treeShape t) (.operation v (resourceShape op)) := by
  have key := withSubcommand_shape resourceShape t.subcommands v
    (fun subcommand => { subcommand with subcommands := subcommand.subcommands ++ [op] })
    (addChild (resourceShape op)) hnodup (by
      intro c _ _
      show ({ name := c.name, flags := flagKeys c.flags,
              children := ↑((c.subcommands ++ [op]).map resourceShape) } : VerbShape)
        = { name := c.name, flags := flagKeys c.flags,
            children := resourceShape op ::ₘ ↑(c.subcommands.map resourceShape) }
      rw [List.map_append, List.map_singleton, Multiset.cons_coe,
        Multiset.coe_eq_coe.mpr (List.perm_append_singleton _ _)])
  exact congrArg (fun children =>
    ({ name := t.name, flags := flagKeys t.flags, children := children } : TreeShape)) key

/-- On the shape, the block for an operation of a relationship is its step. -/
theorem addRelationshipOperation_shape (jsopenapi : Schema) (hf : FiltersApart jsopenapi)
    (t : RootCommand) (v p R : String) (leaf : LeafCommand)
    (hnodup : (t.subcommands.map (fun verb => verb.name)).Nodup)
    (hchildren : ∀ verb ∈ t.subcommands, verb.name = v →
      (verb.subcommands.map (fun command => command.name)).Nodup) :
    treeShape (addRelationshipOperation t v p R jsopenapi leaf)
      = applyStep (treeShape t)
          (.relationship v p (filterKeys jsopenapi R) (leafShape leaf)) := by
  have key := withSubcommand_shape resourceShape t.subcommands v
    (fun subcommand =>
      { subcommand with subcommands := (withSubcommand subcommand.subcommands p
          (fun parent =>
            { parent with
              flags := addFilterTags parent.flags R jsopenapi,
              subcommands := parent.subcommands ++ [leaf] })) })
    (fun subcommand =>
      { subcommand with children := (updateNamed p
          (fun parent =>
            { parent with
              flags := addFilterKeys (filterKeys jsopenapi R) parent.flags,
              children := leafShape leaf ::ₘ parent.children })
          subcommand.children) })
    hnodup (by
      intro c hc hcn
      have hcnodup : (c.subcommands.map (fun command => command.name)).Nodup := by
        rcases hc with hc | rfl
        · exact hchildren c hc hcn
        · exact List.nodup_nil
      have inner := withSubcommand_shape leafShape c.subcommands p
        (fun parent =>
          { parent with
            flags := addFilterTags parent.flags R jsopenapi,
            subcommands := parent.subcommands ++ [leaf] })
        (fun parent =>
          { parent with
            flags := addFilterKeys (filterKeys jsopenapi R) parent.flags,
            children := leafShape leaf ::ₘ parent.children })
        hcnodup (by
          intro d _ _
          show ({ name := d.name, flags := flagKeys (addFilterTags d.flags R jsopenapi),
                  children := ↑((d.subcommands ++ [leaf]).map leafShape) } : ResourceShape)
            = { name := d.name,
                flags := addFilterKeys (filterKeys jsopenapi R) (flagKeys d.flags),
                children := leafShape leaf ::ₘ ↑(d.subcommands.map leafShape) }
          rw [addFilterTags_keys jsopenapi hf, List.map_append, List.map_singleton,
            Multiset.cons_coe, Multiset.coe_eq_coe.mpr (List.perm_append_singleton _ _)])
      exact congrArg (fun children =>
        ({ name := c.name, flags := flagKeys c.flags, children := children } : VerbShape))
        inner)
  exact congrArg (fun children =>
    ({ name := t.name, flags := flagKeys t.flags, children := children } : TreeShape)) key

/-- The block for an operation of a resource keeps the names of the commands pairwise
different, when the name of the operation is new in the verb groups `get` and `change`. -/
theorem addOperation_childrenIn (U V : List String) (t : RootCommand) (v : String)
    (op : ResourceCommand) (h : ChildrenIn U t) (hsub : ∀ n ∈ U, n ∈ V)
    (hfresh : v = "get" ∨ v = "change" → op.name ∉ U ∧ op.name ∈ V) :
    ChildrenIn V (addOperation t v op) := by
  constructor
  · exact withSubcommand_names_nodup _ _ _ (fun c _ hc => hc) h.1
  · intro verb hverb hname
    rcases mem_withSubcommand _ _ _ verb hverb with hold | ⟨c, hc, hcn, rfl⟩
    · exact (h.mono hsub).2 verb hold hname
    · have hcname : c.name = "get" ∨ c.name = "change" := hname
      have hv : v = "get" ∨ v = "change" := by rw [← hcn]; exact hcname
      obtain ⟨hnot, hin⟩ := hfresh hv
      have hold : (c.subcommands.map (fun command => command.name)).Nodup ∧
          ∀ name ∈ c.subcommands.map (fun command => command.name), name ∈ U := by
        rcases hc with hc | rfl
        · exact h.2 c hc hcname
        · exact ⟨List.nodup_nil, by intro name hmem; simp at hmem⟩
      show ((c.subcommands ++ [op]).map (fun command => command.name)).Nodup ∧
        ∀ name ∈ (c.subcommands ++ [op]).map (fun command => command.name), name ∈ V
      rw [List.map_append, List.map_singleton]
      refine ⟨List.nodup_append.mpr ⟨hold.1, List.nodup_singleton _, ?_⟩, ?_⟩
      · intro a ha hb
        rw [List.mem_singleton] at hb
        exact hnot (hb ▸ hold.2 a ha)
      · intro name hmem
        rcases List.mem_append.mp hmem with hm | hm
        · exact hsub _ (hold.2 name hm)
        · rw [List.mem_singleton] at hm
          rw [hm]
          exact hin

/-- The block for an operation of a relationship keeps the names of the commands pairwise
different. -/
theorem addRelationshipOperation_childrenIn (U : List String) (t : RootCommand)
    (v p R : String) (jsopenapi : Schema) (leaf : LeafCommand) (h : ChildrenIn U t)
    (hp : p ∈ U) : ChildrenIn U (addRelationshipOperation t v p R jsopenapi leaf) := by
  constructor
  · exact withSubcommand_names_nodup _ _ _ (fun c _ hc => hc) h.1
  · intro verb hverb hname
    rcases mem_withSubcommand _ _ _ verb hverb with hold | ⟨c, hc, hcn, rfl⟩
    · exact h.2 verb hold hname
    · have hcname : c.name = "get" ∨ c.name = "change" := hname
      have hold : (c.subcommands.map (fun command => command.name)).Nodup ∧
          ∀ name ∈ c.subcommands.map (fun command => command.name), name ∈ U := by
        rcases hc with hc | rfl
        · exact h.2 c hc hcname
        · exact ⟨List.nodup_nil, by intro name hmem; simp at hmem⟩
      show ((withSubcommand c.subcommands p
          (fun parent =>
            { parent with
              flags := addFilterTags parent.flags R jsopenapi,
              subcommands := parent.subcommands ++ [leaf] })).map
            (fun command => command.name)).Nodup ∧
        ∀ name ∈ (withSubcommand c.subcommands p
          (fun parent =>
            { parent with
              flags := addFilterTags parent.flags R jsopenapi,
              subcommands := parent.subcommands ++ [leaf] })).map
            (fun command => command.name), name ∈ U
      refine ⟨withSubcommand_names_nodup _ _ _ (fun d _ hd => hd) hold.1, ?_⟩
      rw [withSubcommand_names _ _ _ (by intro d _ hd; exact hd)]
      intro name hmem
      by_cases hpmem : p ∈ c.subcommands.map (fun command => command.name)
      · rw [if_pos hpmem] at hmem
        exact hold.2 name hmem
      · rw [if_neg hpmem] at hmem
        rcases List.mem_append.mp hmem with hm | hm
        · exact hold.2 name hm
        · rw [List.mem_singleton] at hm
          rw [hm]
          exact hp

theorem simulates_nil (U V : List String) (t : RootCommand) (h : ChildrenIn U t)
    (hsub : ∀ n ∈ U, n ∈ V) : Simulates V t (.ok t) [] :=
  ⟨t, rfl, h.mono hsub, rfl⟩

theorem simulates_operation (U V : List String) (t : RootCommand) (v : String)
    (op : ResourceCommand) (shape : ResourceShape) (hshape : resourceShape op = shape)
    (h : ChildrenIn U t) (hsub : ∀ n ∈ U, n ∈ V)
    (hfresh : v = "get" ∨ v = "change" → op.name ∉ U ∧ op.name ∈ V) :
    Simulates V t (.ok (addOperation t v op)) [.operation v shape] :=
  ⟨_, rfl, addOperation_childrenIn U V t v op h hsub hfresh,
    hshape ▸ addOperation_shape t v op h.1⟩

theorem simulates_relationship (jsopenapi : Schema) (hf : FiltersApart jsopenapi)
    (U : List String) (t : RootCommand) (v p R : String) (leaf : LeafCommand)
    (shape : LeafShape) (hshape : leafShape leaf = shape) (h : ChildrenIn U t)
    (hv : v = "get" ∨ v = "change") (hp : p ∈ U) :
    Simulates U t (.ok (addRelationshipOperation t v p R jsopenapi leaf))
      [.relationship v p (filterKeys jsopenapi R) shape] :=
  ⟨_, rfl, addRelationshipOperation_childrenIn U t v p R jsopenapi leaf h hp,
    hshape ▸ addRelationshipOperation_shape jsopenapi hf t v p R leaf h.1
      (fun verb hverb hname => (h.2 verb hverb (hname ▸ hv)).1)⟩

theorem singular_eq_singularName (n : String) (h : n ≠ "") : singular n = .ok (singularName n) := by
  unfold singular singularName
  rw [if_neg h]

theorem simulates_singular (U V : List String) (t : RootCommand) (v n : String)
    (op : String → ResourceCommand) (shape : ResourceShape)
    (hshape : resourceShape (op (singularName n)) = shape) (hn : n ≠ "")
    (h : ChildrenIn U t) (hsub : ∀ n ∈ U, n ∈ V)
    (hfresh : v = "get" ∨ v = "change" →
      (op (singularName n)).name ∉ U ∧ (op (singularName n)).name ∈ V) :
    Simulates V t (addSingularOperation t v n op) [.operation v shape] := by
  unfold addSingularOperation
  rw [singular_eq_singularName n hn]
  exact simulates_operation U V t v _ shape hshape h hsub hfresh

theorem getManyBlock_simulates (jsopenapi : Schema) (hf : FiltersApart jsopenapi)
    (U : List String) (t : RootCommand) (n : String) (r : ResourceSchema)
    (h : ChildrenIn U t) (hn : n ∉ U) :
    Simulates (n :: U) t (getManyBlock jsopenapi t n r)
      (stepIf r.operations.getMany
        (.operation "get"
          { name := n, flags := addFilterKeys (filterKeys jsopenapi n) 0, children := 0 })) := by
  unfold getManyBlock
  cases r.operations.getMany with
  | none => exact simulates_nil U _ t h (fun a ha => List.mem_cons_of_mem _ ha)
  | some getMany =>
    refine simulates_operation U _ t "get" _ _ ?_ h
      (fun a ha => List.mem_cons_of_mem _ ha) (fun _ => ⟨hn, List.mem_cons_self _ _⟩)
    show ({ name := n, flags := flagKeys (addFilterTags [] n jsopenapi),
            children := 0 } : ResourceShape) = _
    rw [addFilterTags_keys jsopenapi hf]
    rfl

theorem getOneBlock_simulates (jsopenapi : Schema) (hf : FiltersApart jsopenapi)
    (U : List String) (t : RootCommand) (n : String) (r : ResourceSchema)
    (h : ChildrenIn U t) (hne : n ≠ "") (hn : singularName n ∉ U) :
    Simulates (singularName n :: U) t (getOneBlock jsopenapi t n r)
      (stepIf r.operations.getOne
        (.operation "get"
          { name := singularName n,
            flags := (addFilterKeys (filterKeys jsopenapi n)
              {("id", r.operations.getMany.isNone)}),
            children := 0 })) := by
  unfold getOneBlock
  cases r.operations.getOne with
  | none => exact simulates_nil U _ t h (fun a ha => List.mem_cons_of_mem _ ha)
  | some getOne =>
    refine simulates_singular U _ t "get" n _ _ ?_ hne h
      (fun a ha => List.mem_cons_of_mem _ ha) (fun _ => ⟨hn, List.mem_cons_self _ _⟩)
    show ({ name := singularName n,
            flags := flagKeys (addFilterTags
              [{ name := "id", required := r.operations.getMany.isNone }] n jsopenapi),
            children := 0 } : ResourceShape) = _
    rw [addFilterTags_keys jsopenapi hf]
    rfl

theorem not_get_or_change (v : String) (h1 : v ≠ "get") (h2 : v ≠ "change") (P : Prop) :
    v = "get" ∨ v = "change" → P := by
  rintro (h | h)
  · exact absurd h h1
  · exact absurd h h2

theorem editOneBlock_simulates (jsopenapi : Schema) (hf : FiltersApart jsopenapi)
    (U : List String) (t : RootCommand) (n : String) (r : ResourceSchema)
    (h : ChildrenIn U t) (hne : n ≠ "") :
    Simulates U t (editOneBlock jsopenapi t n r)
      (stepIf r.operations.editOne
        (.operation "edit"
          { name := singularName n,
            flags := (addFilterKeys (filterKeys jsopenapi n)
              {("id", r.operations.getMany.isNone)}),
            children := 0 })) := by
  unfold editOneBlock
  cases r.operations.editOne with
  | none => exact simulates_nil U _ t h (fun _ ha => ha)
  | some editOne =>
    refine simulates_singular U _ t "edit" n _ _ ?_ hne h (fun _ ha => ha)
      (not_get_or_change _ (by decide) (by decide) _)
    show ({ name := singularName n,
            flags := flagKeys (addFilterTags
              [{ name := "id", required := r.operations.getMany.isNone }] n jsopenapi),
            children := 0 } : ResourceShape) = _
    rw [addFilterTags_keys jsopenapi hf]
    rfl

theorem createOneBlock_simulates (U : List String) (t : RootCommand) (n : String)
    (r : ResourceSchema) (h : ChildrenIn U t) (hne : n ≠ "") :
    Simulates U t (createOneBlock t n r)
      (stepIf r.operations.createOne
        (.operation "create" { name := singularName n, flags := 0, children := 0 })) := by
  unfold createOneBlock
  cases r.operations.createOne with
  | none => exact simulates_nil U _ t h (fun _ ha => ha)
  | some createOne =>
    exact simulates_singular U _ t "create" n _ _ rfl hne h (fun _ ha => ha)
      (not_get_or_change _ (by decide) (by decide) _)

theorem deleteBlock_simulates (U : List String) (t : RootCommand) (n : String)
    (r : ResourceSchema) (h : ChildrenIn U t) (hne : n ≠ "") :
    Simulates U t (deleteBlock t n r)
      (stepIf r.operations.delete
        (.operation "delete"
          { name := singularName n, flags := {("id", false)}, children := 0 })) := by
  unfold deleteBlock
  cases r.operations.delete with
  | none => exact simulates_nil U _ t h (fun _ ha => ha)
  | some delete =>
    exact simulates_singular U _ t "delete" n _ _ rfl hne h (fun _ ha => ha)
      (not_get_or_change _ (by decide) (by decide) _)

theorem selectBlock_simulates (U : List String) (t : RootCommand) (n : String)
    (r : ResourceSchema) (h : ChildrenIn U t) (hne : n ≠ "") :
    Simulates U t (selectBlock t n r)
      (stepIf r.operations.select
        (.operation "select" { name := singularName n, flags := 0, children := 0 })) := by
  unfold selectBlock
  cases r.operations.select with
  | none => exact simulates_nil U _ t h (fun _ ha => ha)
  | some select =>
    exact simulates_singular U _ t "select" n _ _ rfl hne h (fun _ ha => ha)
      (not_get_or_change _ (by decide) (by decide) _)

theorem clearBlock_simulates (U : List String) (t : RootCommand) (n : String)
    (r : ResourceSchema) (h : ChildrenIn U t) (hne : n ≠ "") :
    Simulates U t (clearBlock t n r)
      (stepIf r.operations.clear
        (.operation "clear" { name := singularName n, flags := 0, children := 0 })) := by
  unfold clearBlock
  cases r.operations.clear with
  | none => exact simulates_nil U _ t h (fun _ ha => ha)
  | some clear =>
    exact simulates_singular U _ t "clear" n _ _ rfl hne h (fun _ ha => ha)
      (not_get_or_change _ (by decide) (by decide) _)

theorem changeBlock_simulates (jsopenapi : Schema) (hf : FiltersApart jsopenapi)
    (U : List String) (t : RootCommand) (n relationshipName : String)
    (relationship : Relationship) (h : ChildrenIn U t) (hne : n ≠ "")
    (hp : singularName n ∈ U) :
    Simulates U t (changeBlock jsopenapi t n relationshipName relationship)
      (stepIf relationship.change
        (.relationship "change" (singularName n) (filterKeys jsopenapi n)
          { name := relationshipName,
            flags := addFilterKeys (filterKeys jsopenapi relationship.resource) 0,
            children := 0 })) := by
  unfold changeBlock
  cases relationship.change with
  | none => exact simulates_nil U _ t h (fun _ ha => ha)
  | some change =>
    simp only [singular_eq_singularName n hne]
    refine simulates_relationship jsopenapi hf U t "change" _ n _ _ ?_ h (Or.inr rfl) hp
    show ({ name := relationshipName,
            flags := flagKeys (addFilterTags [] relationship.resource jsopenapi),
            children := 0 } : LeafShape) = _
    rw [addFilterTags_keys jsopenapi hf]
    rfl

theorem getRelatedBlock_simulates (jsopenapi : Schema) (hf : FiltersApart jsopenapi)
    (U : List String) (t : RootCommand) (n relationshipName : String)
    (relationship : Relationship) (h : ChildrenIn U t) (hne : n ≠ "")
    (hp : singularName n ∈ U) :
    Simulates U t (getRelatedBlock jsopenapi t n relationshipName relationship)
      (stepIf relationship.get
        (.relationship "get" (singularName n) (filterKeys jsopenapi n)
          { name := relationshipName, flags := 0, children := 0 })) := by
  unfold getRelatedBlock
  cases relationship.get with
  | none => exact simulates_nil U _ t h (fun _ ha => ha)
  | some get =>
    simp only [singular_eq_singularName n hne]
    exact simulates_relationship jsopenapi hf U t "get" _ n _ _ rfl h (Or.inl rfl) hp

/-- The loop over the relationships of a resource succeeds and takes the steps of the
relationships on the shape. -/
theorem relationshipsLoop_simulates (jsopenapi : Schema) (hf : FiltersApart jsopenapi)
    (U : List String) (n : String) (hne : n ≠ "") (hp : singularName n ∈ U)
    (relationships : List (String × Relationship)) (t : RootCommand)
    (h : ChildrenIn U t) :
    Simulates U t (relationshipsLoop jsopenapi n relationships t)
      (relationships.flatMap (relationshipSteps (filterKeys jsopenapi) n)) := by
  induction relationships generalizing t with
  | nil => exact simulates_nil U U t h (fun _ ha => ha)
  | cons entry rest ih =>
    obtain ⟨relationshipName, relationship⟩ := entry
    obtain ⟨t1, e1, i1, s1⟩ :=
      changeBlock_simulates jsopenapi hf U t n relationshipName relationship h hne hp
    obtain ⟨t2, e2, i2, s2⟩ :=
      getRelatedBlock_simulates jsopenapi hf U t1 n relationshipName relationship i1 hne hp
    obtain ⟨t3, e3, i3, s3⟩ := ih t2 i2
    refine ⟨t3, ?_, i3, ?_⟩
    · rw [relationshipsLoop, e1]
      simp only
      rw [e2]
      exact e3
    · rw [List.flatMap_cons, List.foldl_append, s3]
      unfold relationshipSteps
      rw [List.foldl_append, s2, s1]

/-- The body of the loop over the resources succeeds and takes the steps of the resource
on the shape. -/
theorem addResource_simulates (jsopenapi : Schema) (hf : FiltersApart jsopenapi)
    (U : List String) (t : RootCommand) (n : String) (r : ResourceSchema)
    (h : ChildrenIn U t) (hne : n ≠ "") (h1 : n ∉ U) (h2 : singularName n ∉ U)
    (h3 : n ≠ singularName n) :
    Simulates (singularName n :: n :: U) t (addResource jsopenapi t n r)
      (resourceSteps (filterKeys jsopenapi) (n, r)) := by
  have hfresh : singularName n ∉ n :: U := by
    intro hmem
    rcases List.mem_cons.mp hmem with hm | hm
    · exact h3 hm.symm
    · exact h2 hm
  obtain ⟨t1, e1, i1, s1⟩ := getManyBlock_simulates jsopenapi hf U t n r h h1
  obtain ⟨t2, e2, i2, s2⟩ := getOneBlock_simulates jsopenapi hf (n :: U) t1 n r i1 hne hfresh
  obtain ⟨t3, e3, i3, s3⟩ := editOneBlock_simulates jsopenapi hf _ t2 n r i2 hne
  obtain ⟨t4, e4, i4, s4⟩ := createOneBlock_simulates _ t3 n r i3 hne
  obtain ⟨t5, e5, i5, s5⟩ := deleteBlock_simulates _ t4 n r i4 hne
  obtain ⟨t6, e6, i6, s6⟩ := selectBlock_simulates _ t5 n r i5 hne
  obtain ⟨t7, e7, i7, s7⟩ := clearBlock_simulates _ t6 n r i6 hne
  obtain ⟨t8, e8, i8, s8⟩ := relationshipsLoop_simulates jsopenapi hf _ n hne
    (List.mem_cons_self _ _) r.relationships t7 i7
  refine ⟨t8, ?_, i8, ?_⟩
  · unfold addResource
    simp only [bind, Except.bind, e1, e2, e3, e4, e5, e6, e7]
    exact e8
  · unfold resourceSteps
    simp only [List.foldl_append]
    rw [s8, s7, s6, s5, s4, s3, s2, s1]

/-- The loop over the resources succeeds and takes the steps of the resources on the
shape, when the names and singular names of the resources do not collide with each other
or with the names the tree has. -/
theorem resourcesLoop_simulates (jsopenapi : Schema) (hf : FiltersApart jsopenapi)
    (l : List (String × ResourceSchema)) (U : List String) (t : RootCommand)
    (h : ChildrenIn U t) (hne : ∀ e ∈ l, e.1 ≠ "")
    (hnames : (l.map (fun e => e.1)).Nodup)
    (hsingular : (l.map (fun e => singularName e.1)).Nodup)
    (hcross : ∀ a ∈ l, ∀ b ∈ l, a.1 ≠ singularName b.1)
    (hU : ∀ a ∈ l, a.1 ∉ U ∧ singularName a.1 ∉ U) :
    ∃ after, resourcesLoop jsopenapi l t = .ok after ∧
      (after.subcommands.map (fun verb => verb.name)).Nodup ∧
      treeShape after = l.foldl (addResourceShape (filterKeys jsopenapi)) (treeShape t) := by
  induction l generalizing U t with
  | nil => exact ⟨t, rfl, h.1, rfl⟩
  | cons entry rest ih =>
    obtain ⟨n, r⟩ := entry
    have hmem : (n, r) ∈ (n, r) :: rest := List.mem_cons_self _ _
    rw [List.map_cons, List.nodup_cons] at hnames hsingular
    obtain ⟨t1, e1, i1, s1⟩ := addResource_simulates jsopenapi hf U t n r h
      (hne _ hmem) (hU _ hmem).1 (hU _ hmem).2 (hcross _ hmem _ hmem)
    obtain ⟨t2, e2, i2, s2⟩ := ih (singularName n :: n :: U) t1 i1
      (fun e he => hne e (List.mem_cons_of_mem _ he)) hnames.2 hsingular.2
      (fun a ha b hb => hcross a (List.mem_cons_of_mem _ ha) b (List.mem_cons_of_mem _ hb))
      (by
        intro a ha
        have ha1 := List.mem_cons_of_mem (n, r) ha
        constructor
        · intro hm
          rcases List.mem_cons.mp hm with hm | hm
          · exact hcross a ha1 _ hmem hm
          · rcases List.mem_cons.mp hm with hm | hm
            · exact hnames.1 (hm ▸ List.mem_map_of_mem (fun e => e.1) ha)
            · exact (hU a ha1).1 hm
        · intro hm
          rcases List.mem_cons.mp hm with hm | hm
          · exact hsingular.1
              (hm ▸ List.mem_map_of_mem (fun e => singularName e.1) ha)
          · rcases List.mem_cons.mp hm with hm | hm
            · exact hcross _ hmem a ha1 hm.symm
            · exact (hU a ha1).2 hm)
    refine ⟨t2, ?_, i2, ?_⟩
    · rw [resourcesLoop, e1]
      exact e2
    · rw [List.foldl_cons, s2, s1]
      rfl

theorem initialCommand_childrenIn : ChildrenIn ["next", "previous"] initialCommand := by
  constructor
  · decide
  · intro verb hverb hname
    simp only [initialCommand, List.mem_cons, List.mem_singleton, List.not_mem_nil,
      or_false] at hverb
    rcases hverb with rfl | rfl
    · exact ⟨by decide, by simp⟩
    · rcases hname with hname | hname
      · exact absurd hname (by decide)
      · exact absurd hname (by decide)

/-- On a schema whose names do not collide, `Cmd` succeeds, the verb groups of the tree
have pairwise different names, and the shape of the tree is the shape of the initial tree
after the steps of the resources. -/
theorem Cmd_shape (jsopenapi : Schema) (h : NoCollision jsopenapi) :
    ∃ tree, Cmd jsopenapi = .ok tree ∧ (verbNames tree).Nodup ∧
      treeShape tree
        = jsopenapi.foldl (addResourceShape (filterKeys jsopenapi))
            (treeShape initialCommand) := by
  obtain ⟨hne, hnodup, hf⟩ := h
  unfold commandNames at hnodup
  obtain ⟨hAB, hC, hdisjoint⟩ := List.nodup_append.mp hnodup
  obtain ⟨_, hB, hdisjointAB⟩ := List.nodup_append.mp hAB
  exact resourcesLoop_simulates jsopenapi hf jsopenapi _ initialCommand
    initialCommand_childrenIn hne hB hC
    (fun a ha b hb heq => hdisjoint
      (List.mem_append_right _ (List.mem_map_of_mem (fun e => e.1) ha))
      (heq ▸ List.mem_map_of_mem (fun e => singularName e.1) hb))
    (fun a ha =>
      ⟨fun hm => hdisjointAB hm (List.mem_map_of_mem (fun e => e.1) ha),
        fun hm => hdisjoint (List.mem_append_left _ hm)
          (List.mem_map_of_mem (fun e => singularName e.1) ha)⟩)

/-! ## Claims on the command tree -/

theorem commandNames_eq (jsopenapi : Schema) :
    commandNames jsopenapi
      = ["next", "previous"] ++ mapKeys jsopenapi ++ (mapKeys jsopenapi).map singularName := by
  unfold commandNames mapKeys
  rw [List.map_map]
  rfl

theorem SameResource.refl (a : ResourceSchema) : SameResource a a := by
  refine ⟨?_, rfl, rfl, rfl, rfl, rfl, rfl, List.Perm.refl _, rfl⟩
  cases a.operations.getMany with
  | none => trivial
  | some g => exact ⟨rfl, List.Perm.refl _⟩

/-- A schema whose names do not collide has none in any other order. -/
theorem NoCollision.sameSchema {a b : Schema} (h : NoCollision a) (hsame : SameSchema a b) :
    NoCollision b := by
  obtain ⟨hne, hnodup, hf⟩ := h
  obtain ⟨c, hperm, hforall⟩ := hsame
  have hkeys : mapKeys c = mapKeys b := forall₂_map_fst hforall
  have hpermKeys : (mapKeys a).Perm (mapKeys b) := hkeys ▸ hperm.map Prod.fst
  refine ⟨?_, ?_, ?_⟩
  · intro entry hentry
    obtain ⟨x, hx, hname, _⟩ := forall₂_mem_right hforall entry hentry
    rw [← hname]
    exact hne x (hperm.mem_iff.mpr hx)
  · rw [commandNames_eq] at hnodup ⊢
    exact (((List.Perm.refl _).append hpermKeys).append
      (hpermKeys.map singularName)).nodup_iff.mp hnodup
  · intro entry hentry getMany hmany
    obtain ⟨x, hx, _, hsameResource⟩ := forall₂_mem_right hforall entry hentry
    have hgm := hsameResource.1
    rw [hmany] at hgm
    cases hxg : x.2.operations.getMany with
    | none => rw [hxg] at hgm; exact hgm.elim
    | some g =>
      rw [hxg] at hgm
      exact ((hgm.2.map (fun filter => (declaredKey filter).1)).pairwise_iff
        (fun hab => ⟨hab.2, hab.1⟩)).mp (hf x (hperm.mem_iff.mpr hx) g hxg)

/-- C13, amended: on a schema whose names do not collide (no resource name is empty; the
fixed names `next` and `previous`, the names of the resources and the names of the
resources without their last character are pairwise different; of the flags that two
filters of one resource declare, neither is known to package `cli`, which cuts a flag name
at the first comma or space, under the name of the other), for every two orders in which `Cmd` may visit the
resources, and in each resource the relationships and the filters, `Cmd` succeeds in both
orders and the two command trees are structurally identical up to the order of sibling
commands and of flags: the same names, the same flag names with the same `Required` marks
and the same subcommands, in turn up to order, on every node; and in both trees each verb
group appears exactly once. -/
theorem Cmd_order_independent (s1 s2 : Schema) (h : NoCollision s1)
    (hsame : SameSchema s1 s2) :
    ∃ t1 t2, Cmd s1 = .ok t1 ∧ Cmd s2 = .ok t2 ∧ treeShape t1 = treeShape t2 ∧
      (verbNames t1).Nodup ∧ (verbNames t2).Nodup := by
  obtain ⟨t1, e1, n1, sh1⟩ := Cmd_shape s1 h
  obtain ⟨t2, e2, n2, sh2⟩ := Cmd_shape s2 (h.sameSchema hsame)
  refine ⟨t1, t2, e1, e2, ?_, n1, n2⟩
  obtain ⟨_, hnodup, _⟩ := h
  unfold commandNames at hnodup
  obtain ⟨hAB, hC, hdisjoint⟩ := List.nodup_append.mp hnodup
  obtain ⟨_, hB, _⟩ := List.nodup_append.mp hAB
  have hkeys : filterKeys s1 = filterKeys s2 :=
    funext (filterKeys_sameSchema s1 s2 hsame hB)
  obtain ⟨c, hperm, hforall⟩ := hsame
  rw [sh1, sh2, ← hkeys,
    foldl_addResourceShape_perm (filterKeys s1) s1 c hperm
      (fun a ha b hb heq => hdisjoint
        (List.mem_append_right _ (List.mem_map_of_mem (fun e => e.1) ha))
        (heq ▸ List.mem_map_of_mem (fun e => singularName e.1) hb))
      hC,
    foldl_addResourceShape_congr (filterKeys s1) c s2 hforall]

theorem teamSchema_noCollision : NoCollision teamSchema := by
  refine ⟨by decide, by decide, ?_⟩
  intro entry hentry getMany hmany
  simp only [teamSchema, List.mem_cons, List.mem_singleton, List.not_mem_nil,
    or_false] at hentry
  rcases hentry with rfl | rfl
  · simp only [projectsResource, Option.some.injEq] at hmany
    subst hmany
    decide
  · simp only [languagesResource, Option.some.injEq] at hmany
    subst hmany
    decide

theorem teamSchema_sameSchema : SameSchema teamSchema teamSchemaReordered :=
  ⟨[("languages", languagesResource),
    ("projects", projectsResource [organizationFilter, nameFilter]
      [languagesRelationship, maintainersRelationship])],
    List.Perm.swap _ _ [],
    List.Forall₂.cons ⟨rfl, SameResource.refl _⟩
      (List.Forall₂.cons
        ⟨rfl, ⟨rfl, List.Perm.swap _ _ []⟩, rfl, rfl, rfl, rfl, rfl, rfl,
          List.Perm.swap _ _ [], rfl⟩
        List.Forall₂.nil)⟩

/-- The amended claim C13 at the schema `teamSchema`, with the resources, the filters and
the relationships in two orders. -/
theorem Cmd_order_independent_witness :
    NoCollision teamSchema ∧ SameSchema teamSchema teamSchemaReordered ∧
      ∃ t1 t2, Cmd teamSchema = .ok t1 ∧ Cmd teamSchemaReordered = .ok t2 ∧
        treeShape t1 = treeShape t2 ∧ (verbNames t1).Nodup ∧ (verbNames t2).Nodup :=
  ⟨teamSchema_noCollision, teamSchema_sameSchema,
    Cmd_order_independent teamSchema teamSchemaReordered teamSchema_noCollision
      teamSchema_sameSchema⟩

/-- C13 as stated fails on schemas whose names collide. With the resources `as` (which has
lists) and `ass` (which has a relationship with `get`), the verb group `get` has three
commands when `as` is visited first, because the relationship is put under the command
`get as` of the lists, and four when `ass` is visited first. With the filters `a__b`
(required) and `a-b` (not required) of one resource, which both declare the flag `a-b`, the
flag is required exactly when `a__b` is visited first. With the filters `a` (required) and
`a b` of one resource, the flag `a b` is known to package `cli` as `a`, so the required
flag `a` is declared only when the filter `a` is visited first. -/
theorem Cmd_order_dependent :
    (SameSchema collidingSchema collidingSchemaSwapped ∧
      ∃ t1 t2, Cmd collidingSchema = .ok t1 ∧ Cmd collidingSchemaSwapped = .ok t2 ∧
        commandCount (treeShape t1) = 4 ∧ commandCount (treeShape t2) = 5 ∧
        treeShape t1 ≠ treeShape t2) ∧
    (SameSchema collidingFilters collidingFiltersSwapped ∧
      ∃ t1 t2, Cmd collidingFilters = .ok t1 ∧ Cmd collidingFiltersSwapped = .ok t2 ∧
        requiredCount (treeShape t1) = 1 ∧ requiredCount (treeShape t2) = 0 ∧
        treeShape t1 ≠ treeShape t2) ∧
    (SameSchema collidingLookup collidingLookupSwapped ∧
      ∃ t1 t2, Cmd collidingLookup = .ok t1 ∧ Cmd collidingLookupSwapped = .ok t2 ∧
        requiredCount (treeShape t1) = 1 ∧ requiredCount (treeShape t2) = 0 ∧
        treeShape t1 ≠ treeShape t2) := by
  refine ⟨⟨?_, ?_⟩, ⟨?_, ?_⟩, ⟨?_, ?_⟩⟩
  · exact ⟨collidingSchemaSwapped, List.Perm.swap _ _ [],
      List.Forall₂.cons ⟨rfl, SameResource.refl _⟩
        (List.Forall₂.cons ⟨rfl, SameResource.refl _⟩ List.Forall₂.nil)⟩
  · refine ⟨_, _, rfl, rfl, by decide, by decide, ?_⟩
    intro heq
    exact absurd (congrArg commandCount heq) (by decide)
  · exact ⟨collidingFilters, List.Perm.refl _,
      List.Forall₂.cons
        ⟨rfl, ⟨rfl, List.Perm.swap _ _ []⟩, rfl, rfl, rfl, rfl, rfl, rfl,
          List.Perm.refl _, rfl⟩
        List.Forall₂.nil⟩
  · refine ⟨_, _, rfl, rfl, by decide, by decide, ?_⟩
    intro heq
    exact absurd (congrArg requiredCount heq) (by decide)
  · exact ⟨collidingLookup, List.Perm.refl _,
      List.Forall₂.cons
        ⟨rfl, ⟨rfl, List.Perm.swap _ _ []⟩, rfl, rfl, rfl, rfl, rfl, rfl,
          List.Perm.refl _, rfl⟩
        List.Forall₂.nil⟩
  · refine ⟨_, _, rfl, rfl, by decide, by decide, ?_⟩
    intro heq
    exact absurd (congrArg requiredCount heq) (by decide)

end ApiExplorer
